import Mathlib

/-!
A verification development for a one-way folder synchronization program
(`main.py`).  The filesystem is modelled as a finite tree of directories
and regular files; paths are lists of name components.  A component list
stands for the backslash-separated path string that the program
manipulates: the string `"a\\b\\c"` corresponds to `["a", "b", "c"]`,
`String.split` on the backslash corresponds to the component list itself,
`os.path.join` corresponds to list append, and the program's expression
`"\\".join(entry.path.split("\\")[2::])` corresponds to `List.drop 2`.
All operations of the program are translated into explicit state-passing
functions over this model; fallible operations return `Except`, whose
`error` constructor carries the name of the Python exception raised.
-/

namespace SyncModel

abbrev Path := List String

/-- Content and metadata of a regular file.  `content` is the byte stream;
`mtime` and `perm` model the file metadata (modification timestamp and
permissions), which travel with the file on `shutil.copy2`. -/
structure FileData where
  content : List Nat
  mtime : Nat
  perm : Nat
deriving Repr, DecidableEq

/-- A directory node: named subdirectories and named regular files, in a
fixed enumeration order (the order `os.scandir` yields entries, with
directories enumerated before the regular files of the same node). -/
inductive Tree where
  | node : List (String × Tree) → List (String × FileData) → Tree
deriving Repr

def emptyDir : Tree := .node [] []

def Tree.dirs : Tree → List (String × Tree)
  | .node ds _ => ds

def Tree.files : Tree → List (String × FileData)
  | .node _ fls => fls

/-- Association-list lookup by entry name. -/
def alookup {β : Type} : List (String × β) → String → Option β
  | [], _ => none
  | (k, v) :: es, n => if k = n then some v else alookup es n

def Tree.findDir (t : Tree) (n : String) : Option Tree :=
  alookup t.dirs n

def Tree.findFile (t : Tree) (n : String) : Option FileData :=
  alookup t.files n

/-- The directory subtree reached by following path `p`. -/
def lookupDir : Tree → Path → Option Tree
  | t, [] => some t
  | t, n :: p =>
    match t.findDir n with
    | some c => lookupDir c p
    | none => none

/-- The regular file at path `p`, if any. -/
def lookupFile : Tree → Path → Option FileData
  | _, [] => none
  | t, [n] => t.findFile n
  | t, n :: p =>
    match t.findDir n with
    | some c => lookupFile c p
    | none => none

/-- `os.path.exists`: true for directories and for regular files. -/
def existsFS (t : Tree) (p : Path) : Bool :=
  (lookupDir t p).isSome || (lookupFile t p).isSome

def isDirB (t : Tree) (p : Path) : Bool :=
  (lookupDir t p).isSome

/-- `os.path.join`, on backslash-component lists. -/
def joinPath (a b : Path) : Path := a ++ b

def nodupB : List String → Bool
  | [] => true
  | x :: xs => (!xs.contains x) && nodupB xs

/- Filesystem well-formedness: at every node, the entry names are
pairwise distinct (and no name is both a directory and a file). -/
mutual
/-- Well-formedness of a tree: distinct entry names at every node. -/
def Tree.wfB : Tree → Bool
  | .node ds fls => nodupB (ds.map Prod.fst ++ fls.map Prod.fst) && wfChildren ds
def wfChildren : List (String × Tree) → Bool
  | [] => true
  | (_, c) :: rest => Tree.wfB c && wfChildren rest
end

/- Primitive mutating filesystem operations. -/

def Tree.setDir : Tree → String → Tree → Tree
  | .node ds fls, n, c => .node (ds.map (fun e => (e.1, if e.1 = n then c else e.2))) fls

def Tree.addDir : Tree → String → Tree
  | .node ds fls, n => .node (ds ++ [(n, emptyDir)]) fls

def Tree.delDir : Tree → String → Tree
  | .node ds fls, n => .node (ds.filter (fun e => e.1 ≠ n)) fls

def Tree.delFile : Tree → String → Tree
  | .node ds fls, n => .node ds (fls.filter (fun e => e.1 ≠ n))

def Tree.setFile : Tree → String → FileData → Tree
  | .node ds fls, n, fd =>
    .node ds
      (if (alookup fls n).isSome then fls.map (fun e => (e.1, if e.1 = n then fd else e.2))
       else fls ++ [(n, fd)])

/-- `os.mkdir`: non-recursive single-directory creation.  Fails with
`FileExistsError` if the target exists, `FileNotFoundError` if an
intermediate component is missing, `NotADirectoryError` if an
intermediate component is a regular file. -/
def mkdirFS : Tree → Path → Except String Tree
  | _, [] => .error "FileExistsError"
  | t, [n] =>
    if (t.findDir n).isSome || (t.findFile n).isSome then .error "FileExistsError"
    else .ok (t.addDir n)
  | t, n :: m :: p =>
    match t.findDir n with
    | some c => (mkdirFS c (m :: p)).map (t.setDir n)
    | none =>
      if (t.findFile n).isSome then .error "NotADirectoryError" else .error "FileNotFoundError"

/-- `shutil.rmtree`: recursive removal of the directory at `p`. -/
def rmtreeFS : Tree → Path → Except String Tree
  | _, [] => .error "FileNotFoundError"
  | t, [n] =>
    if (t.findDir n).isSome then .ok (t.delDir n)
    else if (t.findFile n).isSome then .error "NotADirectoryError"
    else .error "FileNotFoundError"
  | t, n :: m :: p =>
    match t.findDir n with
    | some c => (rmtreeFS c (m :: p)).map (t.setDir n)
    | none =>
      if (t.findFile n).isSome then .error "NotADirectoryError" else .error "FileNotFoundError"

/-- `os.remove`: removal of the regular file at `p`. -/
def removeFS : Tree → Path → Except String Tree
  | _, [] => .error "IsADirectoryError"
  | t, [n] =>
    if (t.findFile n).isSome then .ok (t.delFile n)
    else if (t.findDir n).isSome then .error "IsADirectoryError"
    else .error "FileNotFoundError"
  | t, n :: m :: p =>
    match t.findDir n with
    | some c => (removeFS c (m :: p)).map (t.setDir n)
    | none =>
      if (t.findFile n).isSome then .error "NotADirectoryError" else .error "FileNotFoundError"

/-- Opening the file at `p` for reading (`open(p, 'rb')`). -/
def readFileFS (t : Tree) (p : Path) : Except String FileData :=
  match lookupFile t p with
  | some fd => .ok fd
  | none => if (lookupDir t p).isSome then .error "IsADirectoryError" else .error "FileNotFoundError"

/-- Writing file data to path `p`, overwriting an existing regular file.
Fails if the parent is missing or not a directory, or if `p` is a
directory. -/
def writeFileFS : Tree → Path → FileData → Except String Tree
  | _, [], _ => .error "IsADirectoryError"
  | t, [n], fd =>
    if (t.findDir n).isSome then .error "IsADirectoryError" else .ok (t.setFile n fd)
  | t, n :: m :: p, fd =>
    match t.findDir n with
    | some c => (writeFileFS c (m :: p) fd).map (t.setDir n)
    | none =>
      if (t.findFile n).isSome then .error "NotADirectoryError" else .error "FileNotFoundError"

/-- `shutil.copy2 src dst`: read the source file and write its content and
metadata to the destination. -/
def copy2FS (t : Tree) (src dst : Path) : Except String Tree := do
  let fd ← readFileFS t src
  writeFileFS t dst fd

/- Tree listing, translated from `SyncFiles.list_dirs`.  The recursion
visits `os.scandir(path)`; for each directory entry it first appends
`"\\".join(entry.path.split("\\")[2::])` — in the component model, the
entry's absolute path with its first two components dropped — and then
recurses into `entry.path`. -/
mutual
/-- The paths appended by `list_dirs` when scanning the subtree `t` whose
absolute path is `p` (the body of the `with os.scandir(path)` loop). -/
def listDirsBody : Path → Tree → List Path
  | p, .node ds _ => listDirsEntries p ds
def listDirsEntries : Path → List (String × Tree) → List Path
  | _, [] => []
  | p, (n, c) :: rest =>
    ((p ++ [n]).drop 2) :: (listDirsBody (p ++ [n]) c ++ listDirsEntries p rest)
end

/-- `SyncFiles.list_dirs(target_folder_content, path)`: appends to the
accumulator list every folder under `root` and returns the list.
`os.scandir` raises `FileNotFoundError` if `root` does not exist
(`NotADirectoryError` if it is a regular file). -/
def list_dirs (fs : Tree) (acc : List Path) (root : Path) : Except String (List Path) :=
  match lookupDir fs root with
  | some t => .ok (acc ++ listDirsBody root t)
  | none =>
    if (lookupFile fs root).isSome then .error "NotADirectoryError"
    else .error "FileNotFoundError"

/- Tree listing, translated from `SyncFiles.list_files`: regular-file
entries are appended (with the same two-component drop), directory
entries are recursed into. -/
mutual
def listFilesBody : Path → Tree → List Path
  | p, .node ds fls => listFilesEntries p ds ++ fls.map (fun e => (p ++ [e.1]).drop 2)
def listFilesEntries : Path → List (String × Tree) → List Path
  | _, [] => []
  | p, (n, c) :: rest => listFilesBody (p ++ [n]) c ++ listFilesEntries p rest
end

/-- `SyncFiles.list_files(file_list, path)`. -/
def list_files (fs : Tree) (acc : List Path) (root : Path) : Except String (List Path) :=
  match lookupDir fs root with
  | some t => .ok (acc ++ listFilesBody root t)
  | none =>
    if (lookupFile fs root).isSome then .error "NotADirectoryError"
    else .error "FileNotFoundError"

/- Modelled from the spec (§4.2), for comparison with the implementation:
each produced entry path is computed relative to the listing's root
argument itself. -/
mutual
/-- Modelled from the spec: the root-relative directory paths of a tree,
in the top-down enumeration order of `list_dirs`. -/
def specRelDirs : Tree → List Path
  | .node ds _ => specRelDirsList ds
def specRelDirsList : List (String × Tree) → List Path
  | [] => []
  | (n, c) :: rest => [n] :: ((specRelDirs c).map (fun q => n :: q) ++ specRelDirsList rest)
end

mutual
/-- Modelled from the spec: the root-relative regular-file paths of a
tree, in the enumeration order of `list_files`. -/
def specRelFiles : Tree → List Path
  | .node ds fls => specRelFilesList ds ++ fls.map (fun e => [e.1])
def specRelFilesList : List (String × Tree) → List Path
  | [] => []
  | (n, c) :: rest => (specRelFiles c).map (fun q => n :: q) ++ specRelFilesList rest
end

/- The synchronization engine. -/

/-- The path configuration of a `SyncFiles` instance (`sync_interval` is
irrelevant to a single cycle and omitted from the state). -/
structure SyncPaths where
  source_path : Path
  replica_path : Path
  log_path : Path

/-- State threaded through a cycle: the filesystem, the log entries
appended so far (action tag and affected absolute path; the wall-clock
timestamp and console echo of `add_log` are not modelled), and the trace
of mutating filesystem calls performed (call name and target path). -/
structure SyncState where
  fs : Tree
  log : List (String × Path)
  muts : List (String × Path)
deriving Repr

/-- `SyncFiles.add_log(action, changes_path, file_path)`: one appended log
line per call. -/
def add_log (action : String) (changes_path : Path) (st : SyncState) : SyncState :=
  { st with log := st.log ++ [(action, changes_path)] }

/-- One iteration of the `create dirs` loop body of `sync_folders`. -/
def createDirStep (sp : SyncPaths) (d : Path) (st : SyncState) : Except String SyncState :=
  if !existsFS st.fs (joinPath sp.replica_path d) && existsFS st.fs (joinPath sp.source_path d) then do
    let fs1 ← mkdirFS st.fs (joinPath sp.replica_path d)
    let st1 := { st with fs := fs1, muts := st.muts ++ [("os.mkdir", joinPath sp.replica_path d)] }
    .ok (add_log "CREATED" (joinPath sp.replica_path d) st1)
  else
    .ok st

def createDirsLoop (sp : SyncPaths) : List Path → SyncState → Except String SyncState
  | [], st => .ok st
  | d :: rest, st => do
    let st1 ← createDirStep sp d st
    createDirsLoop sp rest st1

/-- One iteration of the `delete dirs and contents` loop body of
`sync_folders`. -/
def deleteDirStep (sp : SyncPaths) (d : Path) (st : SyncState) : Except String SyncState :=
  if existsFS st.fs (joinPath sp.replica_path d) && !existsFS st.fs (joinPath sp.source_path d) then do
    let fs1 ← rmtreeFS st.fs (joinPath sp.replica_path d)
    let st1 := { st with fs := fs1, muts := st.muts ++ [("shutil.rmtree", joinPath sp.replica_path d)] }
    .ok (add_log "REMOVED" (joinPath sp.replica_path d) st1)
  else
    .ok st

def deleteDirsLoop (sp : SyncPaths) : List Path → SyncState → Except String SyncState
  | [], st => .ok st
  | d :: rest, st => do
    let st1 ← deleteDirStep sp d st
    deleteDirsLoop sp rest st1

/-- `SyncFiles.sync_folders`: list both trees (the instance's accumulator
lists are empty at this point: fresh construction, or the reset at the
end of the previous `full_sync`), then create, then delete. -/
def sync_folders (sp : SyncPaths) (st : SyncState) : Except String SyncState := do
  let source_dirs ← list_dirs st.fs [] sp.source_path
  let replica_dirs ← list_dirs st.fs [] sp.replica_path
  let st1 ← createDirsLoop sp source_dirs st
  deleteDirsLoop sp replica_dirs st1

/-- `SyncFiles.compare_files(source_file, replica_file)`: stream both
files through a SHA-256 accumulator and compare the digests.  The chunked
64 KiB read loop feeds the whole byte stream, so the comparison is
`digest (content a) == digest (content b)`; `digest` abstracts the hash
function applied to a file's full content. -/
def compare_files (digest : List Nat → Nat) (fs : Tree) (a b : Path) : Except String Bool := do
  let fa ← readFileFS fs a
  let fb ← readFileFS fs b
  .ok (digest fa.content == digest fb.content)

/-- One iteration of the `copy` loop body of `sync_files` (create the
file if missing from replica, else replace it when the digests differ). -/
def copyFileStep (sp : SyncPaths) (digest : List Nat → Nat) (f : Path) (st : SyncState) :
    Except String SyncState :=
  let rep_file := joinPath sp.replica_path f
  let src_file := joinPath sp.source_path f
  if !existsFS st.fs rep_file && existsFS st.fs src_file then do
    let fs1 ← copy2FS st.fs src_file rep_file
    let st1 := { st with fs := fs1, muts := st.muts ++ [("shutil.copy2", rep_file)] }
    .ok (add_log "CREATED" rep_file st1)
  else if existsFS st.fs rep_file && existsFS st.fs src_file then do
    let same ← compare_files digest st.fs rep_file src_file
    if same = false then do
      let fs1 ← removeFS st.fs rep_file
      let fs2 ← copy2FS fs1 src_file rep_file
      let newmuts := st.muts ++ [("os.remove", rep_file), ("shutil.copy2", rep_file)]
      let st1 := { st with fs := fs2, muts := newmuts }
      .ok (add_log "MODIFIED" rep_file st1)
    else
      .ok st
  else
    .ok st

def copyFilesLoop (sp : SyncPaths) (digest : List Nat → Nat) :
    List Path → SyncState → Except String SyncState
  | [], st => .ok st
  | f :: rest, st => do
    let st1 ← copyFileStep sp digest f st
    copyFilesLoop sp digest rest st1

/-- One iteration of the `delete` loop body of `sync_files`. -/
def deleteFileStep (sp : SyncPaths) (f : Path) (st : SyncState) : Except String SyncState :=
  if existsFS st.fs (joinPath sp.replica_path f) && !existsFS st.fs (joinPath sp.source_path f) then do
    let fs1 ← removeFS st.fs (joinPath sp.replica_path f)
    let st1 := { st with fs := fs1, muts := st.muts ++ [("os.remove", joinPath sp.replica_path f)] }
    .ok (add_log "REMOVED" (joinPath sp.replica_path f) st1)
  else
    .ok st

def deleteFilesLoop (sp : SyncPaths) : List Path → SyncState → Except String SyncState
  | [], st => .ok st
  | f :: rest, st => do
    let st1 ← deleteFileStep sp f st
    deleteFilesLoop sp rest st1

/-- `SyncFiles.sync_files`: list both file sets (note: after the folder
phase has already mutated the replica), then copy/replace, then delete. -/
def sync_files (sp : SyncPaths) (digest : List Nat → Nat) (st : SyncState) :
    Except String SyncState := do
  let source_files ← list_files st.fs [] sp.source_path
  let replica_files ← list_files st.fs [] sp.replica_path
  let st1 ← copyFilesLoop sp digest source_files st
  deleteFilesLoop sp replica_files st1

/-- `SyncFiles.full_sync`: folders first, then files; afterwards the
instance's four accumulator lists are reset to fresh empty lists, so each
cycle starts from empty accumulators (as modelled by the `[]` arguments
inside `sync_folders` and `sync_files`). -/
def full_sync (sp : SyncPaths) (digest : List Nat → Nat) (st : SyncState) :
    Except String SyncState := do
  let st1 ← sync_folders sp st
  sync_files sp digest st1

/- The launcher (`if __name__ == '__main__':` block). -/

/-- Splitting a character list on the backslash separator, with Python
`str.split` semantics on a non-empty separator: an empty input yields
one empty field. -/
def splitOnBackslash : List Char → List Char → List String
  | [], acc => [String.mk acc.reverse]
  | c :: rest, acc =>
    if c = '\\' then String.mk acc.reverse :: splitOnBackslash rest []
    else splitOnBackslash rest (c :: acc)

/-- A path string, split into its backslash-separated components. -/
def toPath (s : String) : Path := splitOnBackslash s.data []

/-- One character of `str.isnumeric`, modelled from the Python/Unicode
semantics the launcher relies on: every ASCII decimal digit is numeric,
and some further characters (such as the vulgar fractions and
superscripts, here represented by U+00BD, U+00B2, U+00B3) are numeric
without being decimal digits, so `int()` rejects them. -/
def pyIsNumericChar (c : Char) : Bool :=
  c.isDigit || c == '½' || c == '²' || c == '³'

/-- `str.isnumeric()`: non-empty and every character numeric. -/
def pyIsNumeric (s : String) : Bool :=
  s.length != 0 && s.toList.all pyIsNumericChar

/-- `int(s)` for the strings at hand: succeeds exactly on non-empty
strings of decimal digits; on a numeric-but-not-decimal string such as
`"½"` it raises `ValueError`. -/
def pyIntParse (s : String) : Option Nat :=
  if !s.data.isEmpty && s.data.all Char.isDigit then
    some (s.data.foldl (fun n c => n * 10 + (c.toNat - 48)) 0)
  else none

/-- Outcome of running the launcher: how many `full_sync` cycles ran to
completion, and the uncaught exception that terminated the process, if
any (`none` means the process was still in its poll loop when the run
bound was reached). -/
structure MainResult where
  cycles : Nat
  err : Option String
deriving Repr, DecidableEq

/-- The `while True` poll loop: `full_sync()` then `time.sleep(int(sys.argv[4]))`.
An exception from `full_sync` propagates uncaught and terminates the
process; so does the `ValueError` from `int()` on a non-decimal interval.
`fuel` bounds how many iterations we observe. -/
def mainLoopPy (sp : SyncPaths) (digest : List Nat → Nat) (interval : String) :
    Nat → SyncState → MainResult
  | 0, _ => ⟨0, none⟩
  | fuel + 1, st =>
    match full_sync sp digest st with
    | .error e => ⟨0, some e⟩
    | .ok st1 =>
      match pyIntParse interval with
      | none => ⟨1, some "ValueError"⟩
      | some _ =>
        let r := mainLoopPy sp digest interval fuel st1
        ⟨r.cycles + 1, r.err⟩

/-- The `__main__` block: argument-count check, existence check of the
three path arguments (in order, `os.path.abspath` modelled as the
identity on the already-absolute component lists), `isnumeric` check of
the interval, then the poll loop. -/
def pymain (fs : Tree) (digest : List Nat → Nat) (argv : List String) (fuel : Nat) : MainResult :=
  match argv with
  | [_, src, rep, logp, interval] =>
    if !existsFS fs (toPath src) then ⟨0, some "FileNotFoundError"⟩
    else if !existsFS fs (toPath rep) then ⟨0, some "FileNotFoundError"⟩
    else if !existsFS fs (toPath logp) then ⟨0, some "FileNotFoundError"⟩
    else if !pyIsNumeric interval then ⟨0, some "ValueError"⟩
    else mainLoopPy ⟨toPath src, toPath rep, toPath logp⟩ digest interval fuel ⟨fs, [], []⟩
  | _ => ⟨0, some "TypeError"⟩

/- A reference-semantics model of Python lists, for the constructor's
treatment of its mutable default arguments.  A heap cell holds a list
value; a Python list variable is a cell index; `list(x)` allocates a
fresh cell holding a copy of `x`'s contents. -/

structure PyHeap where
  cells : List (List Path)
deriving Repr

def PyHeap.read (h : PyHeap) (i : Nat) : List Path := h.cells.getD i []

def PyHeap.alloc (h : PyHeap) (v : List Path) : PyHeap × Nat :=
  (⟨h.cells ++ [v]⟩, h.cells.length)

/-- `lst.append(x)` on the list referenced by cell `i`. -/
def PyHeap.append (h : PyHeap) (i : Nat) (x : Path) : PyHeap :=
  ⟨h.cells.set i (h.read i ++ [x])⟩

/-- `list(src)`: allocate a fresh list object holding a copy of the
contents of the list referenced by `src`. -/
def pyListCopy (h : PyHeap) (src : Nat) : PyHeap × Nat := h.alloc (h.read src)

/-- The four list attributes of a `SyncFiles` instance, as heap
references. -/
structure SyncFilesObj where
  source_folders : Nat
  replica_folders : Nat
  source_files : Nat
  replica_files : Nat
deriving Repr, DecidableEq

/-- `SyncFiles.__init__`: each list argument is copied with `list(...)`
into a fresh attribute list (the path and interval attributes are plain
immutable values and are not part of the heap model). -/
def SyncFiles_init (h : PyHeap) (source_folders replica_folders source_files replica_files : Nat) :
    PyHeap × SyncFilesObj :=
  let (h1, a) := pyListCopy h source_folders
  let (h2, b) := pyListCopy h1 replica_folders
  let (h3, c) := pyListCopy h2 source_files
  let (h4, d) := pyListCopy h3 replica_files
  (h4, ⟨a, b, c, d⟩)

/-- The four default-argument list objects `[]`, allocated once when the
`def __init__` line is evaluated at class-definition time, before any
instance exists. -/
def defaultsHeap : PyHeap × SyncFilesObj :=
  let (h1, a) := PyHeap.alloc ⟨[]⟩ []
  let (h2, b) := h1.alloc []
  let (h3, c) := h2.alloc []
  let (h4, d) := h3.alloc []
  (h4, ⟨a, b, c, d⟩)

/-- Constructing an instance with the defaults: `SyncFiles(src, rep, log, iv)`. -/
def initFromDefaults (h : PyHeap) (defs : SyncFilesObj) : PyHeap × SyncFilesObj :=
  SyncFiles_init h defs.source_folders defs.replica_folders defs.source_files defs.replica_files

/- Association-list helpers for the node-modification primitives. -/

theorem alookup_map_if {β : Type} (ds : List (String × β)) (n x : String) (c : β) :
    alookup (ds.map (fun e => (e.1, if e.1 = n then c else e.2))) x =
      if x = n then (alookup ds n).map (fun _ => c) else alookup ds x := by
  induction ds with
  | nil => simp [alookup]
  | cons e ds ih =>
    obtain ⟨k, v⟩ := e
    by_cases hkn : k = n <;> by_cases hxn : x = n <;> by_cases hkx : k = x <;>
      simp_all [alookup]

theorem alookup_append_ne {β : Type} (ds : List (String × β)) (n x : String) (e : β)
    (h : x ≠ n) : alookup (ds ++ [(n, e)]) x = alookup ds x := by
  induction ds with
  | nil =>
    have hnx : ¬n = x := fun hc => h hc.symm
    simp [alookup, hnx]
  | cons d ds ih =>
    obtain ⟨k, v⟩ := d
    by_cases hkx : k = x <;> simp_all [alookup]

theorem alookup_append_self {β : Type} (ds : List (String × β)) (n : String) (e : β)
    (h : alookup ds n = none) : alookup (ds ++ [(n, e)]) n = some e := by
  induction ds with
  | nil => simp [alookup]
  | cons d ds ih =>
    obtain ⟨k, v⟩ := d
    by_cases hkn : k = n <;> simp_all [alookup]

theorem alookup_filter_ne {β : Type} (ds : List (String × β)) (n x : String) :
    alookup (ds.filter (fun e => e.1 ≠ n)) x = if x = n then none else alookup ds x := by
  induction ds with
  | nil => simp [alookup]
  | cons d ds ih =>
    obtain ⟨k, v⟩ := d
    by_cases hkn : k = n <;> by_cases hkx : k = x <;> simp_all [alookup]

theorem mem_keys_of_alookup {β : Type} {ds : List (String × β)} {n : String} {v : β}
    (h : alookup ds n = some v) : n ∈ ds.map Prod.fst := by
  induction ds with
  | nil => simp [alookup] at h
  | cons d ds ih =>
    obtain ⟨k, w⟩ := d
    by_cases hkn : k = n <;> simp_all [alookup]

theorem mem_of_alookup {β : Type} {ds : List (String × β)} {n : String} {v : β}
    (h : alookup ds n = some v) : (n, v) ∈ ds := by
  induction ds with
  | nil => simp [alookup] at h
  | cons d ds ih =>
    obtain ⟨k, w⟩ := d
    by_cases hkn : k = n <;> simp_all [alookup]

theorem alookup_eq_none_of_not_mem_keys {β : Type} {ds : List (String × β)} {n : String}
    (h : n ∉ ds.map Prod.fst) : alookup ds n = none := by
  induction ds with
  | nil => simp [alookup]
  | cons d ds ih =>
    obtain ⟨k, w⟩ := d
    simp only [List.map_cons, List.mem_cons, not_or] at h
    have hkn : ¬k = n := fun hc => h.1 hc.symm
    simp [alookup, ih h.2, hkn]

/- Lookup decomposition along path append. -/

theorem lookupDir_append (t : Tree) (a b : Path) :
    lookupDir t (a ++ b) = (lookupDir t a).bind (fun c => lookupDir c b) := by
  induction a generalizing t with
  | nil => simp [lookupDir]
  | cons n a ih =>
    simp only [List.cons_append, lookupDir]
    cases t.findDir n with
    | some c => simpa using ih c
    | none => simp

theorem lookupFile_append (t : Tree) (a b : Path) (hb : b ≠ []) :
    lookupFile t (a ++ b) = (lookupDir t a).bind (fun c => lookupFile c b) := by
  induction a generalizing t with
  | nil => simp [lookupDir]
  | cons n a ih =>
    have hab : a ++ b ≠ [] := by
      intro h
      exact hb (List.append_eq_nil.mp h).2
    simp only [List.cons_append]
    cases hcase : a ++ b with
    | nil => exact absurd hcase hab
    | cons m rest =>
      rw [← hcase]
      have : lookupFile t (n :: (a ++ b)) =
          match t.findDir n with
          | some c => lookupFile c (a ++ b)
          | none => none := by
        rw [hcase]; rfl
      rw [this, lookupDir]
      cases t.findDir n with
      | some c => simpa using ih c
      | none => simp

theorem lookupFile_append_singleton (t : Tree) (a : Path) (n : String) :
    lookupFile t (a ++ [n]) = (lookupDir t a).bind (fun c => c.findFile n) := by
  rw [lookupFile_append t a [n] (by simp)]
  cases lookupDir t a with
  | none => rfl
  | some c => rfl

theorem isDirB_of_isDirB_append {t : Tree} {a b : Path} (h : isDirB t (a ++ b) = true) :
    isDirB t a = true := by
  simp only [isDirB, lookupDir_append] at h ⊢
  cases hc : lookupDir t a with
  | none => simp [hc] at h
  | some c => simp

theorem isDirB_parent_of_file {t : Tree} {a : Path} {n : String}
    (h : (lookupFile t (a ++ [n])).isSome = true) : isDirB t a = true := by
  rw [lookupFile_append_singleton] at h
  simp only [isDirB]
  cases hc : lookupDir t a with
  | none => simp [hc] at h
  | some c => simp

/- Prefix divergence: mutations inside one subtree do not affect lookups
into a path that neither extends nor is extended by the mutated path. -/

def Diverges (p q : Path) : Prop := ¬ p <+: q ∧ ¬ q <+: p

theorem diverges_cons {n : String} {p q : Path} (h : Diverges (n :: p) (n :: q)) :
    Diverges p q := by
  refine ⟨fun hpq => h.1 ?_, fun hqp => h.2 ?_⟩
  · exact (List.prefix_cons_inj n).mpr hpq
  · exact (List.prefix_cons_inj n).mpr hqp

theorem diverges_of_append_left {S R : Path} (hlen : S.length = R.length) (hne : S ≠ R)
    (q r : Path) : Diverges (S ++ q) (R ++ r) := by
  constructor
  · intro h
    have h1 : S <+: R ++ r := (List.prefix_append S q).trans h
    have h2 : R <+: R ++ r := List.prefix_append R r
    have := List.prefix_or_prefix_of_prefix h1 h2
    rcases this with h3 | h3
    · exact hne (List.IsPrefix.eq_of_length_le h3 hlen.ge)
    · exact hne ((List.IsPrefix.eq_of_length_le h3 hlen.le).symm)
  · intro h
    have h1 : R <+: S ++ q := (List.prefix_append R r).trans h
    have h2 : S <+: S ++ q := List.prefix_append S q
    have := List.prefix_or_prefix_of_prefix h1 h2
    rcases this with h3 | h3
    · exact hne ((List.IsPrefix.eq_of_length_le h3 hlen.le).symm)
    · exact hne (List.IsPrefix.eq_of_length_le h3 hlen.ge)

/- Well-formedness infrastructure. -/

theorem nodupB_iff (l : List String) : nodupB l = true ↔ l.Nodup := by
  induction l with
  | nil => simp [nodupB]
  | cons x xs ih => simp [nodupB, ih, List.nodup_cons, List.contains, List.elem_eq_mem]

theorem wfB_node (ds : List (String × Tree)) (fls : List (String × FileData)) :
    (Tree.node ds fls).wfB =
      (nodupB (ds.map Prod.fst ++ fls.map Prod.fst) && wfChildren ds) := by
  rfl

theorem wfChildren_mem {ds : List (String × Tree)} {n : String} {c : Tree}
    (hwf : wfChildren ds = true) (hmem : (n, c) ∈ ds) : c.wfB = true := by
  induction ds with
  | nil => simp at hmem
  | cons d ds ih =>
    obtain ⟨k, u⟩ := d
    simp only [wfChildren, Bool.and_eq_true] at hwf
    rcases List.mem_cons.mp hmem with h | h
    · cases h; exact hwf.1
    · exact ih hwf.2 h

theorem wfB_findDir {t : Tree} {n : String} {c : Tree} (hwf : t.wfB = true)
    (h : t.findDir n = some c) : c.wfB = true := by
  obtain ⟨ds, fls⟩ := t
  rw [wfB_node, Bool.and_eq_true] at hwf
  exact wfChildren_mem hwf.2 (mem_of_alookup h)

theorem wfB_lookupDir {t u : Tree} {p : Path} (hwf : t.wfB = true)
    (h : lookupDir t p = some u) : u.wfB = true := by
  induction p generalizing t with
  | nil => simp [lookupDir] at h; exact h ▸ hwf
  | cons n p ih =>
    simp only [lookupDir] at h
    cases hc : t.findDir n with
    | none => simp [hc] at h
    | some c =>
      rw [hc] at h
      exact ih (wfB_findDir hwf hc) h

theorem wf_not_file_of_dir {t : Tree} {n : String} (hwf : t.wfB = true)
    (h : (t.findDir n).isSome = true) : t.findFile n = none := by
  obtain ⟨ds, fls⟩ := t
  rw [wfB_node, Bool.and_eq_true, nodupB_iff] at hwf
  obtain ⟨c, hc⟩ := Option.isSome_iff_exists.mp h
  have hkeys : n ∈ ds.map Prod.fst := mem_keys_of_alookup hc
  have hdisj := List.disjoint_of_nodup_append hwf.1
  exact alookup_eq_none_of_not_mem_keys (fun hmem => hdisj hkeys hmem)

theorem wf_not_dir_of_file {t : Tree} {n : String} (hwf : t.wfB = true)
    (h : (t.findFile n).isSome = true) : t.findDir n = none := by
  cases hc : t.findDir n with
  | none => rfl
  | some c =>
    have := wf_not_file_of_dir hwf (by rw [hc]; rfl)
    simp [this] at h

theorem wf_lookupFile_of_lookupDir {t : Tree} {p : Path} (hwf : t.wfB = true)
    (h : (lookupDir t p).isSome = true) : lookupFile t p = none := by
  induction p generalizing t with
  | nil => rfl
  | cons n p ih =>
    simp only [lookupDir] at h
    cases hc : t.findDir n with
    | none => simp [hc] at h
    | some c =>
      rw [hc] at h
      cases p with
      | nil =>
        simp only [lookupFile]
        exact wf_not_file_of_dir hwf (by simp [hc])
      | cons m q =>
        have : lookupFile t (n :: m :: q) =
            match t.findDir n with
            | some c => lookupFile c (m :: q)
            | none => none := rfl
        rw [this, hc]
        exact ih (wfB_findDir hwf hc) h

/- Unfolding equations for lookups. -/

theorem lookupDir_cons (t : Tree) (n : String) (q : Path) :
    lookupDir t (n :: q) = (t.findDir n).bind (fun c => lookupDir c q) := by
  simp only [lookupDir]
  cases t.findDir n <;> rfl

theorem lookupFile_cons (t : Tree) (n : String) {q : Path} (hq : q ≠ []) :
    lookupFile t (n :: q) = (t.findDir n).bind (fun c => lookupFile c q) := by
  cases q with
  | nil => exact absurd rfl hq
  | cons m rest =>
    show (match t.findDir n with
      | some c => lookupFile c (m :: rest)
      | none => none) = _
    cases t.findDir n <;> rfl

theorem lookupFile_single (t : Tree) (n : String) : lookupFile t [n] = t.findFile n := rfl

theorem lookupDir_single (t : Tree) (n : String) : lookupDir t [n] = t.findDir n := by
  rw [lookupDir_cons]
  cases t.findDir n <;> rfl

theorem lookupDir_emptyDir (q : Path) : lookupDir emptyDir q = (if q = [] then some emptyDir else none) := by
  cases q with
  | nil => rfl
  | cons n rest => simp [lookupDir_cons, emptyDir, Tree.findDir, Tree.dirs, alookup]

theorem lookupFile_emptyDir (q : Path) : lookupFile emptyDir q = none := by
  cases q with
  | nil => rfl
  | cons n rest =>
    cases rest with
    | nil => simp [lookupFile_single, emptyDir, Tree.findFile, Tree.files, alookup]
    | cons m r => simp [lookupFile_cons, emptyDir, Tree.findDir, Tree.dirs, alookup]

/- Effects of the node-modification primitives on single-name lookups. -/

theorem findDir_setDir (t : Tree) (n x : String) (c : Tree) :
    (t.setDir n c).findDir x =
      if x = n then (t.findDir n).map (fun _ => c) else t.findDir x := by
  obtain ⟨ds, fls⟩ := t
  simp [Tree.setDir, Tree.findDir, Tree.dirs, alookup_map_if]

theorem findFile_setDir (t : Tree) (n x : String) (c : Tree) :
    (t.setDir n c).findFile x = t.findFile x := by
  obtain ⟨ds, fls⟩ := t
  rfl

theorem findDir_addDir_ne (t : Tree) {n x : String} (h : x ≠ n) :
    (t.addDir n).findDir x = t.findDir x := by
  obtain ⟨ds, fls⟩ := t
  simp [Tree.addDir, Tree.findDir, Tree.dirs, alookup_append_ne _ _ _ _ h]

theorem findDir_addDir_self (t : Tree) {n : String} (h : t.findDir n = none) :
    (t.addDir n).findDir n = some emptyDir := by
  obtain ⟨ds, fls⟩ := t
  simp only [Tree.findDir, Tree.dirs] at h
  simp [Tree.addDir, Tree.findDir, Tree.dirs, alookup_append_self _ _ _ h]

theorem findFile_addDir (t : Tree) (n x : String) :
    (t.addDir n).findFile x = t.findFile x := by
  obtain ⟨ds, fls⟩ := t
  rfl

theorem findDir_delDir (t : Tree) (n x : String) :
    (t.delDir n).findDir x = if x = n then none else t.findDir x := by
  obtain ⟨ds, fls⟩ := t
  exact alookup_filter_ne ds n x

theorem findFile_delDir (t : Tree) (n x : String) :
    (t.delDir n).findFile x = t.findFile x := by
  obtain ⟨ds, fls⟩ := t
  rfl

theorem findFile_delFile (t : Tree) (n x : String) :
    (t.delFile n).findFile x = if x = n then none else t.findFile x := by
  obtain ⟨ds, fls⟩ := t
  exact alookup_filter_ne fls n x

theorem findDir_delFile (t : Tree) (n x : String) :
    (t.delFile n).findDir x = t.findDir x := by
  obtain ⟨ds, fls⟩ := t
  rfl

theorem findFile_setFile (t : Tree) (n x : String) (fd : FileData) :
    (t.setFile n fd).findFile x = if x = n then some fd else t.findFile x := by
  obtain ⟨ds, fls⟩ := t
  simp only [Tree.setFile, Tree.findFile, Tree.files]
  by_cases hp : (alookup fls n).isSome
  · obtain ⟨v, hv⟩ := Option.isSome_iff_exists.mp hp
    simp [hp, alookup_map_if, hv]
  · have hnone : alookup fls n = none := Option.not_isSome_iff_eq_none.mp hp
    by_cases hx : x = n
    · subst hx
      simp [hp, alookup_append_self _ _ _ hnone]
    · simp [hp, alookup_append_ne _ _ _ _ hx, hx]

theorem findDir_setFile (t : Tree) (n x : String) (fd : FileData) :
    (t.setFile n fd).findDir x = t.findDir x := by
  obtain ⟨ds, fls⟩ := t
  rfl

/- Effects of `mkdirFS`. -/

theorem mkdirFS_ok_inv {t t' : Tree} {n : String} {rest : Path}
    (h : mkdirFS t (n :: rest) = .ok t') :
    (rest = [] ∧ t.findDir n = none ∧ t.findFile n = none ∧ t' = t.addDir n) ∨
    (∃ c c', rest ≠ [] ∧ t.findDir n = some c ∧ mkdirFS c rest = .ok c' ∧ t' = t.setDir n c') := by
  cases rest with
  | nil =>
    left
    simp only [mkdirFS] at h
    by_cases hg : ((t.findDir n).isSome || (t.findFile n).isSome) = true
    · rw [if_pos hg] at h
      exact Except.noConfusion h
    · rw [if_neg hg] at h
      injection h with h
      have h1 : t.findDir n = none := by
        cases hh : t.findDir n with
        | none => rfl
        | some c => exact absurd (by simp [hh]) hg
      have h2 : t.findFile n = none := by
        cases hh : t.findFile n with
        | none => rfl
        | some c => exact absurd (by simp [hh, h1]) hg
      exact ⟨rfl, h1, h2, h.symm⟩
  | cons m r =>
    right
    cases hfd : t.findDir n with
    | none =>
      simp only [mkdirFS, hfd] at h
      split at h <;> exact Except.noConfusion h
    | some c =>
      cases hrec : mkdirFS c (m :: r) with
      | error e =>
        simp only [mkdirFS, hfd, hrec, Except.map] at h
        exact Except.noConfusion h
      | ok c' =>
        simp only [mkdirFS, hfd, hrec, Except.map] at h
        injection h with h
        exact ⟨c, c', by simp, rfl, hrec, h.symm⟩

theorem mkdirFS_lookupFile {t t' : Tree} {p : Path} (h : mkdirFS t p = .ok t') :
    ∀ q, lookupFile t' q = lookupFile t q := by
  induction p generalizing t t' with
  | nil => simp [mkdirFS] at h
  | cons n rest ih =>
    rcases mkdirFS_ok_inv h with ⟨hrest, hfd, hff, ht'⟩ | ⟨c, c', hrest, hfd, hrec, ht'⟩
    · subst ht'
      intro q
      cases q with
      | nil => rfl
      | cons x q' =>
        cases q' with
        | nil => simp [lookupFile_single, findFile_addDir]
        | cons m rr =>
          rw [lookupFile_cons _ _ (by simp), lookupFile_cons _ _ (by simp)]
          by_cases hx : x = n
          · subst hx
            rw [findDir_addDir_self t hfd, hfd]
            simp [lookupFile_emptyDir]
          · rw [findDir_addDir_ne t hx]
    · subst ht'
      intro q
      cases q with
      | nil => rfl
      | cons x q' =>
        cases q' with
        | nil => simp [lookupFile_single, findFile_setDir]
        | cons y ys =>
          rw [lookupFile_cons _ _ (by simp), lookupFile_cons _ _ (by simp), findDir_setDir]
          by_cases hx : x = n
          · subst hx
            rw [if_pos rfl, hfd]
            exact ih hrec (y :: ys)
          · rw [if_neg hx]

theorem mkdirFS_isDirB {t t' : Tree} {p : Path} (h : mkdirFS t p = .ok t') :
    ∀ q, isDirB t' q = true ↔ (isDirB t q = true ∨ q = p) := by
  induction p generalizing t t' with
  | nil => simp [mkdirFS] at h
  | cons n rest ih =>
    rcases mkdirFS_ok_inv h with ⟨hrest, hfd, hff, ht'⟩ | ⟨c, c', hrest, hfd, hrec, ht'⟩
    · subst ht' hrest
      intro q
      cases q with
      | nil => simp [isDirB, lookupDir]
      | cons x q' =>
        simp only [isDirB, lookupDir_cons]
        by_cases hx : x = n
        · subst hx
          rw [findDir_addDir_self t hfd, hfd]
          show (lookupDir emptyDir q').isSome = true ↔
            ((none : Option Tree).isSome = true ∨ x :: q' = [x])
          rw [lookupDir_emptyDir]
          constructor
          · intro hq'
            right
            have hq : q' = [] := by
              by_cases hq : q' = []
              · exact hq
              · rw [if_neg hq] at hq'
                exact absurd hq' (by simp)
            rw [hq]
          · rintro (hfalse | hq)
            · exact absurd hfalse (by simp)
            · injection hq with h1 h2
              simp [h2]
        · rw [findDir_addDir_ne t hx]
          constructor
          · exact fun hs => Or.inl hs
          · rintro (hs | hq)
            · exact hs
            · injection hq with h1 h2
              exact absurd h1 hx
    · subst ht'
      intro q
      cases q with
      | nil => simp [isDirB, lookupDir]
      | cons x q' =>
        simp only [isDirB, lookupDir_cons, findDir_setDir]
        by_cases hx : x = n
        · subst hx
          rw [if_pos rfl, hfd]
          have hih := ih hrec q'
          simp only [isDirB] at hih
          constructor
          · intro hs
            have hs2 : (lookupDir c' q').isSome = true := hs
            rcases hih.mp hs2 with hs' | hq
            · left
              exact (hs' : (lookupDir c q').isSome = true)
            · right
              rw [hq]
          · rintro (hs | hq)
            · have hs2 : (lookupDir c q').isSome = true := hs
              exact (hih.mpr (Or.inl hs2) : (lookupDir c' q').isSome = true)
            · injection hq with h1 h2
              exact (hih.mpr (Or.inr h2) : (lookupDir c' q').isSome = true)
        · rw [if_neg hx]
          constructor
          · exact fun hs => Or.inl hs
          · rintro (hs | hq)
            · exact hs
            · injection hq with h1 h2
              exact absurd h1 hx

theorem mkdirFS_frame {t t' : Tree} {p : Path} (h : mkdirFS t p = .ok t') :
    ∀ q, Diverges p q → lookupDir t' q = lookupDir t q := by
  induction p generalizing t t' with
  | nil => simp [mkdirFS] at h
  | cons n rest ih =>
    rcases mkdirFS_ok_inv h with ⟨hrest, hfd, hff, ht'⟩ | ⟨c, c', hrest, hfd, hrec, ht'⟩
    · subst ht' hrest
      intro q hq
      cases q with
      | nil => exact absurd List.nil_prefix hq.2
      | cons x q' =>
        by_cases hx : x = n
        · subst hx
          exact absurd ⟨q', rfl⟩ hq.1
        · rw [lookupDir_cons, lookupDir_cons, findDir_addDir_ne t hx]
    · subst ht'
      intro q hq
      cases q with
      | nil => exact absurd List.nil_prefix hq.2
      | cons x q' =>
        rw [lookupDir_cons, lookupDir_cons, findDir_setDir]
        by_cases hx : x = n
        · subst hx
          rw [if_pos rfl, hfd]
          exact ih hrec q' (diverges_cons hq)
        · rw [if_neg hx]

theorem alookup_isSome_of_mem_keys {β : Type} {ds : List (String × β)} {n : String}
    (h : n ∈ ds.map Prod.fst) : (alookup ds n).isSome = true := by
  induction ds with
  | nil => simp at h
  | cons d ds ih =>
    obtain ⟨k, v⟩ := d
    by_cases hkn : k = n
    · simp [alookup, hkn]
    · simp only [List.map_cons, List.mem_cons] at h
      rcases h with h | h
      · exact absurd h.symm hkn
      · simp [alookup, hkn, ih h]

theorem wfChildren_map_set {ds : List (String × Tree)} {c' : Tree} {n : String}
    (h : wfChildren ds = true) (hc' : c'.wfB = true) :
    wfChildren (ds.map (fun e => (e.1, if e.1 = n then c' else e.2))) = true := by
  induction ds with
  | nil => simp [wfChildren]
  | cons d ds ih =>
    obtain ⟨k, u⟩ := d
    simp only [wfChildren, Bool.and_eq_true, List.map_cons] at h ⊢
    refine ⟨?_, ih h.2⟩
    by_cases hk : k = n
    · simpa [hk] using hc'
    · simpa [hk] using h.1

theorem wfB_setDir {t c' : Tree} {n : String} (hwf : t.wfB = true)
    (hc' : c'.wfB = true) : (t.setDir n c').wfB = true := by
  obtain ⟨ds, fls⟩ := t
  rw [wfB_node, Bool.and_eq_true] at hwf
  simp only [Tree.setDir]
  rw [wfB_node, Bool.and_eq_true]
  constructor
  · have hkeys : (ds.map (fun e => (e.1, if e.1 = n then c' else e.2))).map Prod.fst
        = ds.map Prod.fst := by
      induction ds with
      | nil => rfl
      | cons d ds ih => simp_all
    rw [hkeys]
    exact hwf.1
  · exact wfChildren_map_set hwf.2 hc'

theorem wfChildren_append_empty {ds : List (String × Tree)} (h : wfChildren ds = true)
    (n : String) : wfChildren (ds ++ [(n, emptyDir)]) = true := by
  induction ds with
  | nil => simp [wfChildren, Tree.wfB, nodupB, emptyDir]
  | cons d ds ih =>
    obtain ⟨k, c⟩ := d
    simp only [wfChildren, Bool.and_eq_true, List.cons_append] at h ⊢
    exact ⟨h.1, ih h.2⟩

theorem wfB_addDir {t : Tree} {n : String} (hwf : t.wfB = true)
    (hfd : t.findDir n = none) (hff : t.findFile n = none) : (t.addDir n).wfB = true := by
  obtain ⟨ds, fls⟩ := t
  simp only [Tree.findDir, Tree.findFile, Tree.dirs, Tree.files] at hfd hff
  rw [wfB_node, Bool.and_eq_true, nodupB_iff] at hwf
  simp only [Tree.addDir]
  rw [wfB_node, Bool.and_eq_true, nodupB_iff]
  constructor
  · have hn : n ∉ ds.map Prod.fst ++ fls.map Prod.fst := by
      intro hmem
      rcases List.mem_append.mp hmem with hm | hm
      · have := alookup_isSome_of_mem_keys hm
        rw [hfd] at this
        exact absurd this (by simp)
      · have := alookup_isSome_of_mem_keys hm
        rw [hff] at this
        exact absurd this (by simp)
    have hperm : ((ds ++ [(n, emptyDir)]).map Prod.fst ++ fls.map Prod.fst).Perm
        (n :: (ds.map Prod.fst ++ fls.map Prod.fst)) := by
      have h1 := (List.perm_append_singleton n (ds.map Prod.fst)).append_right (fls.map Prod.fst)
      simp only [List.map_append, List.map_cons, List.map_nil, List.append_assoc] at h1 ⊢
      simp
    rw [List.Perm.nodup_iff hperm]
    exact List.Nodup.cons hn hwf.1
  · exact wfChildren_append_empty hwf.2 n

theorem mkdirFS_wf {t t' : Tree} {p : Path} (h : mkdirFS t p = .ok t')
    (hwf : t.wfB = true) : t'.wfB = true := by
  induction p generalizing t t' with
  | nil => simp [mkdirFS] at h
  | cons n rest ih =>
    rcases mkdirFS_ok_inv h with ⟨hrest, hfd, hff, ht'⟩ | ⟨c, c', hrest, hfd, hrec, ht'⟩
    · subst ht'
      exact wfB_addDir hwf hfd hff
    · subst ht'
      exact wfB_setDir hwf (ih hrec (wfB_findDir hwf hfd))

theorem mkdirFS_ok {t : Tree} {a : Path} {n : String} (ha : isDirB t a = true)
    (hne : existsFS t (a ++ [n]) = false) : ∃ t', mkdirFS t (a ++ [n]) = .ok t' := by
  induction a generalizing t with
  | nil =>
    simp only [List.nil_append] at hne ⊢
    simp only [existsFS, Bool.or_eq_false_iff] at hne
    have h1 : t.findDir n = none := by
      have h := hne.1
      rw [lookupDir_single] at h
      cases hh : t.findDir n with
      | none => rfl
      | some c =>
        rw [hh] at h
        simp at h
    have h2 : t.findFile n = none := by
      have h := hne.2
      rw [lookupFile_single] at h
      cases hh : t.findFile n with
      | none => rfl
      | some c =>
        rw [hh] at h
        simp at h
    exact ⟨t.addDir n, by simp [mkdirFS, h1, h2]⟩
  | cons m a ih =>
    simp only [isDirB, lookupDir_cons] at ha
    cases hfd : t.findDir m with
    | none => simp [hfd] at ha
    | some c =>
      rw [hfd] at ha
      have ha2 : isDirB c a = true := ha
      have hne' : existsFS c (a ++ [n]) = false := by
        simp only [existsFS, Bool.or_eq_false_iff, isDirB] at hne ⊢
        constructor
        · have := hne.1
          rw [List.cons_append, lookupDir_cons, hfd] at this
          simpa using this
        · have := hne.2
          rw [List.cons_append, lookupFile_cons _ _ (by simp), hfd] at this
          simpa using this
      obtain ⟨c', hc'⟩ := ih ha2 hne'
      refine ⟨t.setDir m c', ?_⟩
      have hshape : ∃ x xs, a ++ [n] = x :: xs := by
        cases a with
        | nil => exact ⟨n, [], rfl⟩
        | cons y ys => exact ⟨y, ys ++ [n], rfl⟩
      obtain ⟨x, xs, hxx⟩ := hshape
      rw [List.cons_append, hxx]
      simp only [mkdirFS, hfd, ← hxx, hc', Except.map]

theorem mkdirFS_fnf {t : Tree} {p : Path} (h : mkdirFS t p = .error "FileNotFoundError") :
    ∃ a, a ≠ [] ∧ a ≠ p ∧ a <+: p ∧ existsFS t a = false := by
  induction p generalizing t with
  | nil => simp [mkdirFS] at h
  | cons n rest ih =>
    cases rest with
    | nil =>
      simp only [mkdirFS] at h
      by_cases hg : ((t.findDir n).isSome || (t.findFile n).isSome) = true
      · rw [if_pos hg] at h
        simp at h
      · rw [if_neg hg] at h
        simp at h
    | cons m r =>
      cases hfd : t.findDir n with
      | none =>
        simp only [mkdirFS, hfd] at h
        by_cases hff : (t.findFile n).isSome = true
        · rw [if_pos hff] at h
          simp at h
        · refine ⟨[n], by simp, by simp, ⟨m :: r, rfl⟩, ?_⟩
          simp only [existsFS, Bool.or_eq_false_iff]
          constructor
          · rw [lookupDir_single, hfd]
            rfl
          · rw [lookupFile_single]
            simpa using hff
      | some c =>
        cases hrec : mkdirFS c (m :: r) with
        | error e =>
          simp only [mkdirFS, hfd, hrec, Except.map] at h
          injection h with h
          subst h
          obtain ⟨a, ha1, ha2, ha3, ha4⟩ := ih hrec
          refine ⟨n :: a, by simp, ?_, ?_, ?_⟩
          · intro hc
            injection hc with h1 h2
            exact ha2 h2
          · exact (List.prefix_cons_inj n).mpr ha3
          · simp only [existsFS, Bool.or_eq_false_iff] at ha4 ⊢
            constructor
            · rw [lookupDir_cons, hfd]
              simpa using ha4.1
            · rw [lookupFile_cons _ _ ha1, hfd]
              simpa using ha4.2
        | ok c' =>
          simp only [mkdirFS, hfd, hrec, Except.map] at h
          exact Except.noConfusion h

/- Effects of `rmtreeFS`. -/

theorem rmtreeFS_ok_inv {t t' : Tree} {n : String} {rest : Path}
    (h : rmtreeFS t (n :: rest) = .ok t') :
    (rest = [] ∧ (t.findDir n).isSome = true ∧ t' = t.delDir n) ∨
    (∃ c c', rest ≠ [] ∧ t.findDir n = some c ∧ rmtreeFS c rest = .ok c' ∧ t' = t.setDir n c') := by
  cases rest with
  | nil =>
    left
    simp only [rmtreeFS] at h
    by_cases hg : (t.findDir n).isSome = true
    · rw [if_pos hg] at h
      injection h with h
      exact ⟨rfl, hg, h.symm⟩
    · rw [if_neg hg] at h
      split at h <;> exact Except.noConfusion h
  | cons m r =>
    right
    cases hfd : t.findDir n with
    | none =>
      simp only [rmtreeFS, hfd] at h
      split at h <;> exact Except.noConfusion h
    | some c =>
      cases hrec : rmtreeFS c (m :: r) with
      | error e =>
        simp only [rmtreeFS, hfd, hrec, Except.map] at h
        exact Except.noConfusion h
      | ok c' =>
        simp only [rmtreeFS, hfd, hrec, Except.map] at h
        injection h with h
        exact ⟨c, c', by simp, rfl, hrec, h.symm⟩

theorem prefix_cons_cases {n x : String} {rest q' : Path} :
    (n :: rest <+: x :: q') ↔ (x = n ∧ rest <+: q') := by
  constructor
  · intro h
    obtain ⟨u, hu⟩ := h
    injection hu with h1 h2
    exact ⟨h1.symm, ⟨u, h2⟩⟩
  · rintro ⟨hx, ⟨u, hu⟩⟩
    exact ⟨u, by simp [hx, hu]⟩

theorem rmtreeFS_isDirB {t t' : Tree} {p : Path} (h : rmtreeFS t p = .ok t') :
    ∀ q, isDirB t' q = true ↔ (isDirB t q = true ∧ ¬ p <+: q) := by
  induction p generalizing t t' with
  | nil => simp [rmtreeFS] at h
  | cons n rest ih =>
    rcases rmtreeFS_ok_inv h with ⟨hrest, hfd, ht'⟩ | ⟨c, c', hrest, hfd, hrec, ht'⟩
    · subst ht' hrest
      intro q
      cases q with
      | nil =>
        simp only [isDirB, lookupDir]
        constructor
        · intro htriv
          exact ⟨rfl, by rintro ⟨u, hu⟩; exact List.noConfusion hu⟩
        · intro hh
          rfl
      | cons x q' =>
        simp only [isDirB, lookupDir_cons, findDir_delDir]
        by_cases hx : x = n
        · subst hx
          rw [if_pos rfl]
          constructor
          · intro hfalse
            exact absurd (hfalse : (none : Option Tree).isSome = true) (by simp)
          · rintro ⟨hdir, hpre⟩
            exact absurd ⟨q', rfl⟩ hpre
        · rw [if_neg hx]
          constructor
          · intro hs
            refine ⟨hs, ?_⟩
            intro hpre
            exact hx (prefix_cons_cases.mp hpre).1
          · rintro ⟨hs, hpre⟩
            exact hs
    · subst ht'
      intro q
      cases q with
      | nil =>
        simp only [isDirB, lookupDir]
        constructor
        · intro htriv
          refine ⟨rfl, ?_⟩
          rintro ⟨u, hu⟩
          exact List.noConfusion hu
        · intro hh
          rfl
      | cons x q' =>
        simp only [isDirB, lookupDir_cons, findDir_setDir]
        by_cases hx : x = n
        · subst hx
          rw [if_pos rfl, hfd]
          have hih := ih hrec q'
          simp only [isDirB] at hih
          constructor
          · intro hs
            have hs2 : (lookupDir c' q').isSome = true := hs
            obtain ⟨hdir, hpre⟩ := hih.mp hs2
            refine ⟨(hdir : (lookupDir c q').isSome = true), ?_⟩
            intro hp
            exact hpre (prefix_cons_cases.mp hp).2
          · rintro ⟨hs, hpre⟩
            have hs2 : (lookupDir c q').isSome = true := hs
            refine (hih.mpr ⟨hs2, ?_⟩ : (lookupDir c' q').isSome = true)
            intro hp
            exact hpre (prefix_cons_cases.mpr ⟨rfl, hp⟩)
        · rw [if_neg hx]
          constructor
          · intro hs
            refine ⟨hs, fun hp => hx (prefix_cons_cases.mp hp).1⟩
          · rintro ⟨hs, hpre⟩
            exact hs

theorem rmtreeFS_lookupFile {t t' : Tree} {p : Path} (hwf : t.wfB = true)
    (h : rmtreeFS t p = .ok t') :
    ∀ q, lookupFile t' q = if p <+: q then none else lookupFile t q := by
  induction p generalizing t t' with
  | nil => simp [rmtreeFS] at h
  | cons n rest ih =>
    rcases rmtreeFS_ok_inv h with ⟨hrest, hfd, ht'⟩ | ⟨c, c', hrest, hfd, hrec, ht'⟩
    · subst ht' hrest
      intro q
      cases q with
      | nil =>
        rw [if_neg (by rintro ⟨u, hu⟩; exact List.noConfusion hu)]
        rfl
      | cons x q' =>
        by_cases hx : x = n
        · subst hx
          rw [if_pos ⟨q', rfl⟩]
          cases q' with
          | nil =>
            rw [lookupFile_single, findFile_delDir]
            exact wf_not_file_of_dir hwf hfd
          | cons y ys =>
            rw [lookupFile_cons _ _ (by simp), findDir_delDir, if_pos rfl]
            rfl
        · rw [if_neg (fun hp => hx (prefix_cons_cases.mp hp).1)]
          cases q' with
          | nil => rw [lookupFile_single, lookupFile_single, findFile_delDir]
          | cons y ys =>
            rw [lookupFile_cons _ _ (by simp), lookupFile_cons _ _ (by simp),
              findDir_delDir, if_neg hx]
    · subst ht'
      intro q
      cases q with
      | nil =>
        rw [if_neg (by rintro ⟨u, hu⟩; exact List.noConfusion hu)]
        rfl
      | cons x q' =>
        by_cases hx : x = n
        · subst hx
          cases q' with
          | nil =>
            rw [if_neg (by
              intro hp
              have := (prefix_cons_cases.mp hp).2
              obtain ⟨u, hu⟩ := this
              exact hrest (List.append_eq_nil.mp hu).1)]
            rw [lookupFile_single, lookupFile_single, findFile_setDir]
          | cons y ys =>
            rw [lookupFile_cons _ _ (by simp), lookupFile_cons _ _ (by simp), findDir_setDir,
              if_pos rfl, hfd]
            have hih := ih (wfB_findDir hwf hfd) hrec (y :: ys)
            by_cases hp : rest <+: y :: ys
            · rw [if_pos (prefix_cons_cases.mpr ⟨rfl, hp⟩)]
              rw [if_pos hp] at hih
              exact hih
            · rw [if_neg (fun hpp => hp (prefix_cons_cases.mp hpp).2)]
              rw [if_neg hp] at hih
              exact hih
        · rw [if_neg (fun hp => hx (prefix_cons_cases.mp hp).1)]
          cases q' with
          | nil => rw [lookupFile_single, lookupFile_single, findFile_setDir]
          | cons y ys =>
            rw [lookupFile_cons _ _ (by simp), lookupFile_cons _ _ (by simp), findDir_setDir,
              if_neg hx]

theorem rmtreeFS_frame {t t' : Tree} {p : Path} (h : rmtreeFS t p = .ok t') :
    ∀ q, Diverges p q → lookupDir t' q = lookupDir t q := by
  induction p generalizing t t' with
  | nil => simp [rmtreeFS] at h
  | cons n rest ih =>
    rcases rmtreeFS_ok_inv h with ⟨hrest, hfd, ht'⟩ | ⟨c, c', hrest, hfd, hrec, ht'⟩
    · subst ht' hrest
      intro q hq
      cases q with
      | nil => exact absurd List.nil_prefix hq.2
      | cons x q' =>
        by_cases hx : x = n
        · subst hx
          exact absurd ⟨q', rfl⟩ hq.1
        · rw [lookupDir_cons, lookupDir_cons, findDir_delDir, if_neg hx]
    · subst ht'
      intro q hq
      cases q with
      | nil => exact absurd List.nil_prefix hq.2
      | cons x q' =>
        rw [lookupDir_cons, lookupDir_cons, findDir_setDir]
        by_cases hx : x = n
        · subst hx
          rw [if_pos rfl, hfd]
          exact ih hrec q' (diverges_cons hq)
        · rw [if_neg hx]

theorem wfChildren_filter {ds : List (String × Tree)} (h : wfChildren ds = true)
    (f : String × Tree → Bool) : wfChildren (ds.filter f) = true := by
  induction ds with
  | nil => simp [wfChildren]
  | cons d ds ih =>
    obtain ⟨k, c⟩ := d
    simp only [wfChildren, Bool.and_eq_true] at h
    rw [List.filter_cons]
    by_cases hf : f (k, c) = true
    · rw [if_pos hf]
      simp only [wfChildren, Bool.and_eq_true]
      exact ⟨h.1, ih h.2⟩
    · rw [if_neg hf]
      exact ih h.2

theorem wfB_delDir {t : Tree} (n : String) (hwf : t.wfB = true) : (t.delDir n).wfB = true := by
  obtain ⟨ds, fls⟩ := t
  rw [wfB_node, Bool.and_eq_true, nodupB_iff] at hwf
  simp only [Tree.delDir]
  rw [wfB_node, Bool.and_eq_true, nodupB_iff]
  constructor
  · refine List.Nodup.sublist ?_ hwf.1
    exact ((List.filter_sublist ds).map Prod.fst).append_right _
  · exact wfChildren_filter hwf.2 _

theorem rmtreeFS_wf {t t' : Tree} {p : Path} (h : rmtreeFS t p = .ok t')
    (hwf : t.wfB = true) : t'.wfB = true := by
  induction p generalizing t t' with
  | nil => simp [rmtreeFS] at h
  | cons n rest ih =>
    rcases rmtreeFS_ok_inv h with ⟨hrest, hfd, ht'⟩ | ⟨c, c', hrest, hfd, hrec, ht'⟩
    · subst ht'
      exact wfB_delDir n hwf
    · subst ht'
      exact wfB_setDir hwf (ih hrec (wfB_findDir hwf hfd))

theorem rmtreeFS_ok {t : Tree} {p : Path} (hd : isDirB t p = true) (hp : p ≠ []) :
    ∃ t', rmtreeFS t p = .ok t' := by
  induction p generalizing t with
  | nil => exact absurd rfl hp
  | cons n rest ih =>
    simp only [isDirB, lookupDir_cons] at hd
    cases hfd : t.findDir n with
    | none => simp [hfd] at hd
    | some c =>
      rw [hfd] at hd
      have hd2 : isDirB c rest = true := hd
      cases rest with
      | nil =>
        refine ⟨t.delDir n, ?_⟩
        simp [rmtreeFS, hfd]
      | cons m r =>
        obtain ⟨c', hc'⟩ := ih hd2 (by simp)
        refine ⟨t.setDir n c', ?_⟩
        simp [rmtreeFS, hfd, hc', Except.map]

/- Effects of `removeFS`. -/

theorem removeFS_ok_inv {t t' : Tree} {n : String} {rest : Path}
    (h : removeFS t (n :: rest) = .ok t') :
    (rest = [] ∧ (t.findFile n).isSome = true ∧ t' = t.delFile n) ∨
    (∃ c c', rest ≠ [] ∧ t.findDir n = some c ∧ removeFS c rest = .ok c' ∧ t' = t.setDir n c') := by
  cases rest with
  | nil =>
    left
    simp only [removeFS] at h
    by_cases hg : (t.findFile n).isSome = true
    · rw [if_pos hg] at h
      injection h with h
      exact ⟨rfl, hg, h.symm⟩
    · rw [if_neg hg] at h
      split at h <;> exact Except.noConfusion h
  | cons m r =>
    right
    cases hfd : t.findDir n with
    | none =>
      simp only [removeFS, hfd] at h
      split at h <;> exact Except.noConfusion h
    | some c =>
      cases hrec : removeFS c (m :: r) with
      | error e =>
        simp only [removeFS, hfd, hrec, Except.map] at h
        exact Except.noConfusion h
      | ok c' =>
        simp only [removeFS, hfd, hrec, Except.map] at h
        injection h with h
        exact ⟨c, c', by simp, rfl, hrec, h.symm⟩

theorem removeFS_lookupFile {t t' : Tree} {p : Path} (h : removeFS t p = .ok t') :
    ∀ q, lookupFile t' q = if q = p then none else lookupFile t q := by
  induction p generalizing t t' with
  | nil => simp [removeFS] at h
  | cons n rest ih =>
    rcases removeFS_ok_inv h with ⟨hrest, hff, ht'⟩ | ⟨c, c', hrest, hfd, hrec, ht'⟩
    · subst ht' hrest
      intro q
      cases q with
      | nil =>
        rw [if_neg (by simp)]
        rfl
      | cons x q' =>
        cases q' with
        | nil =>
          rw [lookupFile_single, findFile_delFile]
          by_cases hx : x = n
          · rw [if_pos hx, if_pos (by rw [hx])]
          · rw [if_neg hx, if_neg (by simp [hx]), lookupFile_single]
        | cons y ys =>
          rw [if_neg (by simp), lookupFile_cons _ _ (by simp), lookupFile_cons _ _ (by simp),
            findDir_delFile]
    · subst ht'
      intro q
      cases q with
      | nil =>
        rw [if_neg (by simp)]
        rfl
      | cons x q' =>
        cases q' with
        | nil =>
          rw [if_neg (by
            intro hc
            injection hc with h1 h2
            exact hrest h2.symm)]
          rw [lookupFile_single, lookupFile_single, findFile_setDir]
        | cons y ys =>
          rw [lookupFile_cons _ _ (by simp), lookupFile_cons _ _ (by simp), findDir_setDir]
          by_cases hx : x = n
          · subst hx
            rw [if_pos rfl, hfd]
            have hih := ih hrec (y :: ys)
            by_cases hq : (y :: ys : Path) = rest
            · rw [if_pos (by rw [hq])]
              rw [if_pos hq] at hih
              exact hih
            · rw [if_neg (by
                intro hc
                injection hc with h1 h2
                exact hq h2)]
              rw [if_neg hq] at hih
              exact hih
          · rw [if_neg hx, if_neg (by
              intro hc
              injection hc with h1 h2
              exact hx h1)]

theorem removeFS_isDirB {t t' : Tree} {p : Path} (h : removeFS t p = .ok t') :
    ∀ q, isDirB t' q = isDirB t q := by
  induction p generalizing t t' with
  | nil => simp [removeFS] at h
  | cons n rest ih =>
    rcases removeFS_ok_inv h with ⟨hrest, hff, ht'⟩ | ⟨c, c', hrest, hfd, hrec, ht'⟩
    · subst ht'
      intro q
      cases q with
      | nil => rfl
      | cons x q' =>
        simp only [isDirB, lookupDir_cons, findDir_delFile]
    · subst ht'
      intro q
      cases q with
      | nil => rfl
      | cons x q' =>
        simp only [isDirB, lookupDir_cons, findDir_setDir]
        by_cases hx : x = n
        · subst hx
          rw [if_pos rfl, hfd]
          have hih := ih hrec q'
          simp only [isDirB] at hih
          exact hih
        · rw [if_neg hx]

theorem removeFS_frame {t t' : Tree} {p : Path} (h : removeFS t p = .ok t') :
    ∀ q, Diverges p q → lookupDir t' q = lookupDir t q := by
  induction p generalizing t t' with
  | nil => simp [removeFS] at h
  | cons n rest ih =>
    rcases removeFS_ok_inv h with ⟨hrest, hff, ht'⟩ | ⟨c, c', hrest, hfd, hrec, ht'⟩
    · subst ht'
      intro q hq
      cases q with
      | nil => exact absurd List.nil_prefix hq.2
      | cons x q' =>
        rw [lookupDir_cons, lookupDir_cons]
        have : (t.delFile n).findDir x = t.findDir x := findDir_delFile t n x
        rw [this]
    · subst ht'
      intro q hq
      cases q with
      | nil => exact absurd List.nil_prefix hq.2
      | cons x q' =>
        rw [lookupDir_cons, lookupDir_cons, findDir_setDir]
        by_cases hx : x = n
        · subst hx
          rw [if_pos rfl, hfd]
          exact ih hrec q' (diverges_cons hq)
        · rw [if_neg hx]

theorem wfB_delFile {t : Tree} (n : String) (hwf : t.wfB = true) : (t.delFile n).wfB = true := by
  obtain ⟨ds, fls⟩ := t
  rw [wfB_node, Bool.and_eq_true, nodupB_iff] at hwf
  simp only [Tree.delFile]
  rw [wfB_node, Bool.and_eq_true, nodupB_iff]
  constructor
  · refine List.Nodup.sublist ?_ hwf.1
    exact ((List.filter_sublist fls).map Prod.fst).append_left _
  · exact hwf.2

theorem removeFS_wf {t t' : Tree} {p : Path} (h : removeFS t p = .ok t')
    (hwf : t.wfB = true) : t'.wfB = true := by
  induction p generalizing t t' with
  | nil => simp [removeFS] at h
  | cons n rest ih =>
    rcases removeFS_ok_inv h with ⟨hrest, hff, ht'⟩ | ⟨c, c', hrest, hfd, hrec, ht'⟩
    · subst ht'
      exact wfB_delFile n hwf
    · subst ht'
      exact wfB_setDir hwf (ih hrec (wfB_findDir hwf hfd))

theorem removeFS_ok {t : Tree} {p : Path} (hf : (lookupFile t p).isSome = true) :
    ∃ t', removeFS t p = .ok t' := by
  induction p generalizing t with
  | nil => simp [lookupFile] at hf
  | cons n rest ih =>
    cases rest with
    | nil =>
      rw [lookupFile_single] at hf
      exact ⟨t.delFile n, by simp [removeFS, hf]⟩
    | cons m r =>
      rw [lookupFile_cons _ _ (by simp)] at hf
      cases hfd : t.findDir n with
      | none => simp [hfd] at hf
      | some c =>
        rw [hfd] at hf
        have hf2 : (lookupFile c (m :: r)).isSome = true := hf
        obtain ⟨c', hc'⟩ := ih hf2
        exact ⟨t.setDir n c', by simp [removeFS, hfd, hc', Except.map]⟩

/- Effects of `writeFileFS` (and hence of the write half of `copy2FS`). -/

theorem writeFileFS_ok_inv {t t' : Tree} {n : String} {rest : Path} {fd : FileData}
    (h : writeFileFS t (n :: rest) fd = .ok t') :
    (rest = [] ∧ t.findDir n = none ∧ t' = t.setFile n fd) ∨
    (∃ c c', rest ≠ [] ∧ t.findDir n = some c ∧ writeFileFS c rest fd = .ok c' ∧
      t' = t.setDir n c') := by
  cases rest with
  | nil =>
    left
    simp only [writeFileFS] at h
    by_cases hg : (t.findDir n).isSome = true
    · rw [if_pos hg] at h
      exact Except.noConfusion h
    · rw [if_neg hg] at h
      injection h with h
      refine ⟨rfl, ?_, h.symm⟩
      cases hh : t.findDir n with
      | none => rfl
      | some c => exact absurd (by simp [hh]) hg
  | cons m r =>
    right
    cases hfd : t.findDir n with
    | none =>
      simp only [writeFileFS, hfd] at h
      split at h <;> exact Except.noConfusion h
    | some c =>
      cases hrec : writeFileFS c (m :: r) fd with
      | error e =>
        simp only [writeFileFS, hfd, hrec, Except.map] at h
        exact Except.noConfusion h
      | ok c' =>
        simp only [writeFileFS, hfd, hrec, Except.map] at h
        injection h with h
        exact ⟨c, c', by simp, rfl, hrec, h.symm⟩

theorem writeFileFS_lookupFile {t t' : Tree} {p : Path} {fd : FileData}
    (h : writeFileFS t p fd = .ok t') :
    ∀ q, lookupFile t' q = if q = p then some fd else lookupFile t q := by
  induction p generalizing t t' with
  | nil => simp [writeFileFS] at h
  | cons n rest ih =>
    rcases writeFileFS_ok_inv h with ⟨hrest, hnd, ht'⟩ | ⟨c, c', hrest, hfd, hrec, ht'⟩
    · subst ht' hrest
      intro q
      cases q with
      | nil =>
        rw [if_neg (by simp)]
        rfl
      | cons x q' =>
        cases q' with
        | nil =>
          rw [lookupFile_single, findFile_setFile]
          by_cases hx : x = n
          · rw [if_pos hx, if_pos (by rw [hx])]
          · rw [if_neg hx, if_neg (by simp [hx]), lookupFile_single]
        | cons y ys =>
          rw [if_neg (by simp), lookupFile_cons _ _ (by simp), lookupFile_cons _ _ (by simp),
            findDir_setFile]
    · subst ht'
      intro q
      cases q with
      | nil =>
        rw [if_neg (by simp)]
        rfl
      | cons x q' =>
        cases q' with
        | nil =>
          rw [if_neg (by
            intro hc
            injection hc with h1 h2
            exact hrest h2.symm)]
          rw [lookupFile_single, lookupFile_single, findFile_setDir]
        | cons y ys =>
          rw [lookupFile_cons _ _ (by simp), lookupFile_cons _ _ (by simp), findDir_setDir]
          by_cases hx : x = n
          · subst hx
            rw [if_pos rfl, hfd]
            have hih := ih hrec (y :: ys)
            by_cases hq : (y :: ys : Path) = rest
            · rw [if_pos (by rw [hq])]
              rw [if_pos hq] at hih
              exact hih
            · rw [if_neg (by
                intro hc
                injection hc with h1 h2
                exact hq h2)]
              rw [if_neg hq] at hih
              exact hih
          · rw [if_neg hx, if_neg (by
              intro hc
              injection hc with h1 h2
              exact hx h1)]

theorem writeFileFS_isDirB {t t' : Tree} {p : Path} {fd : FileData}
    (h : writeFileFS t p fd = .ok t') :
    ∀ q, isDirB t' q = isDirB t q := by
  induction p generalizing t t' with
  | nil => simp [writeFileFS] at h
  | cons n rest ih =>
    rcases writeFileFS_ok_inv h with ⟨hrest, hnd, ht'⟩ | ⟨c, c', hrest, hfd, hrec, ht'⟩
    · subst ht'
      intro q
      cases q with
      | nil => rfl
      | cons x q' =>
        simp only [isDirB, lookupDir_cons, findDir_setFile]
    · subst ht'
      intro q
      cases q with
      | nil => rfl
      | cons x q' =>
        simp only [isDirB, lookupDir_cons, findDir_setDir]
        by_cases hx : x = n
        · subst hx
          rw [if_pos rfl, hfd]
          have hih := ih hrec q'
          simp only [isDirB] at hih
          exact hih
        · rw [if_neg hx]

theorem writeFileFS_frame {t t' : Tree} {p : Path} {fd : FileData}
    (h : writeFileFS t p fd = .ok t') :
    ∀ q, Diverges p q → lookupDir t' q = lookupDir t q := by
  induction p generalizing t t' with
  | nil => simp [writeFileFS] at h
  | cons n rest ih =>
    rcases writeFileFS_ok_inv h with ⟨hrest, hnd, ht'⟩ | ⟨c, c', hrest, hfd, hrec, ht'⟩
    · subst ht'
      intro q hq
      cases q with
      | nil => exact absurd List.nil_prefix hq.2
      | cons x q' =>
        rw [lookupDir_cons, lookupDir_cons, findDir_setFile]
    · subst ht'
      intro q hq
      cases q with
      | nil => exact absurd List.nil_prefix hq.2
      | cons x q' =>
        rw [lookupDir_cons, lookupDir_cons, findDir_setDir]
        by_cases hx : x = n
        · subst hx
          rw [if_pos rfl, hfd]
          exact ih hrec q' (diverges_cons hq)
        · rw [if_neg hx]

theorem wfB_setFile {t : Tree} {n : String} (fd : FileData) (hwf : t.wfB = true)
    (hnd : t.findDir n = none) : (t.setFile n fd).wfB = true := by
  obtain ⟨ds, fls⟩ := t
  simp only [Tree.findDir, Tree.dirs] at hnd
  rw [wfB_node, Bool.and_eq_true, nodupB_iff] at hwf
  simp only [Tree.setFile]
  by_cases hp : (alookup fls n).isSome = true
  · rw [if_pos hp, wfB_node, Bool.and_eq_true, nodupB_iff]
    constructor
    · have hkeys : (fls.map (fun e => (e.1, if e.1 = n then fd else e.2))).map Prod.fst
          = fls.map Prod.fst := by
        induction fls with
        | nil => rfl
        | cons d fls ih => simp_all
      rw [hkeys]
      exact hwf.1
    · exact hwf.2
  · rw [if_neg hp, wfB_node, Bool.and_eq_true, nodupB_iff]
    constructor
    · have hn : n ∉ ds.map Prod.fst ++ fls.map Prod.fst := by
        intro hmem
        rcases List.mem_append.mp hmem with hm | hm
        · have := alookup_isSome_of_mem_keys hm
          rw [hnd] at this
          exact absurd this (by simp)
        · exact hp (alookup_isSome_of_mem_keys hm)
      have hperm : (ds.map Prod.fst ++ ((fls ++ [(n, fd)]).map Prod.fst)).Perm
          (n :: (ds.map Prod.fst ++ fls.map Prod.fst)) := by
        simp only [List.map_append, List.map_cons, List.map_nil]
        have h1 := (List.perm_append_singleton n (fls.map Prod.fst)).append_left (ds.map Prod.fst)
        simp only [List.append_assoc] at h1 ⊢
        exact h1.trans (List.perm_middle)
      rw [List.Perm.nodup_iff hperm]
      exact List.Nodup.cons hn hwf.1
    · exact hwf.2

theorem writeFileFS_wf {t t' : Tree} {p : Path} {fd : FileData}
    (h : writeFileFS t p fd = .ok t') (hwf : t.wfB = true) : t'.wfB = true := by
  induction p generalizing t t' with
  | nil => simp [writeFileFS] at h
  | cons n rest ih =>
    rcases writeFileFS_ok_inv h with ⟨hrest, hnd, ht'⟩ | ⟨c, c', hrest, hfd, hrec, ht'⟩
    · subst ht'
      exact wfB_setFile fd hwf hnd
    · subst ht'
      exact wfB_setDir hwf (ih hrec (wfB_findDir hwf hfd))

theorem writeFileFS_ok {t : Tree} {a : Path} {n : String} (fd : FileData)
    (ha : isDirB t a = true) (hnd : isDirB t (a ++ [n]) = false) :
    ∃ t', writeFileFS t (a ++ [n]) fd = .ok t' := by
  induction a generalizing t with
  | nil =>
    have h1 : (t.findDir n).isSome = false := by
      have := hnd
      rw [List.nil_append, isDirB, lookupDir_single] at this
      exact this
    refine ⟨t.setFile n fd, ?_⟩
    simp only [List.nil_append, writeFileFS, h1]
    simp
  | cons m a ih =>
    simp only [isDirB, lookupDir_cons] at ha
    cases hfd : t.findDir m with
    | none => simp [hfd] at ha
    | some c =>
      rw [hfd] at ha
      have ha2 : isDirB c a = true := ha
      have hnd2 : isDirB c (a ++ [n]) = false := by
        rw [isDirB] at hnd ⊢
        rw [List.cons_append, lookupDir_cons, hfd] at hnd
        exact hnd
      obtain ⟨c', hc'⟩ := ih ha2 hnd2
      refine ⟨t.setDir m c', ?_⟩
      have hshape : ∃ x xs, a ++ [n] = x :: xs := by
        cases a with
        | nil => exact ⟨n, [], rfl⟩
        | cons y ys => exact ⟨y, ys ++ [n], rfl⟩
      obtain ⟨x, xs, hxx⟩ := hshape
      rw [List.cons_append, hxx]
      simp only [writeFileFS, hfd, ← hxx, hc', Except.map]

/- `readFileFS` and `copy2FS`. -/

theorem readFileFS_ok_iff {t : Tree} {p : Path} {fd : FileData} :
    readFileFS t p = .ok fd ↔ lookupFile t p = some fd := by
  constructor
  · intro h
    cases hl : lookupFile t p with
    | none =>
      simp only [readFileFS, hl] at h
      split at h <;> exact Except.noConfusion h
    | some fd' =>
      simp only [readFileFS, hl] at h
      injection h with h
      rw [h]
  · intro h
    simp [readFileFS, h]

theorem copy2FS_ok_inv {t t' : Tree} {src dst : Path} (h : copy2FS t src dst = .ok t') :
    ∃ fd, lookupFile t src = some fd ∧ writeFileFS t dst fd = .ok t' := by
  simp only [copy2FS] at h
  cases hr : readFileFS t src with
  | error e =>
    rw [hr] at h
    exact Except.noConfusion h
  | ok fd =>
    rw [hr] at h
    exact ⟨fd, readFileFS_ok_iff.mp hr, h⟩

theorem copy2FS_ok {t t' : Tree} {src dst : Path} {fd : FileData}
    (hs : lookupFile t src = some fd) (hw : writeFileFS t dst fd = .ok t') :
    copy2FS t src dst = .ok t' := by
  simp only [copy2FS, readFileFS_ok_iff.mpr hs]
  exact hw

/- Listing lemmas. -/

theorem tree_strong_induction (P : Tree → Prop)
    (h : ∀ ds fls, (∀ n c, (n, c) ∈ ds → P c) → P (.node ds fls)) : ∀ t, P t := by
  have key : ∀ N t, sizeOf t ≤ N → P t := by
    intro N
    induction N with
    | zero =>
      intro t ht
      cases t with
      | node ds fls =>
        simp only [Tree.node.sizeOf_spec] at ht
        omega
    | succ N ih =>
      intro t ht
      cases t with
      | node ds fls =>
        refine h ds fls ?_
        intro n c hmem
        refine ih c ?_
        have h1 : sizeOf (n, c) < sizeOf ds := List.sizeOf_lt_of_mem hmem
        have h2 : sizeOf c < sizeOf (n, c) := by
          simp only [Prod.mk.sizeOf_spec]
          omega
        simp only [Tree.node.sizeOf_spec] at ht
        omega
  exact fun t => key (sizeOf t) t le_rfl

theorem listDirsEntries_eq :
    ∀ (ds : List (String × Tree)),
      (∀ n c, (n, c) ∈ ds →
        ∀ p', listDirsBody p' c = (specRelDirs c).map (fun q => (p' ++ q).drop 2)) →
      ∀ p, listDirsEntries p ds = (specRelDirsList ds).map (fun q => (p ++ q).drop 2) := by
  intro ds
  induction ds with
  | nil =>
    intro hih p
    rfl
  | cons e rest ihl =>
    obtain ⟨n, c⟩ := e
    intro hih p
    simp only [listDirsEntries, specRelDirsList, List.map_cons, List.map_append, List.map_map]
    rw [hih n c (by simp) (p ++ [n]), ihl (fun n' c' hm => hih n' c' (by simp [hm]))]
    have hmap : (specRelDirs c).map (fun q => ((p ++ [n]) ++ q).drop 2)
        = (specRelDirs c).map ((fun q => (p ++ q).drop 2) ∘ (fun q => n :: q)) := by
      refine List.map_congr_left ?_
      intro q hq
      show ((p ++ [n]) ++ q).drop 2 = (p ++ (n :: q)).drop 2
      rw [← List.append_cons]
    rw [hmap]

theorem listDirsBody_eq (t : Tree) :
    ∀ p, listDirsBody p t = (specRelDirs t).map (fun q => (p ++ q).drop 2) := by
  induction t using tree_strong_induction with
  | h ds fls ih =>
    intro p
    simp only [listDirsBody, specRelDirs]
    exact listDirsEntries_eq ds ih p

theorem listFilesEntries_eq :
    ∀ (ds : List (String × Tree)),
      (∀ n c, (n, c) ∈ ds →
        ∀ p', listFilesBody p' c = (specRelFiles c).map (fun q => (p' ++ q).drop 2)) →
      ∀ p, listFilesEntries p ds = (specRelFilesList ds).map (fun q => (p ++ q).drop 2) := by
  intro ds
  induction ds with
  | nil =>
    intro hih p
    rfl
  | cons e rest ihl =>
    obtain ⟨n, c⟩ := e
    intro hih p
    simp only [listFilesEntries, specRelFilesList, List.map_append, List.map_map]
    rw [hih n c (by simp) (p ++ [n]), ihl (fun n' c' hm => hih n' c' (by simp [hm]))]
    have hmap : (specRelFiles c).map (fun q => ((p ++ [n]) ++ q).drop 2)
        = (specRelFiles c).map ((fun q => (p ++ q).drop 2) ∘ (fun q => n :: q)) := by
      refine List.map_congr_left ?_
      intro q hq
      show ((p ++ [n]) ++ q).drop 2 = (p ++ (n :: q)).drop 2
      rw [← List.append_cons]
    rw [hmap]

theorem listFilesBody_eq (t : Tree) :
    ∀ p, listFilesBody p t = (specRelFiles t).map (fun q => (p ++ q).drop 2) := by
  induction t using tree_strong_induction with
  | h ds fls ih =>
    intro p
    simp only [listFilesBody, specRelFiles, List.map_append, List.map_map]
    rw [listFilesEntries_eq ds ih p]
    rfl

theorem drop_two_of_len2 {p : Path} (hp : p.length = 2) (q : Path) : (p ++ q).drop 2 = q := by
  rw [← hp, List.drop_left]

/-- With a two-component root, the produced listing is exactly the
root-relative directory listing. -/
theorem listDirsBody_of_len2 {p : Path} (hp : p.length = 2) (t : Tree) :
    listDirsBody p t = specRelDirs t := by
  rw [listDirsBody_eq]
  have : (fun q => (p ++ q).drop 2) = (fun q : Path => q) := by
    funext q
    exact drop_two_of_len2 hp q
  rw [this, List.map_id']

theorem listFilesBody_of_len2 {p : Path} (hp : p.length = 2) (t : Tree) :
    listFilesBody p t = specRelFiles t := by
  rw [listFilesBody_eq]
  have : (fun q => (p ++ q).drop 2) = (fun q : Path => q) := by
    funext q
    exact drop_two_of_len2 hp q
  rw [this, List.map_id']

/- Membership characterization of the relative listings. -/

theorem specRelDirsList_mem_inv {q : Path} {ds : List (String × Tree)}
    (hq : q ∈ specRelDirsList ds) :
    ∃ n c, (n, c) ∈ ds ∧ (q = [n] ∨ ∃ q', q' ∈ specRelDirs c ∧ q = n :: q') := by
  induction ds with
  | nil => simp [specRelDirsList] at hq
  | cons e rest ih =>
    obtain ⟨n, c⟩ := e
    simp only [specRelDirsList, List.mem_cons, List.mem_append] at hq
    rcases hq with hq | hq | hq
    · exact ⟨n, c, by simp, Or.inl hq⟩
    · obtain ⟨q', hq', hqq⟩ := List.mem_map.mp hq
      exact ⟨n, c, by simp, Or.inr ⟨q', hq', hqq.symm⟩⟩
    · obtain ⟨n', c', hm, hrest⟩ := ih hq
      exact ⟨n', c', by simp [hm], hrest⟩

theorem specRelDirsList_mem_of {n : String} {c : Tree} {ds : List (String × Tree)}
    (hm : (n, c) ∈ ds) :
    [n] ∈ specRelDirsList ds ∧ ∀ q ∈ specRelDirs c, n :: q ∈ specRelDirsList ds := by
  induction ds with
  | nil => simp at hm
  | cons e rest ih =>
    obtain ⟨k, u⟩ := e
    rcases List.mem_cons.mp hm with he | he
    · injection he with h1 h2
      subst h1 h2
      constructor
      · simp [specRelDirsList]
      · intro q hq
        simp only [specRelDirsList, List.mem_cons, List.mem_append]
        right
        left
        exact List.mem_map.mpr ⟨q, hq, rfl⟩
    · obtain ⟨ih1, ih2⟩ := ih he
      constructor
      · simp [specRelDirsList, ih1]
      · intro q hq
        simp [specRelDirsList, ih2 q hq]

theorem specRelDirs_ne_nil {q : Path} {t : Tree} (hq : q ∈ specRelDirs t) : q ≠ [] := by
  obtain ⟨ds, fls⟩ := t
  simp only [specRelDirs] at hq
  obtain ⟨n, c, hm, hrest⟩ := specRelDirsList_mem_inv hq
  rcases hrest with h | ⟨q', hq', hqq⟩
  · simp [h]
  · simp [hqq]

theorem alookup_eq_of_mem_nodup {β : Type} {ds : List (String × β)} {n : String} {v : β}
    (hnd : (ds.map Prod.fst).Nodup) (hmem : (n, v) ∈ ds) : alookup ds n = some v := by
  induction ds with
  | nil => simp at hmem
  | cons e rest ih =>
    obtain ⟨k, u⟩ := e
    simp only [List.map_cons, List.nodup_cons] at hnd
    rcases List.mem_cons.mp hmem with he | he
    · injection he with h1 h2
      subst h1 h2
      simp [alookup]
    · by_cases hkn : k = n
      · subst hkn
        exact absurd (List.mem_map.mpr ⟨(k, v), he, rfl⟩) hnd.1
      · simp only [alookup, if_neg hkn]
        exact ih hnd.2 he

theorem wfB_keys_nodup {ds : List (String × Tree)} {fls : List (String × FileData)}
    (hwf : (Tree.node ds fls).wfB = true) :
    (ds.map Prod.fst).Nodup ∧ (fls.map Prod.fst).Nodup := by
  rw [wfB_node, Bool.and_eq_true, nodupB_iff] at hwf
  exact ⟨hwf.1.of_append_left, hwf.1.of_append_right⟩

theorem specRelDirs_mem_iff (t : Tree) :
    t.wfB = true → ∀ q, (q ∈ specRelDirs t ↔ (q ≠ [] ∧ (lookupDir t q).isSome = true)) := by
  induction t using tree_strong_induction with
  | h ds fls ih =>
    intro hwf q
    constructor
    · intro hq
      refine ⟨specRelDirs_ne_nil hq, ?_⟩
      simp only [specRelDirs] at hq
      obtain ⟨n, c, hm, hrest⟩ := specRelDirsList_mem_inv hq
      have hfd : (Tree.node ds fls).findDir n = some c := by
        simp only [Tree.findDir, Tree.dirs]
        exact alookup_eq_of_mem_nodup (wfB_keys_nodup hwf).1 hm
      rcases hrest with h | ⟨q', hq', hqq⟩
      · subst h
        rw [lookupDir_single, hfd]
        rfl
      · subst hqq
        rw [lookupDir_cons, hfd]
        have hwfc : c.wfB = true := wfB_findDir hwf hfd
        exact ((ih n c hm hwfc q').mp hq').2
    · rintro ⟨hne, hsome⟩
      cases q with
      | nil => exact absurd rfl hne
      | cons n q' =>
        rw [lookupDir_cons] at hsome
        cases hfd : (Tree.node ds fls).findDir n with
        | none => simp [hfd] at hsome
        | some c =>
          rw [hfd] at hsome
          have hm : (n, c) ∈ ds := by
            simp only [Tree.findDir, Tree.dirs] at hfd
            exact mem_of_alookup hfd
          cases q' with
          | nil =>
            show [n] ∈ specRelDirsList ds
            exact (specRelDirsList_mem_of hm).1
          | cons m r =>
            show n :: m :: r ∈ specRelDirsList ds
            refine (specRelDirsList_mem_of hm).2 _ ?_
            have hwfc : c.wfB = true := wfB_findDir hwf hfd
            refine (ih n c hm hwfc (m :: r)).mpr ⟨by simp, ?_⟩
            exact hsome

theorem specRelFilesList_mem_inv {q : Path} {ds : List (String × Tree)}
    (hq : q ∈ specRelFilesList ds) :
    ∃ n c, (n, c) ∈ ds ∧ ∃ q', q' ∈ specRelFiles c ∧ q = n :: q' := by
  induction ds with
  | nil => simp [specRelFilesList] at hq
  | cons e rest ih =>
    obtain ⟨n, c⟩ := e
    simp only [specRelFilesList, List.mem_append] at hq
    rcases hq with hq | hq
    · obtain ⟨q', hq', hqq⟩ := List.mem_map.mp hq
      exact ⟨n, c, by simp, q', hq', hqq.symm⟩
    · obtain ⟨n', c', hm, hrest⟩ := ih hq
      exact ⟨n', c', by simp [hm], hrest⟩

theorem specRelFilesList_mem_of {n : String} {c : Tree} {ds : List (String × Tree)}
    (hm : (n, c) ∈ ds) : ∀ q ∈ specRelFiles c, n :: q ∈ specRelFilesList ds := by
  induction ds with
  | nil => simp at hm
  | cons e rest ih =>
    obtain ⟨k, u⟩ := e
    intro q hq
    rcases List.mem_cons.mp hm with he | he
    · injection he with h1 h2
      subst h1 h2
      simp only [specRelFilesList, List.mem_append]
      exact Or.inl (List.mem_map.mpr ⟨q, hq, rfl⟩)
    · simp only [specRelFilesList, List.mem_append]
      exact Or.inr (ih he q hq)

theorem specRelFiles_ne_nil {q : Path} {t : Tree} (hq : q ∈ specRelFiles t) : q ≠ [] := by
  obtain ⟨ds, fls⟩ := t
  simp only [specRelFiles, List.mem_append] at hq
  rcases hq with hq | hq
  · obtain ⟨n, c, hm, q', hq', hqq⟩ := specRelFilesList_mem_inv hq
    simp [hqq]
  · obtain ⟨e, he, hqq⟩ := List.mem_map.mp hq
    simp [← hqq]

theorem specRelFiles_mem_iff (t : Tree) :
    t.wfB = true → ∀ q, (q ∈ specRelFiles t ↔ (lookupFile t q).isSome = true) := by
  induction t using tree_strong_induction with
  | h ds fls ih =>
    intro hwf q
    constructor
    · intro hq
      simp only [specRelFiles, List.mem_append] at hq
      rcases hq with hq | hq
      · obtain ⟨n, c, hm, q', hq', hqq⟩ := specRelFilesList_mem_inv hq
        subst hqq
        have hfd : (Tree.node ds fls).findDir n = some c := by
          simp only [Tree.findDir, Tree.dirs]
          exact alookup_eq_of_mem_nodup (wfB_keys_nodup hwf).1 hm
        have hwfc : c.wfB = true := wfB_findDir hwf hfd
        rw [lookupFile_cons _ _ (specRelFiles_ne_nil hq'), hfd]
        exact (ih n c hm hwfc q').mp hq'
      · obtain ⟨e, he, hqq⟩ := List.mem_map.mp hq
        subst hqq
        rw [lookupFile_single]
        simp only [Tree.findFile, Tree.files]
        exact alookup_isSome_of_mem_keys (List.mem_map.mpr ⟨e, he, rfl⟩)
    · intro hsome
      cases q with
      | nil => simp [lookupFile] at hsome
      | cons n q' =>
        cases q' with
        | nil =>
          rw [lookupFile_single] at hsome
          simp only [Tree.findFile, Tree.files] at hsome
          obtain ⟨fd, hfd⟩ := Option.isSome_iff_exists.mp hsome
          simp only [specRelFiles, List.mem_append]
          right
          exact List.mem_map.mpr ⟨(n, fd), mem_of_alookup hfd, rfl⟩
        | cons m r =>
          rw [lookupFile_cons _ _ (by simp)] at hsome
          cases hfd : (Tree.node ds fls).findDir n with
          | none => simp [hfd] at hsome
          | some c =>
            rw [hfd] at hsome
            have hm : (n, c) ∈ ds := by
              simp only [Tree.findDir, Tree.dirs] at hfd
              exact mem_of_alookup hfd
            have hwfc : c.wfB = true := wfB_findDir hwf hfd
            simp only [specRelFiles, List.mem_append]
            left
            exact specRelFilesList_mem_of hm _ ((ih n c hm hwfc (m :: r)).mpr hsome)

/- Duplicate-freeness and ancestors-first ordering of the listings. -/

theorem specRelDirsList_head {q : Path} {ds : List (String × Tree)}
    (hq : q ∈ specRelDirsList ds) : ∃ n q', q = n :: q' ∧ n ∈ ds.map Prod.fst := by
  obtain ⟨n, c, hm, hrest⟩ := specRelDirsList_mem_inv hq
  rcases hrest with h | ⟨q', hq', hqq⟩
  · exact ⟨n, [], h, List.mem_map.mpr ⟨(n, c), hm, rfl⟩⟩
  · exact ⟨n, q', hqq, List.mem_map.mpr ⟨(n, c), hm, rfl⟩⟩

theorem specRelFilesList_head {q : Path} {ds : List (String × Tree)}
    (hq : q ∈ specRelFilesList ds) :
    ∃ n q', q' ≠ [] ∧ q = n :: q' ∧ n ∈ ds.map Prod.fst := by
  obtain ⟨n, c, hm, q', hq', hqq⟩ := specRelFilesList_mem_inv hq
  exact ⟨n, q', specRelFiles_ne_nil hq', hqq, List.mem_map.mpr ⟨(n, c), hm, rfl⟩⟩

theorem specRelDirsList_nodup :
    ∀ ds : List (String × Tree),
      (∀ n c, (n, c) ∈ ds → (specRelDirs c).Nodup) → (ds.map Prod.fst).Nodup →
      (specRelDirsList ds).Nodup := by
  intro ds
  induction ds with
  | nil =>
    intro _ _
    simp [specRelDirsList]
  | cons e rest ihl =>
    obtain ⟨n, c⟩ := e
    intro hih hkeys
    simp only [List.map_cons, List.nodup_cons] at hkeys
    simp only [specRelDirsList]
    refine List.Nodup.cons ?_ (List.Nodup.append ?_ ?_ ?_)
    · intro hmem
      rcases List.mem_append.mp hmem with hm | hm
      · obtain ⟨q, hq, hqq⟩ := List.mem_map.mp hm
        have := specRelDirs_ne_nil hq
        injection hqq.symm with h1 h2
        exact this h2.symm
      · obtain ⟨m, q', hqq, hmk⟩ := specRelDirsList_head hm
        injection hqq with h1 h2
        subst h1
        exact hkeys.1 hmk
    · exact (hih n c (by simp)).map (fun a b hab => by simpa using hab)
    · exact ihl (fun n' c' hm => hih n' c' (by simp [hm])) hkeys.2
    · intro a ha hb
      obtain ⟨q, hq, hqq⟩ := List.mem_map.mp ha
      obtain ⟨m, q', hqq', hmk⟩ := specRelDirsList_head hb
      rw [hqq'] at hqq
      injection hqq with h1 h2
      subst h1
      exact hkeys.1 hmk

theorem specRelDirs_nodup (t : Tree) : t.wfB = true → (specRelDirs t).Nodup := by
  induction t using tree_strong_induction with
  | h ds fls ih =>
    intro hwf
    refine specRelDirsList_nodup ds ?_ (wfB_keys_nodup hwf).1
    intro n c hm
    refine ih n c hm ?_
    rw [wfB_node, Bool.and_eq_true] at hwf
    exact wfChildren_mem hwf.2 hm

theorem specRelFilesList_nodup :
    ∀ ds : List (String × Tree),
      (∀ n c, (n, c) ∈ ds → (specRelFiles c).Nodup) → (ds.map Prod.fst).Nodup →
      (specRelFilesList ds).Nodup := by
  intro ds
  induction ds with
  | nil =>
    intro _ _
    simp [specRelFilesList]
  | cons e rest ihl =>
    obtain ⟨n, c⟩ := e
    intro hih hkeys
    simp only [List.map_cons, List.nodup_cons] at hkeys
    simp only [specRelFilesList]
    refine List.Nodup.append ?_ ?_ ?_
    · exact (hih n c (by simp)).map (fun a b hab => by simpa using hab)
    · exact ihl (fun n' c' hm => hih n' c' (by simp [hm])) hkeys.2
    · intro a ha hb
      obtain ⟨q, hq, hqq⟩ := List.mem_map.mp ha
      obtain ⟨m, q', hne', hqq', hmk⟩ := specRelFilesList_head hb
      rw [hqq'] at hqq
      injection hqq with h1 h2
      subst h1
      exact hkeys.1 hmk

theorem specRelFiles_nodup (t : Tree) : t.wfB = true → (specRelFiles t).Nodup := by
  induction t using tree_strong_induction with
  | h ds fls ih =>
    intro hwf
    simp only [specRelFiles]
    have hch : ∀ n c, (n, c) ∈ ds → c.wfB = true := by
      intro n c hm
      rw [wfB_node, Bool.and_eq_true] at hwf
      exact wfChildren_mem hwf.2 hm
    refine List.Nodup.append ?_ ?_ ?_
    · exact specRelFilesList_nodup ds (fun n c hm => ih n c hm (hch n c hm))
        (wfB_keys_nodup hwf).1
    · have h1 : (fls.map Prod.fst).Nodup := (wfB_keys_nodup hwf).2
      have h2 : ((fls.map Prod.fst).map (fun k : String => [k])).Nodup := by
        refine h1.map ?_
        intro a b hab
        simpa using hab
      simpa [List.map_map, Function.comp] using h2
    · intro a ha hb
      obtain ⟨m, q', hne', hqq', hmk⟩ := specRelFilesList_head ha
      obtain ⟨e, he, hqq⟩ := List.mem_map.mp hb
      rw [hqq'] at hqq
      injection hqq with h1 h2
      exact hne' h2.symm

/-- The ancestors-first ordering relation: a later listing entry is never
a strict prefix (ancestor) of an earlier one. -/
def ancRel (a b : Path) : Prop := ¬(b <+: a ∧ b ≠ a)

theorem specRelDirsList_pairwise :
    ∀ ds : List (String × Tree),
      (∀ n c, (n, c) ∈ ds → (specRelDirs c).Pairwise ancRel) → (ds.map Prod.fst).Nodup →
      (specRelDirsList ds).Pairwise ancRel := by
  intro ds
  induction ds with
  | nil =>
    intro _ _
    simp [specRelDirsList]
  | cons e rest ihl =>
    obtain ⟨n, c⟩ := e
    intro hih hkeys
    simp only [List.map_cons, List.nodup_cons] at hkeys
    simp only [specRelDirsList]
    rw [List.pairwise_cons]
    constructor
    · intro b hb
      rintro ⟨hpre, hne⟩
      have hbne : b ≠ [] := by
        rcases List.mem_append.mp hb with hm | hm
        · obtain ⟨q, hq, hqq⟩ := List.mem_map.mp hm
          simp [← hqq]
        · obtain ⟨m, q', hqq, hmk⟩ := specRelDirsList_head hm
          simp [hqq]
      cases b with
      | nil => exact hbne rfl
      | cons x b' =>
        obtain ⟨hx, hb'⟩ := prefix_cons_cases.mp hpre
        obtain ⟨u, hu⟩ := hb'
        have hb'nil : b' = [] := (List.append_eq_nil.mp hu).1
        subst hb'nil hx
        exact hne rfl
    · rw [List.pairwise_append]
      refine ⟨?_, ihl (fun n' c' hm => hih n' c' (by simp [hm])) hkeys.2, ?_⟩
      · refine List.Pairwise.map _ ?_ (hih n c (by simp))
        intro a b hab
        rintro ⟨hpre, hne⟩
        obtain ⟨hx, hb⟩ := prefix_cons_cases.mp hpre
        exact hab ⟨hb, fun he => hne (by rw [he])⟩
      · intro a ha b hb
        obtain ⟨q, hq, hqq⟩ := List.mem_map.mp ha
        obtain ⟨m, q', hqq', hmk⟩ := specRelDirsList_head hb
        rintro ⟨hpre, hne⟩
        subst hqq'
        rw [← hqq] at hpre
        obtain ⟨hx, hb'⟩ := prefix_cons_cases.mp hpre
        refine hkeys.1 ?_
        rw [hx]
        exact hmk

theorem specRelDirs_pairwise (t : Tree) : t.wfB = true → (specRelDirs t).Pairwise ancRel := by
  induction t using tree_strong_induction with
  | h ds fls ih =>
    intro hwf
    refine specRelDirsList_pairwise ds ?_ (wfB_keys_nodup hwf).1
    intro n c hm
    refine ih n c hm ?_
    rw [wfB_node, Bool.and_eq_true] at hwf
    exact wfChildren_mem hwf.2 hm

theorem specRelDirs_prefix_closed {t : Tree} (hwf : t.wfB = true) {q r : Path}
    (hq : q ∈ specRelDirs t) (hr : r ≠ []) (hpre : r <+: q) : r ∈ specRelDirs t := by
  have hmem := (specRelDirs_mem_iff t hwf q).mp hq
  refine (specRelDirs_mem_iff t hwf r).mpr ⟨hr, ?_⟩
  obtain ⟨u, hu⟩ := hpre
  have h2 : isDirB t (r ++ u) = true := by
    rw [hu]
    exact hmem.2
  exact isDirB_of_isDirB_append h2

theorem isDirB_dropLast_of_file {t : Tree} {q : Path}
    (hf : (lookupFile t q).isSome = true) : isDirB t q.dropLast = true := by
  have hne : q ≠ [] := by
    rintro rfl
    simp [lookupFile] at hf
  rw [← List.dropLast_append_getLast hne] at hf
  exact isDirB_parent_of_file hf

/- Case analyses of the four reconciliation loop bodies. -/

theorem createDirStep_cases {sp : SyncPaths} {d : Path} {st st' : SyncState}
    (h : createDirStep sp d st = .ok st') :
    (st' = st ∧
      ¬(existsFS st.fs (joinPath sp.replica_path d) = false ∧
        existsFS st.fs (joinPath sp.source_path d) = true)) ∨
    (existsFS st.fs (joinPath sp.replica_path d) = false ∧
      existsFS st.fs (joinPath sp.source_path d) = true ∧
      ∃ fs1, mkdirFS st.fs (joinPath sp.replica_path d) = .ok fs1 ∧
        st' = ⟨fs1, st.log ++ [("CREATED", joinPath sp.replica_path d)],
          st.muts ++ [("os.mkdir", joinPath sp.replica_path d)]⟩) := by
  simp only [createDirStep] at h
  by_cases hg : (!existsFS st.fs (joinPath sp.replica_path d) &&
      existsFS st.fs (joinPath sp.source_path d)) = true
  · rw [if_pos hg] at h
    simp only [Bool.and_eq_true, Bool.not_eq_true'] at hg
    right
    refine ⟨hg.1, hg.2, ?_⟩
    cases hmk : mkdirFS st.fs (joinPath sp.replica_path d) with
    | error e =>
      rw [hmk] at h
      exact Except.noConfusion h
    | ok fs1 =>
      rw [hmk] at h
      injection h with h
      refine ⟨fs1, rfl, ?_⟩
      rw [← h]
      obtain ⟨fs0, lg, mt⟩ := st
      rfl
  · rw [if_neg hg] at h
    injection h with h
    left
    refine ⟨h.symm, ?_⟩
    rintro ⟨h1, h2⟩
    exact hg (by simp [h1, h2])

theorem deleteDirStep_cases {sp : SyncPaths} {d : Path} {st st' : SyncState}
    (h : deleteDirStep sp d st = .ok st') :
    (st' = st ∧
      ¬(existsFS st.fs (joinPath sp.replica_path d) = true ∧
        existsFS st.fs (joinPath sp.source_path d) = false)) ∨
    (existsFS st.fs (joinPath sp.replica_path d) = true ∧
      existsFS st.fs (joinPath sp.source_path d) = false ∧
      ∃ fs1, rmtreeFS st.fs (joinPath sp.replica_path d) = .ok fs1 ∧
        st' = ⟨fs1, st.log ++ [("REMOVED", joinPath sp.replica_path d)],
          st.muts ++ [("shutil.rmtree", joinPath sp.replica_path d)]⟩) := by
  simp only [deleteDirStep] at h
  by_cases hg : (existsFS st.fs (joinPath sp.replica_path d) &&
      !existsFS st.fs (joinPath sp.source_path d)) = true
  · rw [if_pos hg] at h
    simp only [Bool.and_eq_true, Bool.not_eq_true'] at hg
    right
    refine ⟨hg.1, hg.2, ?_⟩
    cases hmk : rmtreeFS st.fs (joinPath sp.replica_path d) with
    | error e =>
      rw [hmk] at h
      exact Except.noConfusion h
    | ok fs1 =>
      rw [hmk] at h
      injection h with h
      refine ⟨fs1, rfl, ?_⟩
      rw [← h]
      obtain ⟨fs0, lg, mt⟩ := st
      rfl
  · rw [if_neg hg] at h
    injection h with h
    left
    refine ⟨h.symm, ?_⟩
    rintro ⟨h1, h2⟩
    exact hg (by simp [h1, h2])

theorem compare_files_ok_inv {digest : List Nat → Nat} {fs : Tree} {a b : Path} {same : Bool}
    (h : compare_files digest fs a b = .ok same) :
    ∃ fa fb, lookupFile fs a = some fa ∧ lookupFile fs b = some fb ∧
      same = (digest fa.content == digest fb.content) := by
  cases hra : readFileFS fs a with
  | error e =>
    simp only [compare_files, hra, bind, Except.bind] at h
    exact Except.noConfusion h
  | ok fa =>
    cases hsa : readFileFS fs b with
    | error e =>
      simp only [compare_files, hra, hsa, bind, Except.bind] at h
      exact Except.noConfusion h
    | ok fb =>
      simp only [compare_files, hra, hsa, bind, Except.bind, Except.ok.injEq] at h
      exact ⟨fa, fb, readFileFS_ok_iff.mp hra, readFileFS_ok_iff.mp hsa, h.symm⟩

theorem copyFileStep_cases {sp : SyncPaths} {digest : List Nat → Nat} {f : Path}
    {st st' : SyncState} (h : copyFileStep sp digest f st = .ok st') :
    (st' = st ∧
      ¬(existsFS st.fs (joinPath sp.replica_path f) = false ∧
        existsFS st.fs (joinPath sp.source_path f) = true) ∧
      (∀ rfd sfd, lookupFile st.fs (joinPath sp.replica_path f) = some rfd →
        lookupFile st.fs (joinPath sp.source_path f) = some sfd →
        digest rfd.content = digest sfd.content)) ∨
    (existsFS st.fs (joinPath sp.replica_path f) = false ∧
      existsFS st.fs (joinPath sp.source_path f) = true ∧
      ∃ fs1, copy2FS st.fs (joinPath sp.source_path f) (joinPath sp.replica_path f) = .ok fs1 ∧
        st' = ⟨fs1, st.log ++ [("CREATED", joinPath sp.replica_path f)],
          st.muts ++ [("shutil.copy2", joinPath sp.replica_path f)]⟩) ∨
    (existsFS st.fs (joinPath sp.replica_path f) = true ∧
      existsFS st.fs (joinPath sp.source_path f) = true ∧
      (∃ rfd sfd, lookupFile st.fs (joinPath sp.replica_path f) = some rfd ∧
        lookupFile st.fs (joinPath sp.source_path f) = some sfd ∧
        digest rfd.content ≠ digest sfd.content) ∧
      ∃ fs1 fs2, removeFS st.fs (joinPath sp.replica_path f) = .ok fs1 ∧
        copy2FS fs1 (joinPath sp.source_path f) (joinPath sp.replica_path f) = .ok fs2 ∧
        st' = ⟨fs2, st.log ++ [("MODIFIED", joinPath sp.replica_path f)],
          st.muts ++ [("os.remove", joinPath sp.replica_path f),
            ("shutil.copy2", joinPath sp.replica_path f)]⟩) := by
  simp only [copyFileStep] at h
  by_cases hg1 : (!existsFS st.fs (joinPath sp.replica_path f) &&
      existsFS st.fs (joinPath sp.source_path f)) = true
  · rw [if_pos hg1] at h
    simp only [Bool.and_eq_true, Bool.not_eq_true'] at hg1
    right
    left
    refine ⟨hg1.1, hg1.2, ?_⟩
    cases hcp : copy2FS st.fs (joinPath sp.source_path f) (joinPath sp.replica_path f) with
    | error e =>
      simp only [hcp, bind, Except.bind] at h
      exact Except.noConfusion h
    | ok fs1 =>
      simp only [hcp, bind, Except.bind, Except.ok.injEq] at h
      refine ⟨fs1, rfl, ?_⟩
      rw [← h]
      obtain ⟨fs0, lg, mt⟩ := st
      rfl
  · rw [if_neg hg1] at h
    have hng1 : ¬(existsFS st.fs (joinPath sp.replica_path f) = false ∧
        existsFS st.fs (joinPath sp.source_path f) = true) := by
      rintro ⟨h1, h2⟩
      exact hg1 (by simp [h1, h2])
    by_cases hg2 : (existsFS st.fs (joinPath sp.replica_path f) &&
        existsFS st.fs (joinPath sp.source_path f)) = true
    · rw [if_pos hg2] at h
      simp only [Bool.and_eq_true] at hg2
      cases hcmp : compare_files digest st.fs (joinPath sp.replica_path f)
          (joinPath sp.source_path f) with
      | error e =>
        simp only [hcmp, bind, Except.bind] at h
        exact Except.noConfusion h
      | ok same =>
        simp only [hcmp, bind, Except.bind] at h
        obtain ⟨rfd, sfd, hrf, hsf, hsame_eq⟩ := compare_files_ok_inv hcmp
        cases hsame : same with
        | true =>
          rw [hsame] at h
          rw [if_neg (by simp)] at h
          injection h with h
          left
          refine ⟨h.symm, hng1, ?_⟩
          intro rfd0 sfd0 hr0 hs0
          rw [hrf] at hr0
          rw [hsf] at hs0
          injection hr0 with hr0
          injection hs0 with hs0
          subst hr0 hs0
          rw [hsame] at hsame_eq
          have hb : (digest rfd.content == digest sfd.content) = true := hsame_eq.symm
          simpa using hb
        | false =>
          rw [hsame] at h
          rw [if_pos rfl] at h
          right
          right
          refine ⟨hg2.1, hg2.2, ?_, ?_⟩
          · refine ⟨rfd, sfd, hrf, hsf, ?_⟩
            intro heq
            rw [hsame] at hsame_eq
            rw [heq] at hsame_eq
            simp at hsame_eq
          · cases hrm : removeFS st.fs (joinPath sp.replica_path f) with
            | error e =>
              simp only [hrm, bind, Except.bind] at h
              exact Except.noConfusion h
            | ok fs1 =>
              simp only [hrm, bind, Except.bind] at h
              cases hcp : copy2FS fs1 (joinPath sp.source_path f)
                  (joinPath sp.replica_path f) with
              | error e =>
                simp only [hcp, bind, Except.bind] at h
                exact Except.noConfusion h
              | ok fs2 =>
                simp only [hcp, bind, Except.bind, Except.ok.injEq] at h
                refine ⟨fs1, fs2, rfl, hcp, ?_⟩
                rw [← h]
                obtain ⟨fs0, lg, mt⟩ := st
                rfl
    · rw [if_neg hg2] at h
      injection h with h
      left
      refine ⟨h.symm, hng1, ?_⟩
      intro rfd0 sfd0 hr0 hs0
      exfalso
      refine hg2 ?_
      simp only [Bool.and_eq_true, existsFS]
      constructor
      · rw [hr0]
        simp
      · rw [hs0]
        simp

theorem deleteFileStep_cases {sp : SyncPaths} {f : Path} {st st' : SyncState}
    (h : deleteFileStep sp f st = .ok st') :
    (st' = st ∧
      ¬(existsFS st.fs (joinPath sp.replica_path f) = true ∧
        existsFS st.fs (joinPath sp.source_path f) = false)) ∨
    (existsFS st.fs (joinPath sp.replica_path f) = true ∧
      existsFS st.fs (joinPath sp.source_path f) = false ∧
      ∃ fs1, removeFS st.fs (joinPath sp.replica_path f) = .ok fs1 ∧
        st' = ⟨fs1, st.log ++ [("REMOVED", joinPath sp.replica_path f)],
          st.muts ++ [("os.remove", joinPath sp.replica_path f)]⟩) := by
  simp only [deleteFileStep] at h
  by_cases hg : (existsFS st.fs (joinPath sp.replica_path f) &&
      !existsFS st.fs (joinPath sp.source_path f)) = true
  · rw [if_pos hg] at h
    simp only [Bool.and_eq_true, Bool.not_eq_true'] at hg
    right
    refine ⟨hg.1, hg.2, ?_⟩
    cases hrm : removeFS st.fs (joinPath sp.replica_path f) with
    | error e =>
      rw [hrm] at h
      exact Except.noConfusion h
    | ok fs1 =>
      rw [hrm] at h
      injection h with h
      refine ⟨fs1, rfl, ?_⟩
      rw [← h]
      obtain ⟨fs0, lg, mt⟩ := st
      rfl
  · rw [if_neg hg] at h
    injection h with h
    left
    refine ⟨h.symm, ?_⟩
    rintro ⟨h1, h2⟩
    exact hg (by simp [h1, h2])

/- Path utilities for the loop proofs. -/

theorem prefix_append_cancel {R a b : Path} : (R ++ a <+: R ++ b) ↔ a <+: b := by
  constructor
  · rintro ⟨u, hu⟩
    rw [List.append_assoc] at hu
    exact ⟨u, List.append_cancel_left hu⟩
  · rintro ⟨u, hu⟩
    exact ⟨u, by rw [List.append_assoc, hu]⟩

theorem dropLast_append_of_ne_nil (l₁ : Path) {l₂ : Path} (h : l₂ ≠ []) :
    (l₁ ++ l₂).dropLast = l₁ ++ l₂.dropLast := by
  induction l₁ with
  | nil => simp
  | cons x l₁ ih =>
    have hne : l₁ ++ l₂ ≠ [] := by
      intro hc
      exact h (List.append_eq_nil.mp hc).2
    rw [List.cons_append, List.dropLast_cons_of_ne_nil hne, ih, List.cons_append]

/-- Every nonempty strict prefix of a list element occurs earlier in the
list. -/
def AncOrderedAt (L : List Path) : Prop :=
  ∀ l1 d l2, L = l1 ++ d :: l2 → ∀ r, r ≠ [] → r <+: d → r ≠ d → r ∈ l1

theorem ancOrdered_of_pairwise_closed {L : List Path} (hp : L.Pairwise ancRel)
    (hc : ∀ d ∈ L, ∀ r, r ≠ [] → r <+: d → r ∈ L) : AncOrderedAt L := by
  intro l1 d l2 hL r hr hpre hne
  have hd : d ∈ L := by
    rw [hL]
    simp
  have hrL : r ∈ L := hc d hd r hr hpre
  rw [hL] at hrL
  rcases List.mem_append.mp hrL with h1 | h1
  · exact h1
  · rcases List.mem_cons.mp h1 with h1 | h1
    · exact absurd h1 hne
    · exfalso
      rw [hL] at hp
      have hp2 := (List.pairwise_append.mp hp).2.1
      rw [List.pairwise_cons] at hp2
      exact hp2.1 r h1 ⟨hpre, hne⟩

/- Phase A: the `create dirs` loop. -/

theorem createDirsLoop_effects {sp : SyncPaths} :
    ∀ (L : List Path) (st st' : SyncState), createDirsLoop sp L st = .ok st' →
      (∀ q, lookupFile st'.fs q = lookupFile st.fs q) ∧
      (∀ q, isDirB st.fs q = true → isDirB st'.fs q = true) ∧
      (∀ q, isDirB st'.fs q = true →
        isDirB st.fs q = true ∨ ∃ d ∈ L, q = joinPath sp.replica_path d) ∧
      (∀ q, (∀ d ∈ L, Diverges (joinPath sp.replica_path d) q) →
        lookupDir st'.fs q = lookupDir st.fs q) ∧
      (st.fs.wfB = true → st'.fs.wfB = true) ∧
      (∃ lg, st'.log = st.log ++ lg ∧ ∀ e ∈ lg, e.1 = "CREATED") ∧
      (∃ mt, st'.muts = st.muts ++ mt) := by
  intro L
  induction L with
  | nil =>
    intro st st' h
    injection h with h
    subst h
    exact ⟨fun q => rfl, fun q hq => hq, fun q hq => Or.inl hq, fun q hdiv => rfl,
      fun hwf => hwf, ⟨[], by simp, by simp⟩, ⟨[], by simp⟩⟩
  | cons d rest ih =>
    intro st st' h
    simp only [createDirsLoop] at h
    cases hstep : createDirStep sp d st with
    | error e =>
      simp only [hstep, bind, Except.bind] at h
      exact Except.noConfusion h
    | ok st1 =>
      simp only [hstep, bind, Except.bind] at h
      obtain ⟨h1, h2, h3, h4, h5, h6, h7⟩ := ih st1 st' h
      rcases createDirStep_cases hstep with ⟨heq, _⟩ | ⟨hne, hsrc, fs1, hmk, hst1⟩
      · subst heq
        refine ⟨h1, h2, ?_, ?_, h5, ?_, ?_⟩
        · intro q hq
          rcases h3 q hq with hq' | ⟨d', hd', hq'⟩
          · exact Or.inl hq'
          · exact Or.inr ⟨d', by simp [hd'], hq'⟩
        · intro q hdiv
          exact h4 q (fun d' hd' => hdiv d' (by simp [hd']))
        · obtain ⟨lg, hlg, hlg2⟩ := h6
          exact ⟨lg, hlg, hlg2⟩
        · exact h7
      · subst hst1
        refine ⟨?_, ?_, ?_, ?_, ?_, ?_, ?_⟩
        · intro q
          rw [h1 q]
          exact mkdirFS_lookupFile hmk q
        · intro q hq
          exact h2 q ((mkdirFS_isDirB hmk q).mpr (Or.inl hq))
        · intro q hq
          rcases h3 q hq with hq' | ⟨d', hd', hq'⟩
          · rcases (mkdirFS_isDirB hmk q).mp hq' with hq'' | hq''
            · exact Or.inl hq''
            · exact Or.inr ⟨d, by simp, hq''⟩
          · exact Or.inr ⟨d', by simp [hd'], hq'⟩
        · intro q hdiv
          rw [h4 q (fun d' hd' => hdiv d' (by simp [hd']))]
          exact mkdirFS_frame hmk q (hdiv d (by simp))
        · intro hwf
          exact h5 (mkdirFS_wf hmk hwf)
        · obtain ⟨lg, hlg, hlg2⟩ := h6
          refine ⟨("CREATED", joinPath sp.replica_path d) :: lg, ?_, ?_⟩
          · rw [hlg]
            simp
          · intro en hen
            rcases List.mem_cons.mp hen with hen | hen
            · rw [hen]
            · exact hlg2 en hen
        · obtain ⟨mt, hmt⟩ := h7
          refine ⟨("os.mkdir", joinPath sp.replica_path d) :: mt, ?_⟩
          rw [hmt]
          simp

theorem createDirsLoop_build {sp : SyncPaths} :
    ∀ (L2 L1 : List Path) (st : SyncState),
      AncOrderedAt (L1 ++ L2) →
      (∀ d ∈ L1 ++ L2, d ≠ []) →
      (∀ d ∈ L1 ++ L2, isDirB st.fs (joinPath sp.source_path d) = true) →
      (∀ d ∈ L1 ++ L2, lookupFile st.fs (joinPath sp.replica_path d) = none) →
      isDirB st.fs sp.replica_path = true →
      (∀ d ∈ L1, isDirB st.fs (joinPath sp.replica_path d) = true) →
      ∃ st', createDirsLoop sp L2 st = .ok st' ∧
        ∀ d ∈ L1 ++ L2, isDirB st'.fs (joinPath sp.replica_path d) = true := by
  intro L2
  induction L2 with
  | nil =>
    intro L1 st hord hne hsrc hnof hroot hdone
    refine ⟨st, rfl, ?_⟩
    intro d hd
    rw [List.append_nil] at hd
    exact hdone d hd
  | cons d rest ih =>
    intro L1 st hord hne hsrc hnof hroot hdone
    have hdmem : d ∈ L1 ++ d :: rest := by simp
    have hstep : ∃ st1, createDirStep sp d st = .ok st1 ∧
        isDirB st1.fs (joinPath sp.replica_path d) = true ∧
        (∀ q, lookupFile st1.fs q = lookupFile st.fs q) ∧
        (∀ q, isDirB st.fs q = true → isDirB st1.fs q = true) := by
      by_cases hg : (!existsFS st.fs (joinPath sp.replica_path d) &&
          existsFS st.fs (joinPath sp.source_path d)) = true
      · have hgrep : existsFS st.fs (joinPath sp.replica_path d) = false := by
          simp only [Bool.and_eq_true, Bool.not_eq_true'] at hg
          exact hg.1
        have hmkok : ∃ fs1, mkdirFS st.fs (joinPath sp.replica_path d) = .ok fs1 := by
          have hdne : d ≠ [] := hne d hdmem
          have hsplit := List.dropLast_append_getLast hdne
          have htarget : joinPath sp.replica_path d =
              (sp.replica_path ++ d.dropLast) ++ [d.getLast hdne] := by
            show sp.replica_path ++ d = _
            rw [List.append_assoc, hsplit]
          rw [htarget]
          refine mkdirFS_ok ?_ ?_
          · by_cases hdl : d.dropLast = []
            · rw [hdl, List.append_nil]
              exact hroot
            · have hdlmem : d.dropLast ∈ L1 :=
                hord L1 d rest rfl d.dropLast hdl (List.dropLast_prefix d)
                  (fun hc => by
                    have := congrArg List.length hc
                    rw [List.length_dropLast] at this
                    have hpos : 0 < d.length := List.length_pos_of_ne_nil hdne
                    omega)
              have hex := hdone d.dropLast hdlmem
              exact hex
          · rw [← htarget]
            exact hgrep
        obtain ⟨fs1, hmk⟩ := hmkok
        refine ⟨⟨fs1, st.log ++ [("CREATED", joinPath sp.replica_path d)],
          st.muts ++ [("os.mkdir", joinPath sp.replica_path d)]⟩, ?_, ?_, ?_, ?_⟩
        · simp only [createDirStep, if_pos hg, hmk, bind, Except.bind]
          rfl
        · exact (mkdirFS_isDirB hmk _).mpr (Or.inr rfl)
        · exact fun q => mkdirFS_lookupFile hmk q
        · exact fun q hq => (mkdirFS_isDirB hmk q).mpr (Or.inl hq)
      · refine ⟨st, ?_, ?_, fun q => rfl, fun q hq => hq⟩
        · simp only [createDirStep, if_neg hg]
        · by_cases hex : existsFS st.fs (joinPath sp.replica_path d) = true
          · simp only [existsFS, Bool.or_eq_true] at hex
            rcases hex with hex | hex
            · exact hex
            · exfalso
              rw [hnof d hdmem] at hex
              simp at hex
          · exfalso
            refine hg ?_
            simp only [Bool.and_eq_true, Bool.not_eq_true']
            refine ⟨?_, ?_⟩
            · cases hval : existsFS st.fs (joinPath sp.replica_path d) with
              | true => exact absurd hval hex
              | false => rfl
            · simp only [existsFS, Bool.or_eq_true]
              exact Or.inl ((hsrc d hdmem : isDirB st.fs (joinPath sp.source_path d) = true))
    obtain ⟨st1, hstep1, hd1, hfiles1, hmono1⟩ := hstep
    have hord' : AncOrderedAt ((L1 ++ [d]) ++ rest) := by
      intro l1' d' l2' hL r hr hpre hne'
      have : L1 ++ d :: rest = l1' ++ d' :: l2' := by
        rw [← hL]
        simp
      exact hord l1' d' l2' this r hr hpre hne'
    have hperm : ∀ x : Path, x ∈ (L1 ++ [d]) ++ rest ↔ x ∈ L1 ++ d :: rest := by
      intro x
      simp only [List.mem_append, List.mem_cons, List.mem_singleton]
      tauto
    obtain ⟨st', hloop, hpost⟩ := ih (L1 ++ [d]) st1
      hord'
      (fun d' hd' => hne d' ((hperm d').mp hd'))
      (fun d' hd' => hmono1 _ (hsrc d' ((hperm d').mp hd')))
      (fun d' hd' => by
        rw [hfiles1]
        exact hnof d' ((hperm d').mp hd'))
      (hmono1 _ hroot)
      (fun d' hd' => by
        rcases List.mem_append.mp hd' with hh | hh
        · exact hmono1 _ (hdone d' hh)
        · rw [List.mem_singleton.mp hh]
          exact hd1)
    refine ⟨st', ?_, ?_⟩
    · simp only [createDirsLoop, hstep1, bind, Except.bind]
      exact hloop
    · intro d' hd'
      exact hpost d' ((hperm d').mpr hd')

/- Phase B: the `delete dirs and contents` loop. -/

theorem deleteDirsLoop_append {sp : SyncPaths} :
    ∀ (xs ys : List Path) (st st' : SyncState),
      deleteDirsLoop sp (xs ++ ys) st = .ok st' ↔
        ∃ stm, deleteDirsLoop sp xs st = .ok stm ∧ deleteDirsLoop sp ys stm = .ok st' := by
  intro xs
  induction xs with
  | nil =>
    intro ys st st'
    constructor
    · intro h
      exact ⟨st, rfl, h⟩
    · rintro ⟨stm, hm, hy⟩
      injection hm with hm
      rw [hm]
      exact hy
  | cons d rest ih =>
    intro ys st st'
    constructor
    · intro h
      simp only [List.cons_append, deleteDirsLoop] at h
      cases hstep : deleteDirStep sp d st with
      | error e =>
        simp only [hstep, bind, Except.bind] at h
        exact Except.noConfusion h
      | ok st1 =>
        simp only [hstep, bind, Except.bind] at h
        obtain ⟨stm, hm, hy⟩ := (ih ys st1 st').mp h
        refine ⟨stm, ?_, hy⟩
        simp only [deleteDirsLoop, hstep, bind, Except.bind]
        exact hm
    · rintro ⟨stm, hm, hy⟩
      simp only [deleteDirsLoop] at hm
      cases hstep : deleteDirStep sp d st with
      | error e =>
        simp only [hstep, bind, Except.bind] at hm
        exact Except.noConfusion hm
      | ok st1 =>
        simp only [hstep, bind, Except.bind] at hm
        simp only [List.cons_append, deleteDirsLoop, hstep, bind, Except.bind]
        exact (ih ys st1 st').mpr ⟨stm, hm, hy⟩

theorem deleteDirsLoop_effects {sp : SyncPaths} :
    ∀ (L : List Path) (st st' : SyncState), st.fs.wfB = true →
      deleteDirsLoop sp L st = .ok st' →
      (∀ q, isDirB st'.fs q = true → isDirB st.fs q = true) ∧
      (∀ q, lookupFile st'.fs q = lookupFile st.fs q ∨ lookupFile st'.fs q = none) ∧
      (∀ q, (∀ d ∈ L, Diverges (joinPath sp.replica_path d) q) →
        lookupDir st'.fs q = lookupDir st.fs q ∧ lookupFile st'.fs q = lookupFile st.fs q) ∧
      st'.fs.wfB = true ∧
      (∃ lg, st'.log = st.log ++ lg ∧
        ∀ e ∈ lg, ∃ d ∈ L, e = ("REMOVED", joinPath sp.replica_path d)) ∧
      (∃ mt, st'.muts = st.muts ++ mt) := by
  intro L
  induction L with
  | nil =>
    intro st st' hwf h
    injection h with h
    subst h
    exact ⟨fun q hq => hq, fun q => Or.inl rfl, fun q hdiv => ⟨rfl, rfl⟩, hwf,
      ⟨[], by simp, by simp⟩, ⟨[], by simp⟩⟩
  | cons d rest ih =>
    intro st st' hwf h
    simp only [deleteDirsLoop] at h
    cases hstep : deleteDirStep sp d st with
    | error e =>
      simp only [hstep, bind, Except.bind] at h
      exact Except.noConfusion h
    | ok st1 =>
      simp only [hstep, bind, Except.bind] at h
      rcases deleteDirStep_cases hstep with ⟨heq, _⟩ | ⟨hex, hnsrc, fs1, hrm, hst1⟩
      · rw [heq] at h
        obtain ⟨h1, h2, h3, h4, h5, h6⟩ := ih st st' hwf h
        refine ⟨h1, h2, ?_, h4, ?_, h6⟩
        · intro q hdiv
          exact h3 q (fun d' hd' => hdiv d' (by simp [hd']))
        · obtain ⟨lg, hlg, hlg2⟩ := h5
          refine ⟨lg, hlg, ?_⟩
          intro en hen
          obtain ⟨d', hd', he⟩ := hlg2 en hen
          exact ⟨d', by simp [hd'], he⟩
      · have hwf1 : st1.fs.wfB = true := by
          rw [hst1]
          exact rmtreeFS_wf hrm hwf
        obtain ⟨h1, h2, h3, h4, h5, h6⟩ := ih st1 st' hwf1 h
        have hfs1 : st1.fs = fs1 := by rw [hst1]
        refine ⟨?_, ?_, ?_, h4, ?_, ?_⟩
        · intro q hq
          have := h1 q hq
          rw [hfs1] at this
          have h' := (rmtreeFS_isDirB hrm q).mp this
          exact h'.1
        · intro q
          rcases h2 q with hq | hq
          · rw [hq, hfs1]
            rw [rmtreeFS_lookupFile hwf hrm q]
            by_cases hp : joinPath sp.replica_path d <+: q
            · rw [if_pos hp]
              right
              rfl
            · rw [if_neg hp]
              left
              rfl
          · right
            exact hq
        · intro q hdiv
          have hdiv1 := h3 q (fun d' hd' => hdiv d' (by simp [hd']))
          have hd0 := hdiv d (by simp)
          rw [hfs1] at hdiv1
          constructor
          · rw [hdiv1.1]
            exact rmtreeFS_frame hrm q hd0
          · rw [hdiv1.2, rmtreeFS_lookupFile hwf hrm q, if_neg hd0.1]
        · obtain ⟨lg, hlg, hlg2⟩ := h5
          refine ⟨("REMOVED", joinPath sp.replica_path d) :: lg, ?_, ?_⟩
          · rw [hlg, hst1]
            simp
          · intro en hen
            rcases List.mem_cons.mp hen with hen | hen
            · exact ⟨d, by simp, hen⟩
            · obtain ⟨d', hd', he⟩ := hlg2 en hen
              exact ⟨d', by simp [hd'], he⟩
        · obtain ⟨mt, hmt⟩ := h6
          refine ⟨("shutil.rmtree", joinPath sp.replica_path d) :: mt, ?_⟩
          rw [hmt, hst1]
          simp

theorem deleteDirsLoop_ok {sp : SyncPaths} (hRne : sp.replica_path ≠ []) :
    ∀ (L : List Path) (st : SyncState), st.fs.wfB = true →
      (∀ d ∈ L, lookupFile st.fs (joinPath sp.replica_path d) = none) →
      ∃ st', deleteDirsLoop sp L st = .ok st' := by
  intro L
  induction L with
  | nil =>
    intro st hwf hnof
    exact ⟨st, rfl⟩
  | cons d rest ih =>
    intro st hwf hnof
    have hstep : ∃ st1, deleteDirStep sp d st = .ok st1 ∧ st1.fs.wfB = true ∧
        (∀ q, lookupFile st1.fs q = lookupFile st.fs q ∨ lookupFile st1.fs q = none) := by
      by_cases hg : (existsFS st.fs (joinPath sp.replica_path d) &&
          !existsFS st.fs (joinPath sp.source_path d)) = true
      · have hdir : isDirB st.fs (joinPath sp.replica_path d) = true := by
          simp only [Bool.and_eq_true] at hg
          have hex := hg.1
          simp only [existsFS, Bool.or_eq_true] at hex
          rcases hex with hex | hex
          · exact hex
          · rw [hnof d (by simp)] at hex
            simp at hex
        obtain ⟨fs1, hrm⟩ := rmtreeFS_ok hdir (by
          intro hc
          exact hRne (List.append_eq_nil.mp hc).1)
        refine ⟨⟨fs1, st.log ++ [("REMOVED", joinPath sp.replica_path d)],
          st.muts ++ [("shutil.rmtree", joinPath sp.replica_path d)]⟩, ?_, ?_, ?_⟩
        · simp only [deleteDirStep, if_pos hg, hrm, bind, Except.bind]
          rfl
        · exact rmtreeFS_wf hrm hwf
        · intro q
          rw [rmtreeFS_lookupFile hwf hrm q]
          by_cases hp : joinPath sp.replica_path d <+: q
          · rw [if_pos hp]
            right
            rfl
          · rw [if_neg hp]
            left
            rfl
      · refine ⟨st, ?_, hwf, fun q => Or.inl rfl⟩
        simp only [deleteDirStep, if_neg hg]
    obtain ⟨st1, hstep1, hwf1, hfile1⟩ := hstep
    obtain ⟨st', hloop⟩ := ih st1 hwf1 (fun d' hd' => by
      rcases hfile1 (joinPath sp.replica_path d') with hq | hq
      · rw [hq]
        exact hnof d' (by simp [hd'])
      · exact hq)
    refine ⟨st', ?_⟩
    simp only [deleteDirsLoop, hstep1, bind, Except.bind]
    exact hloop

theorem deleteDirsLoop_survive {sp : SyncPaths}
    (hlen : sp.source_path.length = sp.replica_path.length)
    (hne : sp.source_path ≠ sp.replica_path) :
    ∀ (L : List Path) (st st' : SyncState), st.fs.wfB = true →
      deleteDirsLoop sp L st = .ok st' →
      ∀ q, isDirB st.fs (joinPath sp.replica_path q) = true →
        (∀ d ∈ L, d <+: q → existsFS st.fs (joinPath sp.source_path d) = true) →
        isDirB st'.fs (joinPath sp.replica_path q) = true := by
  intro L
  induction L with
  | nil =>
    intro st st' hwf h q hq hcov
    injection h with h
    subst h
    exact hq
  | cons d rest ih =>
    intro st st' hwf h q hq hcov
    simp only [deleteDirsLoop] at h
    cases hstep : deleteDirStep sp d st with
    | error e =>
      simp only [hstep, bind, Except.bind] at h
      exact Except.noConfusion h
    | ok st1 =>
      simp only [hstep, bind, Except.bind] at h
      rcases deleteDirStep_cases hstep with ⟨heq, _⟩ | ⟨hex, hnsrc, fs1, hrm, hst1⟩
      · rw [heq] at h
        exact ih st st' hwf h q hq (fun d' hd' => hcov d' (by simp [hd']))
      · have hwf1 : st1.fs.wfB = true := by
          rw [hst1]
          exact rmtreeFS_wf hrm hwf
        have hnotpre : ¬ d <+: q := by
          intro hp
          rw [hcov d (by simp) hp] at hnsrc
          exact Bool.noConfusion hnsrc
        have hq1 : isDirB st1.fs (joinPath sp.replica_path q) = true := by
          rw [hst1]
          refine (rmtreeFS_isDirB hrm _).mpr ⟨hq, ?_⟩
          intro hp
          exact hnotpre (prefix_append_cancel.mp hp)
        have hcov1 : ∀ d' ∈ rest, d' <+: q →
            existsFS st1.fs (joinPath sp.source_path d') = true := by
          intro d' hd' hp
          have hdiv : Diverges (joinPath sp.replica_path d) (joinPath sp.source_path d') :=
            diverges_of_append_left hlen.symm (fun hc => hne hc.symm) d d'
          have heq : existsFS st1.fs (joinPath sp.source_path d') =
              existsFS st.fs (joinPath sp.source_path d') := by
            rw [hst1]
            simp only [existsFS]
            rw [rmtreeFS_frame hrm _ hdiv, rmtreeFS_lookupFile hwf hrm _, if_neg hdiv.1]
          rw [heq]
          exact hcov d' (by simp [hd']) hp
        exact ih st1 st' hwf1 h q hq1 hcov1

theorem deleteDirsLoop_quiet {sp : SyncPaths} {d0 : Path}
    (hlen : sp.source_path.length = sp.replica_path.length)
    (hne : sp.source_path ≠ sp.replica_path) :
    ∀ (L : List Path) (st st' : SyncState), st.fs.wfB = true →
      deleteDirsLoop sp L st = .ok st' →
      (∀ e ∈ L, ¬ d0 <+: e) →
      (∀ e, e <+: d0 → e ≠ d0 → existsFS st.fs (joinPath sp.source_path e) = true) →
      isDirB st.fs (joinPath sp.replica_path d0) = true →
      existsFS st.fs (joinPath sp.source_path d0) = false →
      isDirB st'.fs (joinPath sp.replica_path d0) = true ∧
      existsFS st'.fs (joinPath sp.source_path d0) = false ∧
      st'.fs.wfB = true ∧
      (∃ lg, st'.log = st.log ++ lg ∧
        ∀ r, d0 <+: r → ("REMOVED", joinPath sp.replica_path r) ∉ lg) := by
  intro L
  induction L with
  | nil =>
    intro st st' hwf h hq hanc hdir hbad
    injection h with h
    subst h
    exact ⟨hdir, hbad, hwf, ⟨[], by simp, by simp⟩⟩
  | cons d rest ih =>
    intro st st' hwf h hq hanc hdir hbad
    simp only [deleteDirsLoop] at h
    cases hstep : deleteDirStep sp d st with
    | error e =>
      simp only [hstep, bind, Except.bind] at h
      exact Except.noConfusion h
    | ok st1 =>
      simp only [hstep, bind, Except.bind] at h
      rcases deleteDirStep_cases hstep with ⟨heq, _⟩ | ⟨hex, hnsrc, fs1, hrm, hst1⟩
      · rw [heq] at h
        exact ih st st' hwf h (fun e he => hq e (by simp [he])) hanc hdir hbad
      · have hwf1 : st1.fs.wfB = true := by
          rw [hst1]
          exact rmtreeFS_wf hrm hwf
        have hdnp : ¬ d <+: d0 := by
          intro hp
          by_cases hdd : d = d0
          · subst hdd
            exact hq d (by simp) List.prefix_rfl
          · rw [hanc d hp hdd] at hnsrc
            exact Bool.noConfusion hnsrc
        have hsrcframe : ∀ e : Path, existsFS st1.fs (joinPath sp.source_path e) =
            existsFS st.fs (joinPath sp.source_path e) := by
          intro e
          have hdiv : Diverges (joinPath sp.replica_path d) (joinPath sp.source_path e) :=
            diverges_of_append_left hlen.symm (fun hc => hne hc.symm) d e
          rw [hst1]
          simp only [existsFS]
          rw [rmtreeFS_frame hrm _ hdiv, rmtreeFS_lookupFile hwf hrm _, if_neg hdiv.1]
        have hdir1 : isDirB st1.fs (joinPath sp.replica_path d0) = true := by
          rw [hst1]
          refine (rmtreeFS_isDirB hrm _).mpr ⟨hdir, ?_⟩
          intro hp
          exact hdnp (prefix_append_cancel.mp hp)
        have hanc1 : ∀ e, e <+: d0 → e ≠ d0 →
            existsFS st1.fs (joinPath sp.source_path e) = true := by
          intro e hp hne'
          rw [hsrcframe e]
          exact hanc e hp hne'
        have hbad1 : existsFS st1.fs (joinPath sp.source_path d0) = false := by
          rw [hsrcframe d0]
          exact hbad
        obtain ⟨h1, h2, h3, lg, hlg, hlg2⟩ :=
          ih st1 st' hwf1 h (fun e he => hq e (by simp [he])) hanc1 hdir1 hbad1
        refine ⟨h1, h2, h3, ("REMOVED", joinPath sp.replica_path d) :: lg, ?_, ?_⟩
        · rw [hlg, hst1]
          simp
        · intro r hr hmem
          rcases List.mem_cons.mp hmem with hmem | hmem
          · have h2' : joinPath sp.replica_path r = joinPath sp.replica_path d := by
              simpa using hmem
            have hrd : r = d := List.append_cancel_left h2'
            rw [← hrd] at hq
            exact hq r (by simp) hr
          · exact hlg2 r hr hmem

theorem deleteDirsLoop_dead {sp : SyncPaths} {d0 : Path} :
    ∀ (L : List Path) (st st' : SyncState), st.fs.wfB = true →
      deleteDirsLoop sp L st = .ok st' →
      (∀ r, d0 <+: r → existsFS st.fs (joinPath sp.replica_path r) = false) →
      (∀ r, d0 <+: r → existsFS st'.fs (joinPath sp.replica_path r) = false) ∧
      st'.fs.wfB = true ∧
      (∃ lg, st'.log = st.log ++ lg ∧
        ∀ r, d0 <+: r → ("REMOVED", joinPath sp.replica_path r) ∉ lg) := by
  intro L
  induction L with
  | nil =>
    intro st st' hwf h hdead
    injection h with h
    subst h
    exact ⟨hdead, hwf, ⟨[], by simp, by simp⟩⟩
  | cons d rest ih =>
    intro st st' hwf h hdead
    simp only [deleteDirsLoop] at h
    cases hstep : deleteDirStep sp d st with
    | error e =>
      simp only [hstep, bind, Except.bind] at h
      exact Except.noConfusion h
    | ok st1 =>
      simp only [hstep, bind, Except.bind] at h
      rcases deleteDirStep_cases hstep with ⟨heq, _⟩ | ⟨hex, hnsrc, fs1, hrm, hst1⟩
      · rw [heq] at h
        exact ih st st' hwf h hdead
      · have hwf1 : st1.fs.wfB = true := by
          rw [hst1]
          exact rmtreeFS_wf hrm hwf
        have hdnd : ¬ d0 <+: d := by
          intro hp
          rw [hdead d hp] at hex
          exact Bool.noConfusion hex
        have hdead1 : ∀ r, d0 <+: r →
            existsFS st1.fs (joinPath sp.replica_path r) = false := by
          intro r hr
          have hold := hdead r hr
          simp only [existsFS, Bool.or_eq_false_iff] at hold
          have holdD : isDirB st.fs (joinPath sp.replica_path r) = false := hold.1
          have holdF : lookupFile st.fs (joinPath sp.replica_path r) = none := by
            have := hold.2
            cases hc : lookupFile st.fs (joinPath sp.replica_path r) with
            | none => rfl
            | some v =>
              rw [hc] at this
              exact Bool.noConfusion this
          rw [hst1]
          simp only [existsFS, Bool.or_eq_false_iff]
          constructor
          · by_cases hs : isDirB fs1 (joinPath sp.replica_path r) = true
            · obtain ⟨hold1, _⟩ := (rmtreeFS_isDirB hrm (joinPath sp.replica_path r)).mp hs
              rw [holdD] at hold1
              exact Bool.noConfusion hold1
            · have : isDirB fs1 (joinPath sp.replica_path r) = false := by
                simpa using hs
              exact this
          · rw [rmtreeFS_lookupFile hwf hrm _]
            by_cases hp : joinPath sp.replica_path d <+: joinPath sp.replica_path r
            · rw [if_pos hp]
              rfl
            · rw [if_neg hp]
              rw [holdF]
              rfl
        obtain ⟨h1, h2, lg, hlg, hlg2⟩ := ih st1 st' hwf1 h hdead1
        refine ⟨h1, h2, ("REMOVED", joinPath sp.replica_path d) :: lg, ?_, ?_⟩
        · rw [hlg, hst1]
          simp
        · intro r hr hmem
          rcases List.mem_cons.mp hmem with hmem | hmem
          · have heq2 : joinPath sp.replica_path r = joinPath sp.replica_path d := by
              simpa using hmem
            have : r = d := List.append_cancel_left heq2
            rw [this] at hr
            exact hdnd hr
          · exact hlg2 r hr hmem

theorem deleteDirsLoop_kill {sp : SyncPaths} {d0 : Path}
    (hlen : sp.source_path.length = sp.replica_path.length)
    (hne : sp.source_path ≠ sp.replica_path) :
    ∀ (L1 L2 : List Path) (st st' : SyncState), st.fs.wfB = true →
      deleteDirsLoop sp (L1 ++ d0 :: L2) st = .ok st' →
      (∀ e ∈ L1, ¬ d0 <+: e) →
      (∀ e, e <+: d0 → e ≠ d0 → existsFS st.fs (joinPath sp.source_path e) = true) →
      isDirB st.fs (joinPath sp.replica_path d0) = true →
      existsFS st.fs (joinPath sp.source_path d0) = false →
      (∀ r, d0 <+: r → existsFS st'.fs (joinPath sp.replica_path r) = false) ∧
      st'.fs.wfB = true ∧
      (∃ lg, st'.log = st.log ++ lg ∧
        lg.count ("REMOVED", joinPath sp.replica_path d0) = 1 ∧
        ∀ r, d0 <+: r → r ≠ d0 → ("REMOVED", joinPath sp.replica_path r) ∉ lg) := by
  intro L1 L2 st st' hwf h hq hanc hdir hbad
  obtain ⟨stm, hm, hrest⟩ := (deleteDirsLoop_append L1 (d0 :: L2) st st').mp h
  obtain ⟨hdirm, hbadm, hwfm, lg1, hlg1, hlg1n⟩ :=
    deleteDirsLoop_quiet hlen hne L1 st stm hwf hm hq hanc hdir hbad
  simp only [deleteDirsLoop] at hrest
  cases hstep : deleteDirStep sp d0 stm with
  | error e =>
    simp only [hstep, bind, Except.bind] at hrest
    exact Except.noConfusion hrest
  | ok st2 =>
    simp only [hstep, bind, Except.bind] at hrest
    rcases deleteDirStep_cases hstep with ⟨heq, hng⟩ | ⟨hex, hnsrc, fs1, hrm, hst2⟩
    · refine absurd ⟨?_, hbadm⟩ hng
      simp only [existsFS, Bool.or_eq_true]
      exact Or.inl hdirm
    · have hwf2 : st2.fs.wfB = true := by
        rw [hst2]
        exact rmtreeFS_wf hrm hwfm
      have hkill2 : ∀ r, d0 <+: r →
          existsFS st2.fs (joinPath sp.replica_path r) = false := by
        intro r hr
        have hpre : joinPath sp.replica_path d0 <+: joinPath sp.replica_path r :=
          prefix_append_cancel.mpr hr
        rw [hst2]
        simp only [existsFS, Bool.or_eq_false_iff]
        constructor
        · by_cases hs : isDirB fs1 (joinPath sp.replica_path r) = true
          · obtain ⟨_, hnp⟩ := (rmtreeFS_isDirB hrm _).mp hs
            exact absurd hpre hnp
          · exact Bool.eq_false_iff.mpr hs
        · rw [rmtreeFS_lookupFile hwfm hrm _, if_pos hpre]
          rfl
      obtain ⟨hkill', hwf', lg2, hlg2, hlg2n⟩ :=
        deleteDirsLoop_dead L2 st2 st' hwf2 hrest hkill2
      refine ⟨hkill', hwf', lg1 ++ ("REMOVED", joinPath sp.replica_path d0) :: lg2, ?_, ?_, ?_⟩
      · rw [hlg2, hst2]
        simp only [SyncState.log] at hlg1 ⊢
        rw [hlg1]
        simp
      · rw [List.count_append, List.count_cons_self]
        have hc1 : lg1.count ("REMOVED", joinPath sp.replica_path d0) = 0 :=
          List.count_eq_zero.mpr (hlg1n d0 List.prefix_rfl)
        have hc2 : lg2.count ("REMOVED", joinPath sp.replica_path d0) = 0 :=
          List.count_eq_zero.mpr (hlg2n d0 List.prefix_rfl)
        rw [hc1, hc2]
      · intro r hr hrne hmem
        rcases List.mem_append.mp hmem with hmem | hmem
        · exact hlg1n r hr hmem
        · rcases List.mem_cons.mp hmem with hmem | hmem
          · have : joinPath sp.replica_path r = joinPath sp.replica_path d0 := by
              simpa using hmem
            exact hrne (List.append_cancel_left this)
          · exact hlg2n r hr hmem

/- Phase C: the `copy` loop of `sync_files`. -/

theorem copyFileStep_ok {sp : SyncPaths} {digest : List Nat → Nat} {f : Path}
    {st : SyncState} {sfd : FileData}
    (hwf : st.fs.wfB = true)
    (hdne : joinPath sp.source_path f ≠ joinPath sp.replica_path f)
    (hsfd : lookupFile st.fs (joinPath sp.source_path f) = some sfd)
    (hnd : isDirB st.fs (joinPath sp.replica_path f) = false)
    (hpar : ∃ a n, joinPath sp.replica_path f = a ++ [n] ∧ isDirB st.fs a = true) :
    ∃ st1, copyFileStep sp digest f st = .ok st1 ∧
      st1.fs.wfB = true ∧
      (∀ q, isDirB st1.fs q = isDirB st.fs q) ∧
      (∀ q, q ≠ joinPath sp.replica_path f → lookupFile st1.fs q = lookupFile st.fs q) ∧
      (∃ rfd, lookupFile st1.fs (joinPath sp.replica_path f) = some rfd ∧
        digest rfd.content = digest sfd.content) ∧
      (∃ lg, st1.log = st.log ++ lg ∧ ∀ e ∈ lg, e.1 = "CREATED" ∨ e.1 = "MODIFIED") := by
  have hsrcex : existsFS st.fs (joinPath sp.source_path f) = true := by
    simp [existsFS, hsfd]
  obtain ⟨a, n, hform, hpa⟩ := hpar
  by_cases hrep : existsFS st.fs (joinPath sp.replica_path f) = true
  · have hrfd : ∃ rfd, lookupFile st.fs (joinPath sp.replica_path f) = some rfd := by
      have hx := hrep
      simp only [existsFS, Bool.or_eq_true] at hx
      rcases hx with hx | hx
      · exact absurd hx (by simp [isDirB] at hnd; simp [hnd])
      · exact Option.isSome_iff_exists.mp hx
    obtain ⟨rfd, hrfd⟩ := hrfd
    have hg1 : ¬((!existsFS st.fs (joinPath sp.replica_path f) &&
        existsFS st.fs (joinPath sp.source_path f)) = true) := by
      rw [hrep]
      simp
    have hg2 : (existsFS st.fs (joinPath sp.replica_path f) &&
        existsFS st.fs (joinPath sp.source_path f)) = true := by
      rw [hrep, hsrcex]
      rfl
    have hra : readFileFS st.fs (joinPath sp.replica_path f) = .ok rfd :=
      readFileFS_ok_iff.mpr hrfd
    have hrb : readFileFS st.fs (joinPath sp.source_path f) = .ok sfd :=
      readFileFS_ok_iff.mpr hsfd
    have hcmp : compare_files digest st.fs (joinPath sp.replica_path f)
        (joinPath sp.source_path f) = .ok (digest rfd.content == digest sfd.content) := by
      simp only [compare_files, hra, hrb, bind, Except.bind]
    by_cases hdig : digest rfd.content = digest sfd.content
    · have hbeq : (digest rfd.content == digest sfd.content) = true := by simp [hdig]
      refine ⟨st, ?_, hwf, fun q => rfl, fun q hq => rfl, ⟨rfd, hrfd, hdig⟩,
        ⟨[], by simp, by simp⟩⟩
      simp only [copyFileStep, if_neg hg1, if_pos hg2, hcmp, bind, Except.bind, hbeq]
      simp
    · have hbeq : (digest rfd.content == digest sfd.content) = false := by simp [hdig]
      obtain ⟨fs1, hrm⟩ := @removeFS_ok st.fs (joinPath sp.replica_path f)
        (by simp [hrfd])
      have hwf1 : fs1.wfB = true := removeFS_wf hrm hwf
      have hpa1 : isDirB fs1 a = true := by
        rw [removeFS_isDirB hrm a]
        exact hpa
      have hnd1 : isDirB fs1 (a ++ [n]) = false := by
        rw [removeFS_isDirB hrm]
        rw [← hform]
        exact hnd
      obtain ⟨fs2, hw0⟩ := writeFileFS_ok sfd hpa1 hnd1
      have hw : writeFileFS fs1 (joinPath sp.replica_path f) sfd = .ok fs2 := by
        rw [hform]
        exact hw0
      have hsfd1 : lookupFile fs1 (joinPath sp.source_path f) = some sfd := by
        rw [removeFS_lookupFile hrm, if_neg hdne]
        exact hsfd
      have hcp : copy2FS fs1 (joinPath sp.source_path f) (joinPath sp.replica_path f) = .ok fs2 :=
        copy2FS_ok hsfd1 hw
      refine ⟨add_log "MODIFIED" (joinPath sp.replica_path f)
        { st with fs := fs2, muts := st.muts ++ [("os.remove", joinPath sp.replica_path f),
          ("shutil.copy2", joinPath sp.replica_path f)] }, ?_, ?_, ?_, ?_, ?_,
        ⟨[("MODIFIED", joinPath sp.replica_path f)], by simp [add_log], by simp⟩⟩
      · simp only [copyFileStep, if_neg hg1, if_pos hg2, hcmp, bind, Except.bind, hbeq]
        simp only [if_pos rfl, hrm, hcp, bind, Except.bind]
        simp
      · exact writeFileFS_wf hw hwf1
      · intro q
        show isDirB fs2 q = isDirB st.fs q
        rw [writeFileFS_isDirB hw, removeFS_isDirB hrm]
      · intro q hq
        show lookupFile fs2 q = lookupFile st.fs q
        rw [writeFileFS_lookupFile hw, if_neg hq, removeFS_lookupFile hrm, if_neg hq]
      · refine ⟨sfd, ?_, rfl⟩
        show lookupFile fs2 (joinPath sp.replica_path f) = some sfd
        rw [writeFileFS_lookupFile hw, if_pos rfl]
  · have hrep' : existsFS st.fs (joinPath sp.replica_path f) = false := by
      simpa using hrep
    have hg1 : (!existsFS st.fs (joinPath sp.replica_path f) &&
        existsFS st.fs (joinPath sp.source_path f)) = true := by
      rw [hrep', hsrcex]
      rfl
    obtain ⟨fs1, hw0⟩ := writeFileFS_ok sfd hpa (by rw [← hform]; exact hnd)
    have hw : writeFileFS st.fs (joinPath sp.replica_path f) sfd = .ok fs1 := by
      rw [hform]
      exact hw0
    have hcp : copy2FS st.fs (joinPath sp.source_path f) (joinPath sp.replica_path f) = .ok fs1 :=
      copy2FS_ok hsfd hw
    refine ⟨add_log "CREATED" (joinPath sp.replica_path f)
      { st with fs := fs1, muts := st.muts ++ [("shutil.copy2", joinPath sp.replica_path f)] },
      ?_, ?_, ?_, ?_, ?_, ⟨[("CREATED", joinPath sp.replica_path f)], by simp [add_log], by simp⟩⟩
    · simp only [copyFileStep, if_pos hg1, hcp, bind, Except.bind]
    · exact writeFileFS_wf hw hwf
    · intro q
      show isDirB fs1 q = isDirB st.fs q
      rw [writeFileFS_isDirB hw]
    · intro q hq
      show lookupFile fs1 q = lookupFile st.fs q
      rw [writeFileFS_lookupFile hw, if_neg hq]
    · refine ⟨sfd, ?_, rfl⟩
      show lookupFile fs1 (joinPath sp.replica_path f) = some sfd
      rw [writeFileFS_lookupFile hw, if_pos rfl]

theorem copyFilesLoop_build {sp : SyncPaths} {digest : List Nat → Nat}
    (hlen : sp.source_path.length = sp.replica_path.length)
    (hne : sp.source_path ≠ sp.replica_path) :
    ∀ (L : List Path) (st : SyncState), st.fs.wfB = true →
      (∀ f ∈ L, f ≠ []) →
      (∀ f ∈ L, (lookupFile st.fs (joinPath sp.source_path f)).isSome = true) →
      (∀ f ∈ L, isDirB st.fs (joinPath sp.replica_path f) = false) →
      (∀ f ∈ L, isDirB st.fs (joinPath sp.replica_path f).dropLast = true) →
      ∃ st', copyFilesLoop sp digest L st = .ok st' ∧
        st'.fs.wfB = true ∧
        (∀ q, isDirB st'.fs q = isDirB st.fs q) ∧
        (∀ q, (∀ f ∈ L, q ≠ joinPath sp.replica_path f) →
          lookupFile st'.fs q = lookupFile st.fs q) ∧
        (∀ f ∈ L, ∃ rfd sfd, lookupFile st'.fs (joinPath sp.replica_path f) = some rfd ∧
          lookupFile st'.fs (joinPath sp.source_path f) = some sfd ∧
          digest rfd.content = digest sfd.content) ∧
        (∃ lg, st'.log = st.log ++ lg ∧ ∀ e ∈ lg, e.1 = "CREATED" ∨ e.1 = "MODIFIED") := by
  have hdivSR : ∀ f g : Path, Diverges (joinPath sp.source_path f) (joinPath sp.replica_path g) :=
    fun f g => diverges_of_append_left hlen hne f g
  intro L
  induction L with
  | nil =>
    intro st hwf hne0 hsf hndir hpar
    exact ⟨st, rfl, hwf, fun q => rfl, fun q hq => rfl, fun f hf => absurd hf (by simp),
      ⟨[], by simp, by simp⟩⟩
  | cons f rest ih =>
    intro st hwf hne0 hsf hndir hpar
    have hfne : f ≠ [] := hne0 f (by simp)
    obtain ⟨sfd, hsfd⟩ := Option.isSome_iff_exists.mp (hsf f (by simp))
    have hdne : joinPath sp.source_path f ≠ joinPath sp.replica_path f := by
      intro hc
      exact (hdivSR f f).1 (hc ▸ List.prefix_rfl)
    have hparf : ∃ a m, joinPath sp.replica_path f = a ++ [m] ∧ isDirB st.fs a = true := by
      refine ⟨(joinPath sp.replica_path f).dropLast, (joinPath sp.replica_path f).getLast ?_,
        ?_, hpar f (by simp)⟩
      · intro hc
        exact hfne (List.append_eq_nil.mp hc).2
      · exact (List.dropLast_append_getLast _).symm
    obtain ⟨st1, hstep, hwf1, hdir1, hfile1, ⟨rfd0, hrfd0, hdig0⟩, lg0, hlg0, hlg0e⟩ :=
      copyFileStep_ok hwf hdne hsfd (hndir f (by simp)) hparf
    have hsf1 : ∀ g ∈ rest, (lookupFile st1.fs (joinPath sp.source_path g)).isSome = true := by
      intro g hg
      rw [hfile1 _ (by
        intro hc
        exact (hdivSR g f).1 (hc ▸ List.prefix_rfl))]
      exact hsf g (by simp [hg])
    obtain ⟨st', hloop, hwf', hdir', hfile', hconv', lg', hlg', hlge'⟩ := ih st1 hwf1
      (fun g hg => hne0 g (by simp [hg])) hsf1
      (fun g hg => by rw [hdir1]; exact hndir g (by simp [hg]))
      (fun g hg => by rw [hdir1]; exact hpar g (by simp [hg]))
    refine ⟨st', ?_, hwf', ?_, ?_, ?_, ?_⟩
    · simp only [copyFilesLoop, bind, Except.bind]
      rw [hstep]
      exact hloop
    · intro q
      rw [hdir' q, hdir1 q]
    · intro q hq
      rw [hfile' q (fun g hg => hq g (by simp [hg])), hfile1 q (hq f (by simp))]
    · intro g hg
      rcases List.mem_cons.mp hg with hg | hg
      · subst hg
        by_cases hmem : g ∈ rest
        · exact hconv' g hmem
        · have hq1 : ∀ g' ∈ rest, joinPath sp.replica_path g ≠ joinPath sp.replica_path g' := by
            intro g' hg' hc
            exact hmem ((List.append_cancel_left hc) ▸ hg')
          have hq2 : ∀ g' ∈ rest, joinPath sp.source_path g ≠ joinPath sp.replica_path g' := by
            intro g' hg' hc
            exact (hdivSR g g').1 (hc ▸ List.prefix_rfl)
          refine ⟨rfd0, sfd, ?_, ?_, ?_⟩
          · rw [hfile' _ hq1]
            exact hrfd0
          · rw [hfile' _ hq2, hfile1 _ hdne]
            exact hsfd
          · exact hdig0
      · exact hconv' g hg
    · refine ⟨lg0 ++ lg', ?_, ?_⟩
      · rw [hlg', hlg0, List.append_assoc]
      · intro e he
        rcases List.mem_append.mp he with he | he
        · exact hlg0e e he
        · exact hlge' e he

/- Phase D: the `delete` loop of `sync_files`. -/

theorem deleteFilesLoop_main {sp : SyncPaths}
    (hlen : sp.source_path.length = sp.replica_path.length)
    (hne : sp.source_path ≠ sp.replica_path) :
    ∀ (L : List Path) (st : SyncState), st.fs.wfB = true →
      (∀ f ∈ L, isDirB st.fs (joinPath sp.replica_path f) = false) →
      ∃ st', deleteFilesLoop sp L st = .ok st' ∧
        st'.fs.wfB = true ∧
        (∀ q, isDirB st'.fs q = isDirB st.fs q) ∧
        (∀ q, lookupFile st'.fs q = lookupFile st.fs q ∨ lookupFile st'.fs q = none) ∧
        (∀ q, (∀ f ∈ L, q ≠ joinPath sp.replica_path f) →
          lookupFile st'.fs q = lookupFile st.fs q) ∧
        (∀ f ∈ L, existsFS st.fs (joinPath sp.source_path f) = false →
          lookupFile st'.fs (joinPath sp.replica_path f) = none) ∧
        (∀ g : Path, (lookupFile st.fs (joinPath sp.source_path g)).isSome = true →
          lookupFile st'.fs (joinPath sp.replica_path g) =
            lookupFile st.fs (joinPath sp.replica_path g)) ∧
        (∃ lg, st'.log = st.log ++ lg ∧ ∀ e ∈ lg, ∃ f ∈ L,
          e = ("REMOVED", joinPath sp.replica_path f) ∧
          existsFS st.fs (joinPath sp.source_path f) = false ∧
          existsFS st.fs (joinPath sp.replica_path f) = true) ∧
        (∃ mt, st'.muts = st.muts ++ mt) := by
  have hdivSR : ∀ f g : Path, Diverges (joinPath sp.source_path f) (joinPath sp.replica_path g) :=
    fun f g => diverges_of_append_left hlen hne f g
  intro L
  induction L with
  | nil =>
    intro st hwf hnd
    exact ⟨st, rfl, hwf, fun q => rfl, fun q => Or.inl rfl, fun q hq => rfl,
      fun f hf => absurd hf (by simp), fun g hg => rfl, ⟨[], by simp, by simp⟩, ⟨[], by simp⟩⟩
  | cons f rest ih =>
    intro st hwf hnd
    have hstep : ∃ st1, deleteFileStep sp f st = .ok st1 := by
      by_cases hg : (existsFS st.fs (joinPath sp.replica_path f) &&
          !existsFS st.fs (joinPath sp.source_path f)) = true
      · have hex : existsFS st.fs (joinPath sp.replica_path f) = true := by
          simp only [Bool.and_eq_true] at hg
          exact hg.1
        have hfile : (lookupFile st.fs (joinPath sp.replica_path f)).isSome = true := by
          simp only [existsFS, Bool.or_eq_true] at hex
          rcases hex with hx | hx
          · have hndf : (lookupDir st.fs (joinPath sp.replica_path f)).isSome = false :=
              hnd f (by simp)
            rw [hx] at hndf
            exact Bool.noConfusion hndf
          · exact hx
        obtain ⟨fs1, hrm⟩ := removeFS_ok hfile
        refine ⟨add_log "REMOVED" (joinPath sp.replica_path f)
          { st with fs := fs1, muts := st.muts ++ [("os.remove", joinPath sp.replica_path f)] },
          ?_⟩
        simp only [deleteFileStep, if_pos hg, hrm, bind, Except.bind]
      · exact ⟨st, by simp only [deleteFileStep, if_neg hg]⟩
    obtain ⟨st1, hstep1⟩ := hstep
    rcases deleteFileStep_cases hstep1 with ⟨heq, hng⟩ | ⟨hex, hnsrcf, fs1, hrm, hst1⟩
    · rw [heq] at hstep1
      obtain ⟨st', hloop, c1, c2, c3, c4, c5, c5p, c6, c7⟩ :=
        ih st hwf (fun g hg => hnd g (by simp [hg]))
      refine ⟨st', ?_, c1, c2, c3, ?_, ?_, c5p, ?_, c7⟩
      · simp only [deleteFilesLoop, bind, Except.bind]
        rw [hstep1]
        exact hloop
      · intro q hq
        exact c4 q (fun g hg => hq g (by simp [hg]))
      · intro g hg hsrcg
        rcases List.mem_cons.mp hg with hg | hg
        · subst hg
          have hrepf : existsFS st.fs (joinPath sp.replica_path g) = false := by
            by_cases hx : existsFS st.fs (joinPath sp.replica_path g) = true
            · exact absurd ⟨hx, hsrcg⟩ hng
            · simpa using hx
          have hnone : lookupFile st.fs (joinPath sp.replica_path g) = none := by
            simp only [existsFS, Bool.or_eq_false_iff] at hrepf
            cases hc : lookupFile st.fs (joinPath sp.replica_path g) with
            | none => rfl
            | some v =>
              rw [hc] at hrepf
              exact absurd hrepf.2 (by simp)
          rcases c3 (joinPath sp.replica_path g) with hc | hc
          · rw [hc, hnone]
          · exact hc
        · exact c5 g hg hsrcg
      · obtain ⟨lg, hlg, hlge⟩ := c6
        refine ⟨lg, hlg, ?_⟩
        intro e he
        obtain ⟨g, hg, hprops⟩ := hlge e he
        exact ⟨g, by simp [hg], hprops⟩
    · have hwf1 : st1.fs.wfB = true := by
        rw [hst1]
        exact removeFS_wf hrm hwf
      have hfs1 : st1.fs = fs1 := by rw [hst1]
      have hnd1 : ∀ g ∈ rest, isDirB st1.fs (joinPath sp.replica_path g) = false := by
        intro g hg
        rw [hfs1, removeFS_isDirB hrm]
        exact hnd g (by simp [hg])
      obtain ⟨st', hloop, c1, c2, c3, c4, c5, c5p, c6, c7⟩ := ih st1 hwf1 hnd1
      have hfile1 : ∀ q, lookupFile st1.fs q =
          if q = joinPath sp.replica_path f then none else lookupFile st.fs q := by
        intro q
        rw [hfs1]
        exact removeFS_lookupFile hrm q
      have hsrcframe : ∀ g : Path, existsFS st1.fs (joinPath sp.source_path g) =
          existsFS st.fs (joinPath sp.source_path g) := by
        intro g
        simp only [existsFS]
        rw [hfile1, if_neg (by
          intro hc
          exact (hdivSR g f).1 (hc ▸ List.prefix_rfl))]
        have hdq : isDirB st1.fs (joinPath sp.source_path g) =
            isDirB st.fs (joinPath sp.source_path g) := by
          rw [hfs1]
          exact removeFS_isDirB hrm _
        show (isDirB st1.fs (joinPath sp.source_path g) || _) =
          (isDirB st.fs (joinPath sp.source_path g) || _)
        rw [hdq]
      refine ⟨st', ?_, c1, ?_, ?_, ?_, ?_, ?_, ?_, ?_⟩
      · simp only [deleteFilesLoop, bind, Except.bind]
        rw [hstep1]
        exact hloop
      · intro q
        rw [c2 q, hfs1, removeFS_isDirB hrm]
      · intro q
        rcases c3 q with hc | hc
        · rw [hc, hfile1]
          by_cases hq : q = joinPath sp.replica_path f
          · rw [if_pos hq]
            right
            rfl
          · rw [if_neg hq]
            left
            rfl
        · right
          exact hc
      · intro q hq
        rw [c4 q (fun g hg => hq g (by simp [hg])), hfile1, if_neg (hq f (by simp))]
      · intro g hg hsrcg
        rcases List.mem_cons.mp hg with hg | hg
        · subst hg
          have h1 : lookupFile st1.fs (joinPath sp.replica_path g) = none := by
            rw [hfile1, if_pos rfl]
          rcases c3 (joinPath sp.replica_path g) with hc | hc
          · rw [hc, h1]
          · exact hc
        · refine c5 g hg ?_
          rw [hsrcframe g]
          exact hsrcg
      · intro g hg
        have hne2 : joinPath sp.replica_path g ≠ joinPath sp.replica_path f := by
          intro hc
          have hgf : g = f := List.append_cancel_left hc
          subst hgf
          have hex2 : existsFS st.fs (joinPath sp.source_path g) = true := by
            simp only [existsFS, Bool.or_eq_true]
            right
            exact hg
          rw [hex2] at hnsrcf
          exact Bool.noConfusion hnsrcf
        have hg1 : (lookupFile st1.fs (joinPath sp.source_path g)).isSome = true := by
          rw [hfile1, if_neg (by
            intro hc
            exact (hdivSR g f).1 (hc ▸ List.prefix_rfl))]
          exact hg
        rw [c5p g hg1, hfile1, if_neg hne2]
      · obtain ⟨lg, hlg, hlge⟩ := c6
        refine ⟨("REMOVED", joinPath sp.replica_path f) :: lg, ?_, ?_⟩
        · rw [hlg, hst1]
          simp
        · intro e he
          rcases List.mem_cons.mp he with he | he
          · exact ⟨f, by simp, he, hnsrcf, hex⟩
          · obtain ⟨g, hg, hprop1, hprop2, hprop3⟩ := hlge e he
            refine ⟨g, by simp [hg], hprop1, ?_, ?_⟩
            · rw [← hsrcframe g]
              exact hprop2
            · have hx := hprop3
              simp only [existsFS, Bool.or_eq_true] at hx ⊢
              rcases hx with hx | hx
              · left
                show isDirB st.fs (joinPath sp.replica_path g) = true
                rw [← removeFS_isDirB hrm, ← hfs1]
                exact hx
              · have hx2 : (lookupFile st1.fs (joinPath sp.replica_path g)).isSome = true := hx
                rw [hfile1] at hx2
                by_cases hq : joinPath sp.replica_path g = joinPath sp.replica_path f
                · rw [if_pos hq] at hx2
                  exact absurd hx2 (by simp)
                · rw [if_neg hq] at hx2
                  right
                  exact hx2
      · obtain ⟨mt, hmt⟩ := c7
        refine ⟨("os.remove", joinPath sp.replica_path f) :: mt, ?_⟩
        rw [hmt, hst1]
        simp

/- Helpers for the whole-cycle assembly. -/

theorem isDirB_of_file_under {t : Tree} {a b : Path} (hb : b ≠ [])
    (h : (lookupFile t (a ++ b)).isSome = true) : isDirB t a = true := by
  rw [lookupFile_append t a b hb] at h
  simp only [isDirB]
  cases hc : lookupDir t a with
  | none =>
    rw [hc] at h
    simp at h
  | some c => simp

theorem exists_minimal_bad_prefix (p : Path → Bool) :
    ∀ (N : Nat) (e : Path), e.length ≤ N → p e = false →
      ∃ e0, e0 <+: e ∧ p e0 = false ∧ ∀ r, r <+: e0 → r ≠ e0 → p r = true := by
  intro N
  induction N with
  | zero =>
    intro e hlen hbad
    have he : e = [] := List.length_eq_zero.mp (Nat.le_zero.mp hlen)
    subst he
    refine ⟨[], List.prefix_rfl, hbad, ?_⟩
    intro r hr hrne
    exact absurd (List.prefix_nil.mp hr) hrne
  | succ N ih =>
    intro e hlen hbad
    by_cases hall : ∀ r, r <+: e → r ≠ e → p r = true
    · exact ⟨e, List.prefix_rfl, hbad, hall⟩
    · push_neg at hall
      obtain ⟨r, hr, hrne, hrbad⟩ := hall
      have hrbad' : p r = false := by
        cases hc : p r
        · rfl
        · exact absurd hc hrbad
      have hlt : r.length < e.length := by
        rcases Nat.lt_or_ge r.length e.length with h | h
        · exact h
        · exact absurd (hr.eq_of_length_le h) hrne
      obtain ⟨e0, he0, hbad0, hmin0⟩ := ih r (by omega) hrbad'
      exact ⟨e0, he0.trans hr, hbad0, hmin0⟩

theorem mem_split_pairwise {L : List Path} {d0 : Path} (hmem : d0 ∈ L)
    (hnd : L.Nodup) (hp : L.Pairwise ancRel) :
    ∃ L1 L2, L = L1 ++ d0 :: L2 ∧ ∀ e ∈ L1, ¬ d0 <+: e := by
  obtain ⟨L1, L2, hsplit⟩ := List.append_of_mem hmem
  subst hsplit
  refine ⟨L1, L2, rfl, ?_⟩
  intro e he hpre
  have hrel : ancRel e d0 :=
    (List.pairwise_append.mp hp).2.2 e he d0 (by simp)
  have hne : e ≠ d0 := by
    intro hc
    subst hc
    have hdisj := (List.nodup_append.mp hnd).2.2
    exact hdisj he (by simp)
  exact hrel ⟨hpre, fun hc => hne hc.symm⟩

theorem createDirsLoop_noop {sp : SyncPaths} :
    ∀ (L : List Path) (st : SyncState),
      (∀ d ∈ L, ¬(!existsFS st.fs (joinPath sp.replica_path d) &&
        existsFS st.fs (joinPath sp.source_path d)) = true) →
      createDirsLoop sp L st = .ok st := by
  intro L
  induction L with
  | nil => intro st hg; rfl
  | cons d rest ih =>
    intro st hg
    have hstep : createDirStep sp d st = .ok st := by
      simp only [createDirStep, if_neg (hg d (by simp))]
    simp only [createDirsLoop, bind, Except.bind]
    rw [hstep]
    exact ih st (fun d' hd' => hg d' (by simp [hd']))

theorem deleteDirsLoop_noop {sp : SyncPaths} :
    ∀ (L : List Path) (st : SyncState),
      (∀ d ∈ L, ¬(existsFS st.fs (joinPath sp.replica_path d) &&
        !existsFS st.fs (joinPath sp.source_path d)) = true) →
      deleteDirsLoop sp L st = .ok st := by
  intro L
  induction L with
  | nil => intro st hg; rfl
  | cons d rest ih =>
    intro st hg
    have hstep : deleteDirStep sp d st = .ok st := by
      simp only [deleteDirStep, if_neg (hg d (by simp))]
    simp only [deleteDirsLoop, bind, Except.bind]
    rw [hstep]
    exact ih st (fun d' hd' => hg d' (by simp [hd']))

theorem deleteFilesLoop_noop {sp : SyncPaths} :
    ∀ (L : List Path) (st : SyncState),
      (∀ f ∈ L, ¬(existsFS st.fs (joinPath sp.replica_path f) &&
        !existsFS st.fs (joinPath sp.source_path f)) = true) →
      deleteFilesLoop sp L st = .ok st := by
  intro L
  induction L with
  | nil => intro st hg; rfl
  | cons f rest ih =>
    intro st hg
    have hstep : deleteFileStep sp f st = .ok st := by
      simp only [deleteFileStep, if_neg (hg f (by simp))]
    simp only [deleteFilesLoop, bind, Except.bind]
    rw [hstep]
    exact ih st (fun f' hf' => hg f' (by simp [hf']))

theorem copyFilesLoop_noop {sp : SyncPaths} {digest : List Nat → Nat} :
    ∀ (L : List Path) (st : SyncState),
      (∀ f ∈ L, existsFS st.fs (joinPath sp.replica_path f) = true ∧
        ∃ rfd sfd, lookupFile st.fs (joinPath sp.replica_path f) = some rfd ∧
          lookupFile st.fs (joinPath sp.source_path f) = some sfd ∧
          digest rfd.content = digest sfd.content) →
      copyFilesLoop sp digest L st = .ok st := by
  intro L
  induction L with
  | nil => intro st hg; rfl
  | cons f rest ih =>
    intro st hg
    obtain ⟨hex, rfd, sfd, hrfd, hsfd, hdig⟩ := hg f (by simp)
    have hsex : existsFS st.fs (joinPath sp.source_path f) = true := by
      simp [existsFS, hsfd]
    have hg1 : ¬((!existsFS st.fs (joinPath sp.replica_path f) &&
        existsFS st.fs (joinPath sp.source_path f)) = true) := by
      rw [hex]
      simp
    have hg2 : (existsFS st.fs (joinPath sp.replica_path f) &&
        existsFS st.fs (joinPath sp.source_path f)) = true := by
      rw [hex, hsex]
      rfl
    have hcmp : compare_files digest st.fs (joinPath sp.replica_path f)
        (joinPath sp.source_path f) = .ok (digest rfd.content == digest sfd.content) := by
      simp only [compare_files, readFileFS_ok_iff.mpr hrfd, readFileFS_ok_iff.mpr hsfd,
        bind, Except.bind]
    have hbeq : (digest rfd.content == digest sfd.content) = true := by simp [hdig]
    have hstep : copyFileStep sp digest f st = .ok st := by
      simp only [copyFileStep, if_neg hg1, if_pos hg2, hcmp, bind, Except.bind, hbeq]
      simp
    simp only [copyFilesLoop, bind, Except.bind]
    rw [hstep]
    exact ih st (fun f' hf' => hg f' (by simp [hf']))

/- Whole-phase assembly: `sync_folders` on two-component roots. -/

theorem sync_folders_main {sp : SyncPaths} {st : SyncState}
    (hS2 : sp.source_path.length = 2) (hR2 : sp.replica_path.length = 2)
    (hSR : sp.source_path ≠ sp.replica_path)
    (hwf : st.fs.wfB = true)
    (hSd : isDirB st.fs sp.source_path = true)
    (hRd : isDirB st.fs sp.replica_path = true)
    (hc1 : ∀ d : Path, isDirB st.fs (joinPath sp.source_path d) = true →
      lookupFile st.fs (joinPath sp.replica_path d) = none)
    (hc2 : ∀ f : Path, (lookupFile st.fs (joinPath sp.source_path f)).isSome = true →
      isDirB st.fs (joinPath sp.replica_path f) = false) :
    ∃ stB, sync_folders sp st = .ok stB ∧
      stB.fs.wfB = true ∧
      (∀ q, lookupDir stB.fs (joinPath sp.source_path q) =
        lookupDir st.fs (joinPath sp.source_path q)) ∧
      (∀ q, lookupFile stB.fs (joinPath sp.source_path q) =
        lookupFile st.fs (joinPath sp.source_path q)) ∧
      (∀ d : Path, isDirB st.fs (joinPath sp.source_path d) = true →
        isDirB stB.fs (joinPath sp.replica_path d) = true) ∧
      (∀ d : Path, d ≠ [] → isDirB stB.fs (joinPath sp.replica_path d) = true →
        isDirB st.fs (joinPath sp.source_path d) = true) ∧
      (∀ q, lookupFile stB.fs q = lookupFile st.fs q ∨ lookupFile stB.fs q = none) ∧
      (∀ d0 : Path, isDirB st.fs (joinPath sp.replica_path d0) = true →
        existsFS st.fs (joinPath sp.source_path d0) = false →
        (∀ e, e <+: d0 → e ≠ d0 → existsFS st.fs (joinPath sp.source_path e) = true) →
        (∀ r, d0 <+: r → existsFS stB.fs (joinPath sp.replica_path r) = false) ∧
        (∃ lg, stB.log = st.log ++ lg ∧
          lg.count ("REMOVED", joinPath sp.replica_path d0) = 1 ∧
          ∀ r, d0 <+: r → r ≠ d0 → ("REMOVED", joinPath sp.replica_path r) ∉ lg)) ∧
      (∃ lg, stB.log = st.log ++ lg) ∧
      (∃ mt, stB.muts = st.muts ++ mt) := by
  have hSRlen : sp.source_path.length = sp.replica_path.length := by rw [hS2, hR2]
  have hRne : sp.replica_path ≠ [] := by
    intro hc
    rw [hc] at hR2
    simp at hR2
  have hdivRS : ∀ d q : Path, Diverges (joinPath sp.replica_path d) (joinPath sp.source_path q) :=
    fun d q => diverges_of_append_left hSRlen.symm (fun hc => hSR hc.symm) d q
  obtain ⟨srcT, hsrcT⟩ := Option.isSome_iff_exists.mp hSd
  obtain ⟨repT, hrepT⟩ := Option.isSome_iff_exists.mp hRd
  have hwfsrc : srcT.wfB = true := wfB_lookupDir hwf hsrcT
  have hwfrep : repT.wfB = true := wfB_lookupDir hwf hrepT
  have hld1 : list_dirs st.fs [] sp.source_path = .ok (specRelDirs srcT) := by
    simp only [list_dirs, hsrcT, listDirsBody_of_len2 hS2]
    simp
  have hld2 : list_dirs st.fs [] sp.replica_path = .ok (specRelDirs repT) := by
    simp only [list_dirs, hrepT, listDirsBody_of_len2 hR2]
    simp
  have hSDmem : ∀ d, d ∈ specRelDirs srcT ↔
      (d ≠ [] ∧ isDirB st.fs (joinPath sp.source_path d) = true) := by
    intro d
    rw [specRelDirs_mem_iff srcT hwfsrc d]
    have hlift : (lookupDir st.fs (joinPath sp.source_path d)) = lookupDir srcT d := by
      show lookupDir st.fs (sp.source_path ++ d) = lookupDir srcT d
      rw [lookupDir_append, hsrcT]
      rfl
    constructor
    · rintro ⟨h1, h2⟩
      refine ⟨h1, ?_⟩
      simp only [isDirB, hlift]
      exact h2
    · rintro ⟨h1, h2⟩
      refine ⟨h1, ?_⟩
      simp only [isDirB, hlift] at h2
      exact h2
  have hRDmem : ∀ d, d ∈ specRelDirs repT ↔
      (d ≠ [] ∧ isDirB st.fs (joinPath sp.replica_path d) = true) := by
    intro d
    rw [specRelDirs_mem_iff repT hwfrep d]
    have hlift : (lookupDir st.fs (joinPath sp.replica_path d)) = lookupDir repT d := by
      show lookupDir st.fs (sp.replica_path ++ d) = lookupDir repT d
      rw [lookupDir_append, hrepT]
      rfl
    constructor
    · rintro ⟨h1, h2⟩
      refine ⟨h1, ?_⟩
      simp only [isDirB, hlift]
      exact h2
    · rintro ⟨h1, h2⟩
      refine ⟨h1, ?_⟩
      simp only [isDirB, hlift] at h2
      exact h2
  have hAord : AncOrderedAt ([] ++ specRelDirs srcT) :=
    ancOrdered_of_pairwise_closed (specRelDirs_pairwise srcT hwfsrc)
      (fun d hd r hr hpre => specRelDirs_prefix_closed hwfsrc hd hr hpre)
  obtain ⟨stA, hcr, hbuiltall⟩ := createDirsLoop_build (specRelDirs srcT) [] st hAord
    (fun d hd => specRelDirs_ne_nil (by simpa using hd))
    (fun d hd => ((hSDmem d).mp (by simpa using hd)).2)
    (fun d hd => hc1 d ((hSDmem d).mp (by simpa using hd)).2)
    hRd (fun d hd => absurd hd (by simp))
  have hbuilt : ∀ d ∈ specRelDirs srcT, isDirB stA.fs (joinPath sp.replica_path d) = true :=
    fun d hd => hbuiltall d (by simpa using hd)
  obtain ⟨hAfiles, hAmono, hAjunk, hAfr, hAwfi, ⟨lgA, hlgA, hlgAe⟩, ⟨mtA, hmtA⟩⟩ :=
    createDirsLoop_effects (specRelDirs srcT) st stA hcr
  have hwfA : stA.fs.wfB = true := hAwfi hwf
  have hAsrcdir : ∀ q, lookupDir stA.fs (joinPath sp.source_path q) =
      lookupDir st.fs (joinPath sp.source_path q) :=
    fun q => hAfr (joinPath sp.source_path q) (fun dd hdd => hdivRS dd q)
  obtain ⟨stB, hBrun⟩ := deleteDirsLoop_ok hRne (specRelDirs repT) stA hwfA
    (fun d hd => by
      rw [hAfiles]
      have hdir : (lookupDir st.fs (joinPath sp.replica_path d)).isSome = true :=
        ((hRDmem d).mp hd).2
      exact wf_lookupFile_of_lookupDir hwf hdir)
  obtain ⟨hBmono, hBfile, hBfr, hwfB, ⟨lgB, hlgB, hlgBe⟩, ⟨mtB, hmtB⟩⟩ :=
    deleteDirsLoop_effects (specRelDirs repT) stA stB hwfA hBrun
  have hBsrc : ∀ q, lookupDir stB.fs (joinPath sp.source_path q) =
      lookupDir stA.fs (joinPath sp.source_path q) ∧
      lookupFile stB.fs (joinPath sp.source_path q) =
      lookupFile stA.fs (joinPath sp.source_path q) :=
    fun q => hBfr (joinPath sp.source_path q) (fun dd hdd => hdivRS dd q)
  have hsrcdir : ∀ q, lookupDir stB.fs (joinPath sp.source_path q) =
      lookupDir st.fs (joinPath sp.source_path q) := by
    intro q
    rw [(hBsrc q).1, hAsrcdir q]
  have hsrcfile : ∀ q, lookupFile stB.fs (joinPath sp.source_path q) =
      lookupFile st.fs (joinPath sp.source_path q) := by
    intro q
    rw [(hBsrc q).2, hAfiles]
  have hsrcdirA : ∀ q, isDirB stA.fs (joinPath sp.source_path q) =
      isDirB st.fs (joinPath sp.source_path q) := by
    intro q
    simp only [isDirB]
    rw [hAsrcdir]
  have hsrcexA : ∀ q, existsFS stA.fs (joinPath sp.source_path q) =
      existsFS st.fs (joinPath sp.source_path q) := by
    intro q
    simp only [existsFS]
    rw [hAsrcdir, hAfiles]
  have hfwd : ∀ d : Path, isDirB st.fs (joinPath sp.source_path d) = true →
      isDirB stB.fs (joinPath sp.replica_path d) = true := by
    intro d hd
    have hcov : ∀ d' ∈ specRelDirs repT, d' <+: d →
        existsFS stA.fs (joinPath sp.source_path d') = true := by
      intro d' hd' hp
      obtain ⟨u, hu⟩ := hp
      have hdir' : isDirB st.fs (joinPath sp.source_path d') = true := by
        have h1 : isDirB st.fs (joinPath sp.source_path d' ++ u) = true := by
          show isDirB st.fs (sp.source_path ++ d' ++ u) = true
          rw [List.append_assoc, hu]
          exact hd
        exact isDirB_of_isDirB_append h1
      rw [hsrcexA]
      simp only [existsFS, Bool.or_eq_true]
      left
      exact hdir'
    by_cases hdnil : d = []
    · subst hdnil
      refine deleteDirsLoop_survive hSRlen hSR (specRelDirs repT) stA stB hwfA hBrun [] ?_
        (fun d' hd' hp => absurd (List.prefix_nil.mp hp) (specRelDirs_ne_nil hd'))
      show isDirB stA.fs (sp.replica_path ++ []) = true
      rw [List.append_nil]
      exact hAmono sp.replica_path hRd
    · have hdSD : d ∈ specRelDirs srcT := (hSDmem d).mpr ⟨hdnil, hd⟩
      exact deleteDirsLoop_survive hSRlen hSR (specRelDirs repT) stA stB hwfA hBrun d
        (hbuilt d hdSD) hcov
  have hkillclause : ∀ d0 : Path, isDirB st.fs (joinPath sp.replica_path d0) = true →
      existsFS st.fs (joinPath sp.source_path d0) = false →
      (∀ e, e <+: d0 → e ≠ d0 → existsFS st.fs (joinPath sp.source_path e) = true) →
      (∀ r, d0 <+: r → existsFS stB.fs (joinPath sp.replica_path r) = false) ∧
      (∃ lg, stB.log = st.log ++ lg ∧
        lg.count ("REMOVED", joinPath sp.replica_path d0) = 1 ∧
        ∀ r, d0 <+: r → r ≠ d0 → ("REMOVED", joinPath sp.replica_path r) ∉ lg) := by
    intro d0 hdir0 hbad0 hanc0
    have hd0ne : d0 ≠ [] := by
      intro hc
      subst hc
      have hx : existsFS st.fs (joinPath sp.source_path []) = true := by
        simp only [existsFS, Bool.or_eq_true]
        left
        show (lookupDir st.fs (sp.source_path ++ [])).isSome = true
        rw [List.append_nil]
        exact hSd
      rw [hx] at hbad0
      exact Bool.noConfusion hbad0
    have hd0RD : d0 ∈ specRelDirs repT := (hRDmem d0).mpr ⟨hd0ne, hdir0⟩
    obtain ⟨L1, L2, hsplit, hL1⟩ := mem_split_pairwise hd0RD
      (specRelDirs_nodup repT hwfrep) (specRelDirs_pairwise repT hwfrep)
    rw [hsplit] at hBrun
    obtain ⟨hkill, _, lg, hlg, hcount, hnodesc⟩ :=
      deleteDirsLoop_kill hSRlen hSR L1 L2 stA stB hwfA hBrun hL1
        (fun e hpe hene => by
          rw [hsrcexA]
          exact hanc0 e hpe hene)
        (hAmono _ hdir0)
        (by
          rw [hsrcexA]
          exact hbad0)
    refine ⟨hkill, lgA ++ lg, ?_, ?_, ?_⟩
    · rw [hlg, hlgA, List.append_assoc]
    · rw [List.count_append]
      have hzero : lgA.count ("REMOVED", joinPath sp.replica_path d0) = 0 := by
        refine List.count_eq_zero.mpr ?_
        intro hmem
        have := hlgAe _ hmem
        simp at this
      rw [hzero, hcount]
    · intro r hr hrne hmem
      rcases List.mem_append.mp hmem with hmem | hmem
      · have := hlgAe _ hmem
        simp at this
      · exact hnodesc r hr hrne hmem
  have hbwd : ∀ d : Path, d ≠ [] → isDirB stB.fs (joinPath sp.replica_path d) = true →
      isDirB st.fs (joinPath sp.source_path d) = true := by
    intro d hdne hdB
    have hdA : isDirB stA.fs (joinPath sp.replica_path d) = true := hBmono _ hdB
    rcases hAjunk _ hdA with hdpre | ⟨d', hd', heq⟩
    swap
    · have : d = d' := List.append_cancel_left heq
      subst this
      exact ((hSDmem d).mp hd').2
    · by_contra hnd
      have hnd' : isDirB st.fs (joinPath sp.source_path d) = false := by
        cases hc : isDirB st.fs (joinPath sp.source_path d)
        · rfl
        · exact absurd hc hnd
      by_cases hpd : existsFS stA.fs (joinPath sp.source_path d) = true
      · have hfile : (lookupFile st.fs (joinPath sp.source_path d)).isSome = true := by
          rw [hsrcexA] at hpd
          simp only [existsFS, Bool.or_eq_true] at hpd
          rcases hpd with hx | hx
          · exact absurd hx (by simp [isDirB] at hnd'; simp [hnd'])
          · exact hx
        have := hc2 d hfile
        rw [hdpre] at this
        exact Bool.noConfusion this
      · have hpd' : existsFS stA.fs (joinPath sp.source_path d) = false := by
          cases hc : existsFS stA.fs (joinPath sp.source_path d)
          · rfl
          · exact absurd hc hpd
        obtain ⟨e0, he0pre, he0bad, he0min⟩ := exists_minimal_bad_prefix
          (fun e => existsFS stA.fs (joinPath sp.source_path e)) d.length d (le_refl _) hpd'
        have he0ne : e0 ≠ [] := by
          intro hc
          subst hc
          have hx : existsFS stA.fs (joinPath sp.source_path []) = true := by
            simp only [existsFS, Bool.or_eq_true]
            left
            rw [hAsrcdir []]
            show (lookupDir st.fs (sp.source_path ++ [])).isSome = true
            rw [List.append_nil]
            exact hSd
          rw [hx] at he0bad
          exact Bool.noConfusion he0bad
        have hd0RD : e0 ∈ specRelDirs repT := by
          have hdRD : d ∈ specRelDirs repT := (hRDmem d).mpr ⟨hdne, hdpre⟩
          exact specRelDirs_prefix_closed hwfrep hdRD he0ne he0pre
        obtain ⟨L1, L2, hsplit, hL1⟩ := mem_split_pairwise hd0RD
          (specRelDirs_nodup repT hwfrep) (specRelDirs_pairwise repT hwfrep)
        rw [hsplit] at hBrun
        have hdirA0 : isDirB stA.fs (joinPath sp.replica_path e0) = true := by
          obtain ⟨u, hu⟩ := he0pre
          have h1 : isDirB stA.fs (joinPath sp.replica_path e0 ++ u) = true := by
            show isDirB stA.fs (sp.replica_path ++ e0 ++ u) = true
            rw [List.append_assoc, hu]
            exact hdA
          exact isDirB_of_isDirB_append h1
        obtain ⟨hkill, _, _⟩ :=
          deleteDirsLoop_kill hSRlen hSR L1 L2 stA stB hwfA hBrun hL1
            (fun e hpe hene => he0min e hpe hene) hdirA0 he0bad
        have hx := hkill d he0pre
        simp only [existsFS, Bool.or_eq_false_iff] at hx
        have : isDirB stB.fs (joinPath sp.replica_path d) = false := hx.1
        rw [hdB] at this
        exact Bool.noConfusion this
  refine ⟨stB, ?_, hwfB, hsrcdir, hsrcfile, hfwd, hbwd, ?_, hkillclause, ?_, ?_⟩
  · simp only [sync_folders, hld1, hld2, bind, Except.bind]
    rw [hcr]
    exact hBrun
  · intro q
    rcases hBfile q with hc | hc
    · rw [hc, hAfiles]
      left
      rfl
    · right
      exact hc
  · exact ⟨lgA ++ lgB, by rw [hlgB, hlgA, List.append_assoc]⟩
  · exact ⟨mtA ++ mtB, by rw [hmtB, hmtA, List.append_assoc]⟩

theorem joinPath_nil (a : Path) : joinPath a [] = a := List.append_nil a

theorem full_sync_main {sp : SyncPaths} {digest : List Nat → Nat} {st : SyncState}
    (hS2 : sp.source_path.length = 2) (hR2 : sp.replica_path.length = 2)
    (hSR : sp.source_path ≠ sp.replica_path)
    (hwf : st.fs.wfB = true)
    (hSd : isDirB st.fs sp.source_path = true)
    (hRd : isDirB st.fs sp.replica_path = true)
    (hc1 : ∀ d : Path, isDirB st.fs (joinPath sp.source_path d) = true →
      lookupFile st.fs (joinPath sp.replica_path d) = none)
    (hc2 : ∀ f : Path, (lookupFile st.fs (joinPath sp.source_path f)).isSome = true →
      isDirB st.fs (joinPath sp.replica_path f) = false) :
    ∃ st', full_sync sp digest st = .ok st' ∧
      st'.fs.wfB = true ∧
      (∀ q, isDirB st'.fs (joinPath sp.source_path q) =
        isDirB st.fs (joinPath sp.source_path q)) ∧
      (∀ q, lookupFile st'.fs (joinPath sp.source_path q) =
        lookupFile st.fs (joinPath sp.source_path q)) ∧
      (∀ d : Path, d ≠ [] → (isDirB st'.fs (joinPath sp.replica_path d) = true ↔
        isDirB st.fs (joinPath sp.source_path d) = true)) ∧
      (∀ f : Path, ((lookupFile st'.fs (joinPath sp.replica_path f)).isSome = true ↔
        (lookupFile st.fs (joinPath sp.source_path f)).isSome = true)) ∧
      (∀ f rfd sfd, lookupFile st'.fs (joinPath sp.replica_path f) = some rfd →
        lookupFile st.fs (joinPath sp.source_path f) = some sfd →
        digest rfd.content = digest sfd.content) ∧
      isDirB st'.fs sp.replica_path = true ∧
      (∀ d0 : Path, isDirB st.fs (joinPath sp.replica_path d0) = true →
        existsFS st.fs (joinPath sp.source_path d0) = false →
        (∀ e, e <+: d0 → e ≠ d0 → existsFS st.fs (joinPath sp.source_path e) = true) →
        (∀ r, d0 <+: r → existsFS st'.fs (joinPath sp.replica_path r) = false) ∧
        (∃ lg, st'.log = st.log ++ lg ∧
          lg.count ("REMOVED", joinPath sp.replica_path d0) = 1 ∧
          ∀ r, d0 <+: r → r ≠ d0 → ("REMOVED", joinPath sp.replica_path r) ∉ lg)) := by
  have hSRlen : sp.source_path.length = sp.replica_path.length := by rw [hS2, hR2]
  have hdivSR : ∀ f g : Path, Diverges (joinPath sp.source_path f) (joinPath sp.replica_path g) :=
    fun f g => diverges_of_append_left hSRlen hSR f g
  obtain ⟨srcT, hsrcT⟩ := Option.isSome_iff_exists.mp hSd
  have hwfsrc : srcT.wfB = true := wfB_lookupDir hwf hsrcT
  obtain ⟨stB, hsfold, hwfB, hsdir, hsfile, hfwd, hbwd, hbfile, hkillB, ⟨lgAB0, hlgAB0⟩,
    ⟨mtAB, hmtAB⟩⟩ := sync_folders_main hS2 hR2 hSR hwf hSd hRd hc1 hc2
  have hsrcTB : lookupDir stB.fs sp.source_path = some srcT := by
    have h0 := hsdir []
    rw [joinPath_nil] at h0
    rw [h0]
    exact hsrcT
  have hRdB : isDirB stB.fs sp.replica_path = true := by
    have h0 := hfwd [] (by rw [joinPath_nil]; exact hSd)
    rw [joinPath_nil] at h0
    exact h0
  obtain ⟨repTB, hrepTB⟩ := Option.isSome_iff_exists.mp hRdB
  have hwfrepB : repTB.wfB = true := wfB_lookupDir hwfB hrepTB
  have hSFmem : ∀ f, f ∈ specRelFiles srcT ↔
      (lookupFile st.fs (joinPath sp.source_path f)).isSome = true := by
    intro f
    rw [specRelFiles_mem_iff srcT hwfsrc f]
    constructor
    · intro h
      have hf : f ≠ [] := by
        intro hc
        subst hc
        simp [lookupFile] at h
      show (lookupFile st.fs (sp.source_path ++ f)).isSome = true
      rw [lookupFile_append _ _ _ hf, hsrcT]
      exact h
    · intro h
      have hf : f ≠ [] := by
        intro hc
        subst hc
        rw [joinPath_nil, wf_lookupFile_of_lookupDir hwf hSd] at h
        simp at h
      have h2 : (lookupFile st.fs (sp.source_path ++ f)).isSome = true := h
      rw [lookupFile_append _ _ _ hf, hsrcT] at h2
      exact h2
  have hRFmem : ∀ f, f ∈ specRelFiles repTB ↔
      (lookupFile stB.fs (joinPath sp.replica_path f)).isSome = true := by
    intro f
    rw [specRelFiles_mem_iff repTB hwfrepB f]
    constructor
    · intro h
      have hf : f ≠ [] := by
        intro hc
        subst hc
        simp [lookupFile] at h
      show (lookupFile stB.fs (sp.replica_path ++ f)).isSome = true
      rw [lookupFile_append _ _ _ hf, hrepTB]
      exact h
    · intro h
      have hf : f ≠ [] := by
        intro hc
        subst hc
        rw [joinPath_nil, wf_lookupFile_of_lookupDir hwfB hRdB] at h
        simp at h
      have h2 : (lookupFile stB.fs (sp.replica_path ++ f)).isSome = true := h
      rw [lookupFile_append _ _ _ hf, hrepTB] at h2
      exact h2
  have hlf1 : list_files stB.fs [] sp.source_path = .ok (specRelFiles srcT) := by
    simp only [list_files, hsrcTB, listFilesBody_of_len2 hS2]
    simp
  have hlf2 : list_files stB.fs [] sp.replica_path = .ok (specRelFiles repTB) := by
    simp only [list_files, hrepTB, listFilesBody_of_len2 hR2]
    simp
  have hCne : ∀ f ∈ specRelFiles srcT, f ≠ [] := fun f hf => specRelFiles_ne_nil hf
  have hCsf : ∀ f ∈ specRelFiles srcT,
      (lookupFile stB.fs (joinPath sp.source_path f)).isSome = true := by
    intro f hf
    rw [hsfile f]
    exact (hSFmem f).mp hf
  have hCnd : ∀ f ∈ specRelFiles srcT,
      isDirB stB.fs (joinPath sp.replica_path f) = false := by
    intro f hf
    by_cases hc : isDirB stB.fs (joinPath sp.replica_path f) = true
    · have hsd : isDirB st.fs (joinPath sp.source_path f) = true :=
        hbwd f (hCne f hf) hc
      have hnone := wf_lookupFile_of_lookupDir hwf hsd
      have hsome := (hSFmem f).mp hf
      rw [hnone] at hsome
      exact absurd hsome (by simp)
    · cases hx : isDirB stB.fs (joinPath sp.replica_path f)
      · rfl
      · exact absurd hx hc
  have hCpar : ∀ f ∈ specRelFiles srcT,
      isDirB stB.fs (joinPath sp.replica_path f).dropLast = true := by
    intro f hf
    have hfne : f ≠ [] := hCne f hf
    have hdl : (joinPath sp.replica_path f).dropLast = joinPath sp.replica_path f.dropLast :=
      dropLast_append_of_ne_nil sp.replica_path hfne
    rw [hdl]
    by_cases hdn : f.dropLast = []
    · rw [hdn, joinPath_nil]
      exact hRdB
    · have hsrcfile : (lookupFile srcT f).isSome = true :=
        (specRelFiles_mem_iff srcT hwfsrc f).mp hf
      have hdsrc : isDirB srcT f.dropLast = true := isDirB_dropLast_of_file hsrcfile
      have hdst : isDirB st.fs (joinPath sp.source_path f.dropLast) = true := by
        show (lookupDir st.fs (sp.source_path ++ f.dropLast)).isSome = true
        rw [lookupDir_append, hsrcT]
        exact hdsrc
      exact hfwd f.dropLast hdst
  obtain ⟨stC, hCrun, hwfC, hdirC, hfileC, hconvC, lgC, hlgC, hlgCe⟩ :=
    copyFilesLoop_build hSRlen hSR (specRelFiles srcT) stB hwfB hCne hCsf hCnd hCpar
  have hg2C : ∀ q, isDirB stC.fs (joinPath sp.source_path q) =
      isDirB st.fs (joinPath sp.source_path q) := by
    intro q
    rw [hdirC]
    simp only [isDirB]
    rw [hsdir]
  have hSfileC : ∀ q, lookupFile stC.fs (joinPath sp.source_path q) =
      lookupFile st.fs (joinPath sp.source_path q) := by
    intro q
    rw [hfileC _ (fun g hg hc => (hdivSR q g).1 (hc ▸ List.prefix_rfl)), hsfile]
  have hDnd : ∀ f ∈ specRelFiles repTB,
      isDirB stC.fs (joinPath sp.replica_path f) = false := by
    intro f hf
    have hsome := (hRFmem f).mp hf
    have hBnd : isDirB stB.fs (joinPath sp.replica_path f) = false := by
      by_cases hc : isDirB stB.fs (joinPath sp.replica_path f) = true
      · have := wf_lookupFile_of_lookupDir hwfB hc
        rw [this] at hsome
        exact absurd hsome (by simp)
      · cases hx : isDirB stB.fs (joinPath sp.replica_path f)
        · rfl
        · exact absurd hx hc
    rw [hdirC]
    exact hBnd
  obtain ⟨stD, hDrun, hwfD, hdirD, hfileD, hframeD, hcompD, hpresD, ⟨lgD, hlgD, hlgDe⟩,
    ⟨mtD, hmtD⟩⟩ := deleteFilesLoop_main hSRlen hSR (specRelFiles repTB) stC hwfC hDnd
  have hsfiles : sync_files sp digest stB = .ok stD := by
    simp only [sync_files, hlf1, hlf2, bind, Except.bind]
    rw [hCrun]
    exact hDrun
  have hg2 : ∀ q, isDirB stD.fs (joinPath sp.source_path q) =
      isDirB st.fs (joinPath sp.source_path q) := by
    intro q
    rw [hdirD]
    exact hg2C q
  have hg3 : ∀ q, lookupFile stD.fs (joinPath sp.source_path q) =
      lookupFile st.fs (joinPath sp.source_path q) := by
    intro q
    rw [hframeD _ (fun g hg hc => (hdivSR q g).1 (hc ▸ List.prefix_rfl))]
    exact hSfileC q
  have hg4 : ∀ d : Path, d ≠ [] → (isDirB stD.fs (joinPath sp.replica_path d) = true ↔
      isDirB st.fs (joinPath sp.source_path d) = true) := by
    intro d hd
    rw [hdirD, hdirC]
    exact ⟨fun h => hbwd d hd h, fun h => hfwd d h⟩
  have hg7 : isDirB stD.fs sp.replica_path = true := by
    rw [hdirD, hdirC]
    exact hRdB
  have hg5 : ∀ f : Path, ((lookupFile stD.fs (joinPath sp.replica_path f)).isSome = true ↔
      (lookupFile st.fs (joinPath sp.source_path f)).isSome = true) := by
    intro f
    constructor
    · intro h
      have hC : (lookupFile stC.fs (joinPath sp.replica_path f)).isSome = true := by
        rcases hfileD (joinPath sp.replica_path f) with hc | hc
        · rw [← hc]
          exact h
        · rw [hc] at h
          simp at h
      by_cases hmem : f ∈ specRelFiles srcT
      · exact (hSFmem f).mp hmem
      · have hCB : lookupFile stC.fs (joinPath sp.replica_path f) =
            lookupFile stB.fs (joinPath sp.replica_path f) :=
          hfileC _ (fun g hg hc => hmem ((List.append_cancel_left hc) ▸ hg))
        rw [hCB] at hC
        have hfRF : f ∈ specRelFiles repTB := (hRFmem f).mpr hC
        by_cases hsex : existsFS stC.fs (joinPath sp.source_path f) = true
        · simp only [existsFS, Bool.or_eq_true] at hsex
          rcases hsex with hx | hx
          · have hxs : isDirB st.fs (joinPath sp.source_path f) = true := by
              rw [← hg2C f]
              exact hx
            have hnone := hc1 f hxs
            rcases hbfile (joinPath sp.replica_path f) with hb | hb
            · rw [hb, hnone] at hC
              simp at hC
            · rw [hb] at hC
              simp at hC
          · rw [hSfileC f] at hx
            exact hx
        · have hfalse : existsFS stC.fs (joinPath sp.source_path f) = false := by
            cases hx : existsFS stC.fs (joinPath sp.source_path f)
            · rfl
            · exact absurd hx hsex
          have := hcompD f hfRF hfalse
          rw [this] at h
          simp at h
    · intro h
      have hfSF : f ∈ specRelFiles srcT := (hSFmem f).mpr h
      obtain ⟨rfd, sfd, hrfd, hsfdC, hdig⟩ := hconvC f hfSF
      have hpres := hpresD f (by rw [hSfileC f]; exact h)
      rw [hpres, hrfd]
      simp
  have hg6 : ∀ f rfd sfd, lookupFile stD.fs (joinPath sp.replica_path f) = some rfd →
      lookupFile st.fs (joinPath sp.source_path f) = some sfd →
      digest rfd.content = digest sfd.content := by
    intro f rfd sfd hrfd hsfd
    have hsome : (lookupFile st.fs (joinPath sp.source_path f)).isSome = true := by
      rw [hsfd]
      rfl
    have hfSF : f ∈ specRelFiles srcT := (hSFmem f).mpr hsome
    obtain ⟨rfd', sfd', hrfd', hsfd', hdig'⟩ := hconvC f hfSF
    have hsfdC : lookupFile stC.fs (joinPath sp.source_path f) = some sfd := by
      rw [hSfileC f]
      exact hsfd
    have hsfd2 : sfd' = sfd := by
      rw [hsfdC] at hsfd'
      injection hsfd' with hh
      exact hh.symm
    have hpres := hpresD f (by rw [hsfdC]; rfl)
    rw [hpres, hrfd'] at hrfd
    injection hrfd with hh
    rw [← hh, hdig', hsfd2]
  have hg8 : ∀ d0 : Path, isDirB st.fs (joinPath sp.replica_path d0) = true →
      existsFS st.fs (joinPath sp.source_path d0) = false →
      (∀ e, e <+: d0 → e ≠ d0 → existsFS st.fs (joinPath sp.source_path e) = true) →
      (∀ r, d0 <+: r → existsFS stD.fs (joinPath sp.replica_path r) = false) ∧
      (∃ lg, stD.log = st.log ++ lg ∧
        lg.count ("REMOVED", joinPath sp.replica_path d0) = 1 ∧
        ∀ r, d0 <+: r → r ≠ d0 → ("REMOVED", joinPath sp.replica_path r) ∉ lg) := by
    intro d0 h1 h2 h3
    obtain ⟨hkillB', lgf, hlgf, hcnt, hnod⟩ := hkillB d0 h1 h2 h3
    have hdeadC : ∀ r, d0 <+: r →
        existsFS stC.fs (joinPath sp.replica_path r) = false := by
      intro r hr
      have hB := hkillB' r hr
      simp only [existsFS, Bool.or_eq_false_iff] at hB ⊢
      constructor
      · have hq := hdirC (joinPath sp.replica_path r)
        simp only [isDirB] at hq
        rw [hq]
        exact hB.1
      · by_cases hmem : r ∈ specRelFiles srcT
        · exfalso
          have hsome : (lookupFile st.fs (joinPath sp.source_path r)).isSome = true :=
            (hSFmem r).mp hmem
          obtain ⟨u, hu⟩ := hr
          by_cases hun : u = []
          · subst hun
            rw [List.append_nil] at hu
            subst hu
            have hx : existsFS st.fs (joinPath sp.source_path d0) = true := by
              simp only [existsFS, Bool.or_eq_true]
              right
              exact hsome
            rw [hx] at h2
            exact Bool.noConfusion h2
          · have hdir0 : isDirB st.fs (joinPath sp.source_path d0) = true := by
              refine isDirB_of_file_under hun ?_
              have heq : joinPath sp.source_path d0 ++ u = joinPath sp.source_path r := by
                show sp.source_path ++ d0 ++ u = sp.source_path ++ r
                rw [List.append_assoc, hu]
              rw [heq]
              exact hsome
            have hx : existsFS st.fs (joinPath sp.source_path d0) = true := by
              simp only [existsFS, Bool.or_eq_true]
              left
              exact hdir0
            rw [hx] at h2
            exact Bool.noConfusion h2
        · have hq := hfileC (joinPath sp.replica_path r)
            (fun g hg hc => hmem ((List.append_cancel_left hc) ▸ hg))
          rw [hq]
          exact hB.2
    have hdeadD : ∀ r, d0 <+: r →
        existsFS stD.fs (joinPath sp.replica_path r) = false := by
      intro r hr
      have hC := hdeadC r hr
      simp only [existsFS, Bool.or_eq_false_iff] at hC ⊢
      constructor
      · have hq := hdirD (joinPath sp.replica_path r)
        simp only [isDirB] at hq
        rw [hq]
        exact hC.1
      · rcases hfileD (joinPath sp.replica_path r) with hc | hc
        · rw [hc]
          exact hC.2
        · rw [hc]
          rfl
    refine ⟨hdeadD, lgf ++ (lgC ++ lgD), ?_, ?_, ?_⟩
    · rw [hlgD, hlgC, hlgf]
      simp [List.append_assoc]
    · rw [List.count_append, List.count_append, hcnt]
      have hcC : lgC.count ("REMOVED", joinPath sp.replica_path d0) = 0 := by
        refine List.count_eq_zero.mpr ?_
        intro hmem
        rcases hlgCe _ hmem with hx | hx <;> simp at hx
      have hcD : lgD.count ("REMOVED", joinPath sp.replica_path d0) = 0 := by
        refine List.count_eq_zero.mpr ?_
        intro hmem
        obtain ⟨g, hg, he, hsrcg, hrepg⟩ := hlgDe _ hmem
        have hgd : g = d0 := by
          have : joinPath sp.replica_path d0 = joinPath sp.replica_path g := by
            simpa using he
          exact (List.append_cancel_left this).symm
        subst hgd
        rw [hdeadC g List.prefix_rfl] at hrepg
        exact Bool.noConfusion hrepg
      rw [hcC, hcD]
    · intro r hr hrne hmem
      rcases List.mem_append.mp hmem with hmem | hmem
      · exact hnod r hr hrne hmem
      · rcases List.mem_append.mp hmem with hmem | hmem
        · rcases hlgCe _ hmem with hx | hx <;> simp at hx
        · obtain ⟨g, hg, he, hsrcg, hrepg⟩ := hlgDe _ hmem
          have hgd : g = r := by
            have : joinPath sp.replica_path r = joinPath sp.replica_path g := by
              simpa using he
            exact (List.append_cancel_left this).symm
          subst hgd
          rw [hdeadC g hr] at hrepg
          exact Bool.noConfusion hrepg
  refine ⟨stD, ?_, hwfD, hg2, hg3, hg4, hg5, hg6, hg7, hg8⟩
  simp only [full_sync, bind, Except.bind]
  rw [hsfold]
  exact hsfiles

theorem full_sync_identity_of_converged {sp : SyncPaths} {digest : List Nat → Nat}
    {st : SyncState}
    (hS2 : sp.source_path.length = 2) (hR2 : sp.replica_path.length = 2)
    (hwf : st.fs.wfB = true)
    (hSd : isDirB st.fs sp.source_path = true)
    (hRd : isDirB st.fs sp.replica_path = true)
    (conv1 : ∀ d : Path, d ≠ [] → (isDirB st.fs (joinPath sp.replica_path d) = true ↔
      isDirB st.fs (joinPath sp.source_path d) = true))
    (conv2 : ∀ f : Path, ((lookupFile st.fs (joinPath sp.replica_path f)).isSome = true ↔
      (lookupFile st.fs (joinPath sp.source_path f)).isSome = true))
    (conv3 : ∀ f rfd sfd, lookupFile st.fs (joinPath sp.replica_path f) = some rfd →
      lookupFile st.fs (joinPath sp.source_path f) = some sfd →
      digest rfd.content = digest sfd.content) :
    full_sync sp digest st = .ok st := by
  obtain ⟨srcT, hsrcT⟩ := Option.isSome_iff_exists.mp hSd
  obtain ⟨repT, hrepT⟩ := Option.isSome_iff_exists.mp hRd
  have hwfsrc : srcT.wfB = true := wfB_lookupDir hwf hsrcT
  have hwfrep : repT.wfB = true := wfB_lookupDir hwf hrepT
  have hsdirlift : ∀ d : Path, lookupDir st.fs (joinPath sp.source_path d) = lookupDir srcT d := by
    intro d
    show lookupDir st.fs (sp.source_path ++ d) = lookupDir srcT d
    rw [lookupDir_append, hsrcT]
    rfl
  have hrdirlift : ∀ d : Path, lookupDir st.fs (joinPath sp.replica_path d) = lookupDir repT d := by
    intro d
    show lookupDir st.fs (sp.replica_path ++ d) = lookupDir repT d
    rw [lookupDir_append, hrepT]
    rfl
  have hsfilelift : ∀ f : Path, f ≠ [] →
      lookupFile st.fs (joinPath sp.source_path f) = lookupFile srcT f := by
    intro f hf
    show lookupFile st.fs (sp.source_path ++ f) = lookupFile srcT f
    rw [lookupFile_append _ _ _ hf, hsrcT]
    rfl
  have hrfilelift : ∀ f : Path, f ≠ [] →
      lookupFile st.fs (joinPath sp.replica_path f) = lookupFile repT f := by
    intro f hf
    show lookupFile st.fs (sp.replica_path ++ f) = lookupFile repT f
    rw [lookupFile_append _ _ _ hf, hrepT]
    rfl
  have hld1 : list_dirs st.fs [] sp.source_path = .ok (specRelDirs srcT) := by
    simp only [list_dirs, hsrcT, listDirsBody_of_len2 hS2]
    simp
  have hld2 : list_dirs st.fs [] sp.replica_path = .ok (specRelDirs repT) := by
    simp only [list_dirs, hrepT, listDirsBody_of_len2 hR2]
    simp
  have hlf1 : list_files st.fs [] sp.source_path = .ok (specRelFiles srcT) := by
    simp only [list_files, hsrcT, listFilesBody_of_len2 hS2]
    simp
  have hlf2 : list_files st.fs [] sp.replica_path = .ok (specRelFiles repT) := by
    simp only [list_files, hrepT, listFilesBody_of_len2 hR2]
    simp
  have hA : createDirsLoop sp (specRelDirs srcT) st = .ok st := by
    refine createDirsLoop_noop (specRelDirs srcT) st ?_
    intro d hd
    obtain ⟨hdne, hdir⟩ := (specRelDirs_mem_iff srcT hwfsrc d).mp hd
    have hsdir : isDirB st.fs (joinPath sp.source_path d) = true := by
      simp only [isDirB, hsdirlift]
      exact hdir
    have hrex : existsFS st.fs (joinPath sp.replica_path d) = true := by
      simp only [existsFS, Bool.or_eq_true]
      left
      exact (conv1 d hdne).mpr hsdir
    rw [hrex]
    simp
  have hB : deleteDirsLoop sp (specRelDirs repT) st = .ok st := by
    refine deleteDirsLoop_noop (specRelDirs repT) st ?_
    intro d hd
    obtain ⟨hdne, hdir⟩ := (specRelDirs_mem_iff repT hwfrep d).mp hd
    have hrdir : isDirB st.fs (joinPath sp.replica_path d) = true := by
      simp only [isDirB, hrdirlift]
      exact hdir
    have hsex : existsFS st.fs (joinPath sp.source_path d) = true := by
      simp only [existsFS, Bool.or_eq_true]
      left
      exact (conv1 d hdne).mp hrdir
    rw [hsex]
    simp
  have hC : copyFilesLoop sp digest (specRelFiles srcT) st = .ok st := by
    refine copyFilesLoop_noop (specRelFiles srcT) st ?_
    intro f hf
    have hfne : f ≠ [] := specRelFiles_ne_nil hf
    have hsome : (lookupFile st.fs (joinPath sp.source_path f)).isSome = true := by
      rw [hsfilelift f hfne]
      exact (specRelFiles_mem_iff srcT hwfsrc f).mp hf
    have hrsome : (lookupFile st.fs (joinPath sp.replica_path f)).isSome = true :=
      (conv2 f).mpr hsome
    obtain ⟨sfd, hsfd⟩ := Option.isSome_iff_exists.mp hsome
    obtain ⟨rfd, hrfd⟩ := Option.isSome_iff_exists.mp hrsome
    refine ⟨?_, rfd, sfd, hrfd, hsfd, conv3 f rfd sfd hrfd hsfd⟩
    simp only [existsFS, Bool.or_eq_true]
    right
    exact hrsome
  have hD : deleteFilesLoop sp (specRelFiles repT) st = .ok st := by
    refine deleteFilesLoop_noop (specRelFiles repT) st ?_
    intro f hf
    have hfne : f ≠ [] := specRelFiles_ne_nil hf
    have hrsome : (lookupFile st.fs (joinPath sp.replica_path f)).isSome = true := by
      rw [hrfilelift f hfne]
      exact (specRelFiles_mem_iff repT hwfrep f).mp hf
    have hsome : (lookupFile st.fs (joinPath sp.source_path f)).isSome = true :=
      (conv2 f).mp hrsome
    have hsex : existsFS st.fs (joinPath sp.source_path f) = true := by
      simp only [existsFS, Bool.or_eq_true]
      right
      exact hsome
    rw [hsex]
    simp
  have hsfold : sync_folders sp st = .ok st := by
    simp only [sync_folders, hld1, hld2, bind, Except.bind]
    rw [hA]
    exact hB
  have hsfiles : sync_files sp digest st = .ok st := by
    simp only [sync_files, hlf1, hlf2, bind, Except.bind]
    rw [hC]
    exact hD
  simp only [full_sync, bind, Except.bind]
  rw [hsfold]
  exact hsfiles

/-- No entry of the source tree is blocked in the replica by an entry of
the other kind: no replica file sits at a source directory's relative
path, and no replica directory sits at a source file's relative path.
This is the precondition under which a cycle can mirror the source. -/
def noTypeConflict (fs : Tree) (S R : Path) : Bool :=
  match lookupDir fs S with
  | none => true
  | some srcT =>
    (specRelDirs srcT).all (fun d => (lookupFile fs (joinPath R d)).isNone) &&
    (specRelFiles srcT).all (fun f => !isDirB fs (joinPath R f))

theorem typeConflict_free {fs : Tree} {S R : Path}
    (hwf : fs.wfB = true) (hSd : isDirB fs S = true) (hRd : isDirB fs R = true)
    (hok : noTypeConflict fs S R = true) :
    (∀ d : Path, isDirB fs (joinPath S d) = true → lookupFile fs (joinPath R d) = none) ∧
    (∀ f : Path, (lookupFile fs (joinPath S f)).isSome = true → isDirB fs (joinPath R f) = false) := by
  obtain ⟨srcT, hsrcT⟩ := Option.isSome_iff_exists.mp hSd
  have hwfsrc : srcT.wfB = true := wfB_lookupDir hwf hsrcT
  rw [noTypeConflict, hsrcT, Bool.and_eq_true, List.all_eq_true, List.all_eq_true] at hok
  constructor
  · intro d hd
    by_cases hdn : d = []
    · subst hdn
      rw [joinPath_nil]
      exact wf_lookupFile_of_lookupDir hwf hRd
    · have hdmem : d ∈ specRelDirs srcT := by
        refine (specRelDirs_mem_iff srcT hwfsrc d).mpr ⟨hdn, ?_⟩
        have h2 : (lookupDir fs (S ++ d)).isSome = true := hd
        rw [lookupDir_append, hsrcT] at h2
        exact h2
      have := hok.1 d hdmem
      simp only [Option.isNone_iff_eq_none] at this
      exact this
  · intro f hf
    have hfn : f ≠ [] := by
      intro hc
      subst hc
      rw [joinPath_nil, wf_lookupFile_of_lookupDir hwf hSd] at hf
      simp at hf
    have hfmem : f ∈ specRelFiles srcT := by
      refine (specRelFiles_mem_iff srcT hwfsrc f).mpr ?_
      have h2 : (lookupFile fs (S ++ f)).isSome = true := hf
      rw [lookupFile_append _ _ _ hfn, hsrcT] at h2
      exact h2
    have := hok.2 f hfmem
    simp only [Bool.not_eq_true'] at this
    exact this

/- Concrete instances used to evaluate the theorems on executable inputs. -/

/-- A digest function for concrete runs (injective enough on the inputs
used here; the engine theorems hold for every digest function). -/
def exDigest (l : List Nat) : Nat := l.foldl (fun a b => a * 257 + b + 1) 0

/-- Roots of length three: source `a\b\s` holding one directory `d`,
replica `a\b\r` empty. -/
def fsL3 : Tree := .node [("a", .node [("b", .node
  [("s", .node [("d", emptyDir)] []), ("r", emptyDir)] [])] [])] []

def spL3 : SyncPaths := ⟨["a", "b", "s"], ["a", "b", "r"], ["a", "b", "log"]⟩

/-- The subtree of `fsL3` at the source root. -/
def srcL3 : Tree := .node [("d", emptyDir)] []

/-- Roots of length one: source `s` holds `a\b\c` and `b\c`; replica `r`
holds `c`. -/
def fsC3 : Tree := .node [("s", .node [("a", .node [("b", .node [("c", emptyDir)] [])] []),
  ("b", .node [("c", emptyDir)] [])] []), ("r", .node [("c", emptyDir)] [])] []

def spC3 : SyncPaths := ⟨["s"], ["r"], ["log"]⟩

/-- Roots of length three (`a\b\c` source): the dropped-prefix relative
paths make the create loop attempt `c\c` before `c`. -/
def fsC4 : Tree := .node [("a", .node [("b", .node [("c", .node [("c", .node [("d", emptyDir)] []),
  ("d", emptyDir)] []), ("r", emptyDir)] [])] [])] []

def spC4 : SyncPaths := ⟨["a", "b", "c"], ["a", "b", "r"], ["a", "b", "log"]⟩

/-- Two-component roots `.\s` and `.\r`; the source holds `a\b\c\file.txt`
and the replica is empty (the ordering scenario of the specification). -/
def fsC4b : Tree := .node [(".", .node [("s", .node [("a", .node [("b", .node [("c",
  .node [] [("file.txt", ⟨[1, 2, 3], 5, 6⟩)])] [])] [])] []), ("r", emptyDir)] [])] []

def spC4b : SyncPaths := ⟨[".", "s"], [".", "r"], [".", "log"]⟩

/-- Roots of length three, file `f` present in both trees with different
content. -/
def fsC5 : Tree := .node [("a", .node [("b", .node [("s", .node [] [("f", ⟨[1], 0, 0⟩)]),
  ("r", .node [] [("f", ⟨[2], 0, 0⟩)])] [])] [])] []

def spC5 : SyncPaths := ⟨["a", "b", "s"], ["a", "b", "r"], ["a", "b", "log"]⟩

/-- Roots of length one, replica-only directory `c`. -/
def fsC6 : Tree := .node [("s", emptyDir), ("r", .node [("c", emptyDir)] [])] []

def spC6 : SyncPaths := ⟨["s"], ["r"], ["log"]⟩

/-- The source root `s` does not exist. -/
def fsC8 : Tree := .node [("r", emptyDir), ("log", emptyDir)] []

def spC8 : SyncPaths := ⟨["s"], ["r"], ["log"]⟩

/-- A filesystem for launcher runs: `.\s`, `.\r` and the file `.\log`
exist. -/
def fsC9 : Tree := .node [(".", .node [("s", emptyDir), ("r", emptyDir)]
  [("log", ⟨[], 0, 0⟩)])] []

/-- Two-component roots `.\s`, `.\r` with directories and files on both
sides: `a\x` and files `a\f`, `g` in source; junk directory and a stale
`g` in replica. -/
def fsConv : Tree := .node [(".", .node [("s", .node [("a", .node [("x", emptyDir)]
  [("f", ⟨[1, 2], 0, 0⟩)])] [("g", ⟨[9], 3, 3⟩)]), ("r", .node [("junk", .node
  [("deep", emptyDir)] [("h", ⟨[7], 0, 0⟩)])] [("g", ⟨[8], 4, 4⟩)])] [])] []

def spConv : SyncPaths := ⟨[".", "s"], [".", "r"], [".", "log"]⟩

def stConv : SyncState := ⟨fsConv, [], []⟩

/- Claim C1. -/

/-- C1: the specification claims convergence for every pair of directory
trees.  This fails: with three-component roots (`a\b\s`, `a\b\r`) the
listing drops only two components, so the produced relative paths are
wrong, `full_sync` succeeds as a no-op, and the source directory `d` is
never created in the replica. -/
theorem C1_counterexample :
    isDirB fsL3 (joinPath spL3.source_path ["d"]) = true ∧
    (full_sync spL3 exDigest ⟨fsL3, [], []⟩).map
      (fun st => (isDirB st.fs (joinPath spL3.replica_path ["d"]), st.log.length)) =
      .ok (false, 0) := by
  constructor
  · rfl
  · rfl

/-- C1 (amended to two-component roots): for distinct two-component
source and replica roots, a well-formed filesystem in which both roots
are directories and no source entry is blocked in the replica by an
entry of the other kind, one `full_sync` succeeds and afterwards the
replica's directory set and file set (as relative paths, file content
compared by digest) are exactly equal to the source's, which is left
unchanged. -/
theorem C1_full_sync_converges {sp : SyncPaths} {digest : List Nat → Nat} {st : SyncState}
    (hS2 : sp.source_path.length = 2) (hR2 : sp.replica_path.length = 2)
    (hSR : sp.source_path ≠ sp.replica_path)
    (hwf : st.fs.wfB = true)
    (hSd : isDirB st.fs sp.source_path = true)
    (hRd : isDirB st.fs sp.replica_path = true)
    (hc : noTypeConflict st.fs sp.source_path sp.replica_path = true) :
    ∃ st', full_sync sp digest st = .ok st' ∧
      (∀ d : Path, d ≠ [] → (isDirB st'.fs (joinPath sp.replica_path d) = true ↔
        isDirB st'.fs (joinPath sp.source_path d) = true)) ∧
      (∀ f : Path, ((lookupFile st'.fs (joinPath sp.replica_path f)).isSome = true ↔
        (lookupFile st'.fs (joinPath sp.source_path f)).isSome = true)) ∧
      (∀ f rfd sfd, lookupFile st'.fs (joinPath sp.replica_path f) = some rfd →
        lookupFile st'.fs (joinPath sp.source_path f) = some sfd →
        digest rfd.content = digest sfd.content) ∧
      (∀ q, isDirB st'.fs (joinPath sp.source_path q) =
        isDirB st.fs (joinPath sp.source_path q)) ∧
      (∀ q, lookupFile st'.fs (joinPath sp.source_path q) =
        lookupFile st.fs (joinPath sp.source_path q)) := by
  obtain ⟨hc1, hc2⟩ := typeConflict_free hwf hSd hRd hc
  obtain ⟨st', hrun, hwf', hg2, hg3, hg4, hg5, hg6, hg7, hg8⟩ :=
    @full_sync_main sp digest st hS2 hR2 hSR hwf hSd hRd hc1 hc2
  refine ⟨st', hrun, ?_, ?_, ?_, hg2, hg3⟩
  · intro d hd
    rw [hg2 d]
    exact hg4 d hd
  · intro f
    rw [hg3 f]
    exact hg5 f
  · intro f rfd sfd h1 h2
    rw [hg3 f] at h2
    exact hg6 f rfd sfd h1 h2

/-- Evaluation of C1 on a concrete two-component instance. -/
theorem C1_full_sync_converges_witness :
    spConv.source_path.length = 2 ∧ spConv.replica_path.length = 2 ∧
    spConv.source_path ≠ spConv.replica_path ∧ fsConv.wfB = true ∧
    isDirB fsConv spConv.source_path = true ∧ isDirB fsConv spConv.replica_path = true ∧
    noTypeConflict fsConv spConv.source_path spConv.replica_path = true ∧
    ∃ st', full_sync spConv exDigest stConv = .ok st' ∧
      (∀ d : Path, d ≠ [] → (isDirB st'.fs (joinPath spConv.replica_path d) = true ↔
        isDirB st'.fs (joinPath spConv.source_path d) = true)) ∧
      (∀ f : Path, ((lookupFile st'.fs (joinPath spConv.replica_path f)).isSome = true ↔
        (lookupFile st'.fs (joinPath spConv.source_path f)).isSome = true)) ∧
      (∀ f rfd sfd, lookupFile st'.fs (joinPath spConv.replica_path f) = some rfd →
        lookupFile st'.fs (joinPath spConv.source_path f) = some sfd →
        exDigest rfd.content = exDigest sfd.content) ∧
      (∀ q, isDirB st'.fs (joinPath spConv.source_path q) =
        isDirB stConv.fs (joinPath spConv.source_path q)) ∧
      (∀ q, lookupFile st'.fs (joinPath spConv.source_path q) =
        lookupFile stConv.fs (joinPath spConv.source_path q)) :=
  ⟨by decide, by decide, by decide, by decide, by decide, by decide, by decide,
    C1_full_sync_converges (by decide) (by decide) (by decide) (by decide) (by decide)
      (by decide) (by decide)⟩

/- Claim C2. -/

/-- C2: the specification claims every produced entry path is relative to
the listing's root argument.  This fails for a three-component root: the
listing of the subtree at `a\b\s` produces `s\d` (only two components
are dropped) instead of the root-relative `d`, and joining either root
with the produced path addresses no entry. -/
theorem C2_counterexample :
    lookupDir fsL3 spL3.source_path = some srcL3 ∧
    listDirsBody spL3.source_path srcL3 ≠ specRelDirs srcL3 ∧
    listDirsBody spL3.source_path srcL3 = [["s", "d"]] ∧
    (lookupDir fsL3 (joinPath spL3.replica_path ["s", "d"])).isSome = false ∧
    (lookupDir fsL3 (joinPath spL3.source_path ["s", "d"])).isSome = false := by
  refine ⟨rfl, by decide, by decide, by decide, by decide⟩

/-- C2 (amended to two-component roots): when the root argument has
exactly two components, the listings produced by `list_dirs` and
`list_files` are exactly the root-relative directory and file paths of
the scanned subtree, and each produced path addresses the corresponding
entry when looked up relative to the root. -/
theorem C2_relative_of_two_component_roots (t : Tree) (p : Path) (hp : p.length = 2)
    (hwf : t.wfB = true) :
    listDirsBody p t = specRelDirs t ∧
    listFilesBody p t = specRelFiles t ∧
    (∀ q ∈ listDirsBody p t, (lookupDir t q).isSome = true) ∧
    (∀ q ∈ listFilesBody p t, (lookupFile t q).isSome = true) := by
  refine ⟨listDirsBody_of_len2 hp t, listFilesBody_of_len2 hp t, ?_, ?_⟩
  · intro q hq
    rw [listDirsBody_of_len2 hp t] at hq
    exact ((specRelDirs_mem_iff t hwf q).mp hq).2
  · intro q hq
    rw [listFilesBody_of_len2 hp t] at hq
    exact (specRelFiles_mem_iff t hwf q).mp hq

/-- Evaluation of C2 on a concrete two-component root. -/
theorem C2_relative_witness :
    ([".", "s"] : Path).length = 2 ∧ fsConv.wfB = true ∧
    (listDirsBody [".", "s"] fsConv = specRelDirs fsConv ∧
    listFilesBody [".", "s"] fsConv = specRelFiles fsConv ∧
    (∀ q ∈ listDirsBody [".", "s"] fsConv, (lookupDir fsConv q).isSome = true) ∧
    (∀ q ∈ listFilesBody [".", "s"] fsConv, (lookupFile fsConv q).isSome = true)) :=
  ⟨by decide, by decide,
    C2_relative_of_two_component_roots fsConv [".", "s"] (by decide) (by decide)⟩

/- Claim C3. -/

/-- C3: the specification claims a second cycle after a successful cycle
performs no mutations and emits no log entries, for every pair of trees.
This fails with one-component roots: the dropped-prefix paths make the
first cycle create `r\b` and `r\b\c` for the source entries `a\b` and
`a\b\c`, and the second cycle then re-creates state it mislisted,
emitting one further log entry and one further mutation. -/
theorem C3_counterexample :
    ((full_sync spC3 exDigest ⟨fsC3, [], []⟩).bind (fun st1 =>
      (full_sync spC3 exDigest st1).map (fun st2 =>
        (st2.log.length - st1.log.length, st2.muts.length - st1.muts.length)))) =
      .ok (1, 1) := by
  rfl

/-- C3 (amended to two-component roots): under the convergence
hypotheses of C1, the cycle after a successful `full_sync` returns the
state unchanged: no filesystem mutation is recorded and no log entry is
emitted by the second cycle. -/
theorem C3_second_cycle_identity {sp : SyncPaths} {digest : List Nat → Nat} {st : SyncState}
    (hS2 : sp.source_path.length = 2) (hR2 : sp.replica_path.length = 2)
    (hSR : sp.source_path ≠ sp.replica_path)
    (hwf : st.fs.wfB = true)
    (hSd : isDirB st.fs sp.source_path = true)
    (hRd : isDirB st.fs sp.replica_path = true)
    (hc : noTypeConflict st.fs sp.source_path sp.replica_path = true) :
    ∃ st', full_sync sp digest st = .ok st' ∧ full_sync sp digest st' = .ok st' := by
  obtain ⟨hc1, hc2⟩ := typeConflict_free hwf hSd hRd hc
  obtain ⟨st', hrun, hwf', hg2, hg3, hg4, hg5, hg6, hg7, hg8⟩ :=
    @full_sync_main sp digest st hS2 hR2 hSR hwf hSd hRd hc1 hc2
  refine ⟨st', hrun, ?_⟩
  have hSd' : isDirB st'.fs sp.source_path = true := by
    have h0 := hg2 []
    rw [joinPath_nil] at h0
    rw [h0]
    exact hSd
  refine full_sync_identity_of_converged hS2 hR2 hwf' hSd' hg7 ?_ ?_ ?_
  · intro d hd
    rw [hg2 d]
    exact hg4 d hd
  · intro f
    rw [hg3 f]
    exact hg5 f
  · intro f rfd sfd h1 h2
    rw [hg3 f] at h2
    exact hg6 f rfd sfd h1 h2

/-- Evaluation of C3 on a concrete two-component instance. -/
theorem C3_second_cycle_identity_witness :
    spConv.source_path.length = 2 ∧ spConv.replica_path.length = 2 ∧
    spConv.source_path ≠ spConv.replica_path ∧ fsConv.wfB = true ∧
    isDirB fsConv spConv.source_path = true ∧ isDirB fsConv spConv.replica_path = true ∧
    noTypeConflict fsConv spConv.source_path spConv.replica_path = true ∧
    ∃ st', full_sync spConv exDigest stConv = .ok st' ∧
      full_sync spConv exDigest st' = .ok st' :=
  ⟨by decide, by decide, by decide, by decide, by decide, by decide, by decide,
    C3_second_cycle_identity (by decide) (by decide) (by decide) (by decide) (by decide)
      (by decide) (by decide)⟩

/- Claim C4. -/

/-- C4: the specification claims the produced directory list always
places ancestors before descendants so that single-level creation never
fails on a missing parent.  With a three-component source root the
produced paths are wrong: the listing of `fsC4` yields `c\c` with no
preceding `c`, the ordering property fails, and the cycle aborts with a
missing-parent `FileNotFoundError` from `os.mkdir`. -/
theorem C4_counterexample :
    list_dirs fsC4 [] spC4.source_path = .ok [["c", "c"], ["c", "c", "d"], ["c", "d"]] ∧
    ¬ AncOrderedAt [["c", "c"], ["c", "c", "d"], ["c", "d"]] ∧
    full_sync spC4 exDigest ⟨fsC4, [], []⟩ = .error "FileNotFoundError" := by
  refine ⟨by rfl, ?_, by rfl⟩
  intro h
  have := h [] ["c", "c"] [["c", "c", "d"], ["c", "d"]] rfl ["c"] (by decide) (by decide)
    (by decide)
  simp at this

/-- C4 (amended to two-component roots): the directory list produced by
`list_dirs` places every ancestor before each of its descendants, and
the single-level create loop therefore succeeds and creates every listed
directory in the replica; the concrete `a\b\c` scenario is checked in
the accompanying evaluation. -/
theorem C4_parent_before_child {sp : SyncPaths} {st : SyncState} {SD : List Path}
    (hS2 : sp.source_path.length = 2)
    (hwf : st.fs.wfB = true)
    (hSd : isDirB st.fs sp.source_path = true)
    (hRd : isDirB st.fs sp.replica_path = true)
    (hc : noTypeConflict st.fs sp.source_path sp.replica_path = true)
    (hlist : list_dirs st.fs [] sp.source_path = .ok SD) :
    AncOrderedAt SD ∧
    ∃ st', createDirsLoop sp SD st = .ok st' ∧
      ∀ d ∈ SD, isDirB st'.fs (joinPath sp.replica_path d) = true := by
  obtain ⟨hc1, hc2⟩ := typeConflict_free hwf hSd hRd hc
  obtain ⟨srcT, hsrcT⟩ := Option.isSome_iff_exists.mp hSd
  have hwfsrc : srcT.wfB = true := wfB_lookupDir hwf hsrcT
  have hSD : SD = specRelDirs srcT := by
    simp only [list_dirs, hsrcT, listDirsBody_of_len2 hS2] at hlist
    injection hlist with hlist
    rw [← hlist]
    simp
  subst hSD
  have hSDmem : ∀ d ∈ specRelDirs srcT, isDirB st.fs (joinPath sp.source_path d) = true := by
    intro d hd
    have h2 := ((specRelDirs_mem_iff srcT hwfsrc d).mp hd).2
    show (lookupDir st.fs (sp.source_path ++ d)).isSome = true
    rw [lookupDir_append, hsrcT]
    exact h2
  refine ⟨?_, ?_⟩
  · exact ancOrdered_of_pairwise_closed (specRelDirs_pairwise srcT hwfsrc)
      (fun d hd r hr hpre => specRelDirs_prefix_closed hwfsrc hd hr hpre)
  · obtain ⟨st', hrun, hall⟩ := createDirsLoop_build (specRelDirs srcT) [] st
      (by
        have := ancOrdered_of_pairwise_closed (specRelDirs_pairwise srcT hwfsrc)
          (fun d hd r hr hpre => specRelDirs_prefix_closed hwfsrc hd hr hpre)
        simpa using this)
      (fun d hd => specRelDirs_ne_nil (by simpa using hd))
      (fun d hd => hSDmem d (by simpa using hd))
      (fun d hd => hc1 d (hSDmem d (by simpa using hd)))
      hRd (fun d hd => absurd hd (by simp))
    exact ⟨st', hrun, fun d hd => hall d (by simpa using hd)⟩

/-- Evaluation of C4 on the specification's `a\b\c` scenario with
two-component roots. -/
theorem C4_parent_before_child_witness :
    spC4b.source_path.length = 2 ∧ fsC4b.wfB = true ∧
    isDirB fsC4b spC4b.source_path = true ∧ isDirB fsC4b spC4b.replica_path = true ∧
    noTypeConflict fsC4b spC4b.source_path spC4b.replica_path = true ∧
    list_dirs fsC4b [] spC4b.source_path = .ok [["a"], ["a", "b"], ["a", "b", "c"]] ∧
    (AncOrderedAt [["a"], ["a", "b"], ["a", "b", "c"]] ∧
    ∃ st', createDirsLoop spC4b [["a"], ["a", "b"], ["a", "b", "c"]] ⟨fsC4b, [], []⟩ = .ok st' ∧
      ∀ d ∈ [["a"], ["a", "b"], ["a", "b", "c"]],
        isDirB st'.fs (joinPath spC4b.replica_path d) = true) :=
  ⟨by decide, by decide, by decide, by decide, by decide, by rfl,
    C4_parent_before_child (by decide) (by decide) (by decide) (by decide) (by decide)
      (by rfl)⟩

/- Claim C5. -/

/-- A one-component-root filesystem with file `f` on both sides and
different contents, for exercising one copy-loop step. -/
def fsW5 : Tree := .node [("s", .node [] [("f", ⟨[1], 0, 0⟩)]),
  ("r", .node [] [("f", ⟨[2], 0, 0⟩)])] []

def spW5 : SyncPaths := ⟨["s"], ["r"], ["log"]⟩

/-- The state after the modify branch replaces `r\f` with the source
content. -/
def stW5' : SyncState := ⟨.node [("s", .node [] [("f", ⟨[1], 0, 0⟩)]),
  ("r", .node [] [("f", ⟨[1], 0, 0⟩)])] [],
  [("MODIFIED", ["r", "f"])],
  [("os.remove", ["r", "f"]), ("shutil.copy2", ["r", "f"])]⟩

/-- C5: the specification claims that for a file pair present in both
trees the MODIFIED action is triggered whenever the digests differ.
With three-component roots the pair is never even visited: the digests
of `f` differ, yet one cycle emits no log entry and leaves the stale
replica content in place. -/
theorem C5_counterexample :
    exDigest [1] ≠ exDigest [2] ∧
    (full_sync spC5 exDigest ⟨fsC5, [], []⟩).map
      (fun st => (st.log, (lookupFile st.fs (joinPath spC5.replica_path ["f"])).map
        FileData.content)) = .ok ([], some [2]) := by
  exact ⟨by decide, by rfl⟩

/-- C5 (amended to the visited file pairs): when the copy loop reaches a
relative path at which both trees hold a regular file, the step is a
strict no-op if the content digests agree (the file data carry
modification time and permissions, which are ignored), and emits exactly
one MODIFIED log entry if the digests differ.  Digest inequality alone
decides replacement. -/
theorem C5_modified_iff {sp : SyncPaths} {digest : List Nat → Nat} {f : Path}
    {st st' : SyncState} {rfd sfd : FileData}
    (hrfd : lookupFile st.fs (joinPath sp.replica_path f) = some rfd)
    (hsfd : lookupFile st.fs (joinPath sp.source_path f) = some sfd)
    (h : copyFileStep sp digest f st = .ok st') :
    (digest rfd.content = digest sfd.content → st' = st) ∧
    (digest rfd.content ≠ digest sfd.content →
      st'.log = st.log ++ [("MODIFIED", joinPath sp.replica_path f)]) := by
  rcases copyFileStep_cases h with ⟨heq, hng, hall⟩ |
    ⟨hexf, hexs, fs1, hcp, hst'⟩ |
    ⟨hex1, hex2, ⟨rfd', sfd', hrfd', hsfd', hne'⟩, fs1, fs2, hrm, hcp, hst'⟩
  · exact ⟨fun _ => heq, fun hne => absurd (hall rfd sfd hrfd hsfd) hne⟩
  · exfalso
    simp only [existsFS, Bool.or_eq_false_iff] at hexf
    rw [hrfd] at hexf
    exact absurd hexf.2 (by simp)
  · have hr : rfd' = rfd := by
      rw [hrfd] at hrfd'
      injection hrfd' with hh
      exact hh.symm
    have hs : sfd' = sfd := by
      rw [hsfd] at hsfd'
      injection hsfd' with hh
      exact hh.symm
    subst hr hs
    refine ⟨fun heq => absurd heq hne', fun _ => ?_⟩
    rw [hst']

/-- Evaluation of C5 on a concrete differing file pair. -/
theorem C5_modified_iff_witness :
    lookupFile fsW5 (joinPath spW5.replica_path ["f"]) = some ⟨[2], 0, 0⟩ ∧
    lookupFile fsW5 (joinPath spW5.source_path ["f"]) = some ⟨[1], 0, 0⟩ ∧
    copyFileStep spW5 exDigest ["f"] ⟨fsW5, [], []⟩ = .ok stW5' ∧
    ((exDigest (FileData.mk [2] 0 0).content = exDigest (FileData.mk [1] 0 0).content →
      stW5' = ⟨fsW5, [], []⟩) ∧
    (exDigest (FileData.mk [2] 0 0).content ≠ exDigest (FileData.mk [1] 0 0).content →
      stW5'.log = ([] : List (String × Path)) ++ [("MODIFIED", joinPath spW5.replica_path ["f"])])) :=
  ⟨rfl, rfl, rfl, C5_modified_iff rfl rfl rfl⟩

/- Claim C6. -/

/-- C6: the specification claims a replica-only directory is removed in
one cycle with exactly one REMOVED log entry.  With one-component roots
the produced relative path of `r\c` is empty, the deletion guard
compares the roots themselves, and the replica-only directory survives
the cycle with no log entry at all. -/
theorem C6_counterexample :
    isDirB fsC6 (joinPath spC6.replica_path ["c"]) = true ∧
    existsFS fsC6 (joinPath spC6.source_path ["c"]) = false ∧
    (full_sync spC6 exDigest ⟨fsC6, [], []⟩).map
      (fun st => (isDirB st.fs (joinPath spC6.replica_path ["c"]), st.log.length)) =
      .ok (true, 0) := by
  exact ⟨by decide, by decide, by rfl⟩

/-- C6 (amended to two-component roots): under the hypotheses of C1, a
directory present in the replica but absent from the source, all of
whose ancestors are present in the source, is removed by one cycle
together with every descendant, the cycle's log contains exactly one
REMOVED entry for it, and no REMOVED entry for any of its strict
descendants is emitted by either phase. -/
theorem C6_remove_dir {sp : SyncPaths} {digest : List Nat → Nat} {st : SyncState}
    (hS2 : sp.source_path.length = 2) (hR2 : sp.replica_path.length = 2)
    (hSR : sp.source_path ≠ sp.replica_path)
    (hwf : st.fs.wfB = true)
    (hSd : isDirB st.fs sp.source_path = true)
    (hRd : isDirB st.fs sp.replica_path = true)
    (hc : noTypeConflict st.fs sp.source_path sp.replica_path = true)
    (d0 : Path)
    (hdir : isDirB st.fs (joinPath sp.replica_path d0) = true)
    (hnosrc : existsFS st.fs (joinPath sp.source_path d0) = false)
    (hanc : ∀ e, e <+: d0 → e ≠ d0 → existsFS st.fs (joinPath sp.source_path e) = true) :
    ∃ st', full_sync sp digest st = .ok st' ∧
      (∀ r, d0 <+: r → existsFS st'.fs (joinPath sp.replica_path r) = false) ∧
      (∃ lg, st'.log = st.log ++ lg ∧
        lg.count ("REMOVED", joinPath sp.replica_path d0) = 1 ∧
        ∀ r, d0 <+: r → r ≠ d0 → ("REMOVED", joinPath sp.replica_path r) ∉ lg) := by
  obtain ⟨hc1, hc2⟩ := typeConflict_free hwf hSd hRd hc
  obtain ⟨st', hrun, hwf', hg2, hg3, hg4, hg5, hg6, hg7, hg8⟩ :=
    @full_sync_main sp digest st hS2 hR2 hSR hwf hSd hRd hc1 hc2
  obtain ⟨hdead, hlog⟩ := hg8 d0 hdir hnosrc hanc
  exact ⟨st', hrun, hdead, hlog⟩

/-- Evaluation of C6 on the concrete replica-only directory `junk`. -/
theorem C6_remove_dir_witness :
    spConv.source_path.length = 2 ∧ spConv.replica_path.length = 2 ∧
    spConv.source_path ≠ spConv.replica_path ∧ fsConv.wfB = true ∧
    isDirB fsConv spConv.source_path = true ∧ isDirB fsConv spConv.replica_path = true ∧
    noTypeConflict fsConv spConv.source_path spConv.replica_path = true ∧
    isDirB fsConv (joinPath spConv.replica_path ["junk"]) = true ∧
    existsFS fsConv (joinPath spConv.source_path ["junk"]) = false ∧
    ∃ st', full_sync spConv exDigest stConv = .ok st' ∧
      (∀ r, ["junk"] <+: r → existsFS st'.fs (joinPath spConv.replica_path r) = false) ∧
      (∃ lg, st'.log = stConv.log ++ lg ∧
        lg.count ("REMOVED", joinPath spConv.replica_path ["junk"]) = 1 ∧
        ∀ r, ["junk"] <+: r → r ≠ ["junk"] →
          ("REMOVED", joinPath spConv.replica_path r) ∉ lg) :=
  ⟨by decide, by decide, by decide, by decide, by decide, by decide, by decide, by decide,
    by decide,
    C6_remove_dir (by decide) (by decide) (by decide) (by decide) (by decide) (by decide)
      (by decide) ["junk"] (by decide) (by decide)
      (by
        intro e he hne
        cases e with
        | nil => decide
        | cons x e' =>
          obtain ⟨hx, he'⟩ := prefix_cons_cases.mp he
          have he'' : e' = [] := List.prefix_nil.mp he'
          subst he'' hx
          exact absurd rfl hne)⟩

/- Claim C7. -/

/-- C7: every loop step either performs no mutation and returns the state
unchanged (in particular, a comparison whose digests match changes
neither the replica file nor the log), or records its mutations and
emits exactly one log entry alongside them. -/
theorem C7_log_per_action {sp : SyncPaths} {digest : List Nat → Nat} :
    (∀ (d : Path) (st st' : SyncState), createDirStep sp d st = .ok st' →
      st' = st ∨ ∃ a p ms, st'.log = st.log ++ [(a, p)] ∧ st'.muts = st.muts ++ ms ∧ ms ≠ []) ∧
    (∀ (d : Path) (st st' : SyncState), deleteDirStep sp d st = .ok st' →
      st' = st ∨ ∃ a p ms, st'.log = st.log ++ [(a, p)] ∧ st'.muts = st.muts ++ ms ∧ ms ≠ []) ∧
    (∀ (f : Path) (st st' : SyncState), copyFileStep sp digest f st = .ok st' →
      st' = st ∨ ∃ a p ms, st'.log = st.log ++ [(a, p)] ∧ st'.muts = st.muts ++ ms ∧ ms ≠ []) ∧
    (∀ (f : Path) (st st' : SyncState), deleteFileStep sp f st = .ok st' →
      st' = st ∨ ∃ a p ms, st'.log = st.log ++ [(a, p)] ∧ st'.muts = st.muts ++ ms ∧ ms ≠ []) ∧
    (∀ (f : Path) (st st' : SyncState) (rfd sfd : FileData),
      copyFileStep sp digest f st = .ok st' →
      lookupFile st.fs (joinPath sp.replica_path f) = some rfd →
      lookupFile st.fs (joinPath sp.source_path f) = some sfd →
      digest rfd.content = digest sfd.content → st' = st) := by
  refine ⟨?_, ?_, ?_, ?_, ?_⟩
  · intro d st st' h
    rcases createDirStep_cases h with ⟨heq, _⟩ | ⟨_, _, fs1, _, hst'⟩
    · exact Or.inl heq
    · right
      refine ⟨"CREATED", joinPath sp.replica_path d,
        [("os.mkdir", joinPath sp.replica_path d)], ?_, ?_, by simp⟩
      · rw [hst']
      · rw [hst']
  · intro d st st' h
    rcases deleteDirStep_cases h with ⟨heq, _⟩ | ⟨_, _, fs1, _, hst'⟩
    · exact Or.inl heq
    · right
      refine ⟨"REMOVED", joinPath sp.replica_path d,
        [("shutil.rmtree", joinPath sp.replica_path d)], ?_, ?_, by simp⟩
      · rw [hst']
      · rw [hst']
  · intro f st st' h
    rcases copyFileStep_cases h with ⟨heq, _, _⟩ | ⟨_, _, fs1, _, hst'⟩ |
      ⟨_, _, _, fs1, fs2, _, _, hst'⟩
    · exact Or.inl heq
    · right
      refine ⟨"CREATED", joinPath sp.replica_path f,
        [("shutil.copy2", joinPath sp.replica_path f)], ?_, ?_, by simp⟩
      · rw [hst']
      · rw [hst']
    · right
      refine ⟨"MODIFIED", joinPath sp.replica_path f,
        [("os.remove", joinPath sp.replica_path f),
         ("shutil.copy2", joinPath sp.replica_path f)], ?_, ?_, by simp⟩
      · rw [hst']
      · rw [hst']
  · intro f st st' h
    rcases deleteFileStep_cases h with ⟨heq, _⟩ | ⟨_, _, fs1, _, hst'⟩
    · exact Or.inl heq
    · right
      refine ⟨"REMOVED", joinPath sp.replica_path f,
        [("os.remove", joinPath sp.replica_path f)], ?_, ?_, by simp⟩
      · rw [hst']
      · rw [hst']
  · intro f st st' rfd sfd h hrfd hsfd hdig
    rcases copyFileStep_cases h with ⟨heq, _, _⟩ | ⟨hexf, _, fs1, _, hst'⟩ |
      ⟨_, _, ⟨rfd', sfd', hrfd', hsfd', hne'⟩, fs1, fs2, _, _, hst'⟩
    · exact heq
    · exfalso
      simp only [existsFS, Bool.or_eq_false_iff] at hexf
      rw [hrfd] at hexf
      exact absurd hexf.2 (by simp)
    · exfalso
      rw [hrfd] at hrfd'
      rw [hsfd] at hsfd'
      injection hrfd' with h1
      injection hsfd' with h2
      rw [h1, h2] at hdig
      exact hne' hdig

/-- Evaluation of C7 on one no-op and one mutating step. -/
theorem C7_log_per_action_witness :
    (((⟨fsW5, [], []⟩ : SyncState) = ⟨fsW5, [], []⟩ ∨
      ∃ a p ms, (⟨fsW5, [], []⟩ : SyncState).log = (⟨fsW5, [], []⟩ : SyncState).log ++ [(a, p)] ∧
        (⟨fsW5, [], []⟩ : SyncState).muts = (⟨fsW5, [], []⟩ : SyncState).muts ++ ms ∧ ms ≠ []) ∧
    (stW5' = ⟨fsW5, [], []⟩ ∨
      ∃ a p ms, stW5'.log = (⟨fsW5, [], []⟩ : SyncState).log ++ [(a, p)] ∧
        stW5'.muts = (⟨fsW5, [], []⟩ : SyncState).muts ++ ms ∧ ms ≠ [])) :=
  ⟨(@C7_log_per_action spW5 exDigest).1 ["z"] ⟨fsW5, [], []⟩
      ⟨fsW5, [], []⟩ (by rfl),
   (@C7_log_per_action spW5 exDigest).2.2.1 ["f"] ⟨fsW5, [], []⟩
      stW5' (by rfl)⟩

/- Claim C8. -/

/-- C8: the specification claims a vanished root aborts the cycle cleanly
and the process retries on the next scheduled cycle.  In the program the
`FileNotFoundError` from `os.scandir` propagates out of the unprotected
`while True` loop: with fuel for three polls the run terminates during
the first cycle with the uncaught error and zero completed cycles. -/
theorem C8_counterexample :
    existsFS fsC8 spC8.source_path = false ∧
    mainLoopPy spC8 exDigest "5" 3 ⟨fsC8, [], []⟩ = ⟨0, some "FileNotFoundError"⟩ := by
  exact ⟨by decide, by rfl⟩

/-- C8 (amended): when the source root does not exist, `list_dirs` fails
with `FileNotFoundError`, the error propagates through `full_sync`, and
the poll loop terminates immediately with that uncaught error — no
further cycle is attempted regardless of the remaining fuel. -/
theorem C8_missing_root_no_retry {sp : SyncPaths} {digest : List Nat → Nat} {st : SyncState}
    (fuel : Nat) (interval : String)
    (hmiss : existsFS st.fs sp.source_path = false) :
    list_dirs st.fs [] sp.source_path = .error "FileNotFoundError" ∧
    full_sync sp digest st = .error "FileNotFoundError" ∧
    mainLoopPy sp digest interval (fuel + 1) st = ⟨0, some "FileNotFoundError"⟩ := by
  simp only [existsFS, Bool.or_eq_false_iff] at hmiss
  have hdir : lookupDir st.fs sp.source_path = none := by
    cases hc : lookupDir st.fs sp.source_path with
    | none => rfl
    | some t =>
      rw [hc] at hmiss
      exact absurd hmiss.1 (by simp)
  have hfile : (lookupFile st.fs sp.source_path).isSome = false := hmiss.2
  have hld : list_dirs st.fs [] sp.source_path = .error "FileNotFoundError" := by
    simp only [list_dirs, hdir]
    rw [if_neg (by rw [hfile]; simp)]
  have hsf : sync_folders sp st = .error "FileNotFoundError" := by
    simp only [sync_folders, hld, bind, Except.bind]
  have hfs : full_sync sp digest st = .error "FileNotFoundError" := by
    simp only [full_sync, hsf, bind, Except.bind]
  refine ⟨hld, hfs, ?_⟩
  simp only [mainLoopPy, hfs]

/-- Evaluation of C8 on the concrete missing source root. -/
theorem C8_missing_root_no_retry_witness :
    existsFS fsC8 spC8.source_path = false ∧
    (list_dirs fsC8 [] spC8.source_path = .error "FileNotFoundError" ∧
    full_sync spC8 exDigest ⟨fsC8, [], []⟩ = .error "FileNotFoundError" ∧
    mainLoopPy spC8 exDigest "7" (2 + 1) ⟨fsC8, [], []⟩ = ⟨0, some "FileNotFoundError"⟩) :=
  ⟨by decide, @C8_missing_root_no_retry spC8 exDigest ⟨fsC8, [], []⟩ 2 "7" (by decide)⟩

/- Claim C9. -/

/-- C9: the specification claims every startup-validation failure occurs
before any sync cycle runs.  The interval `"½"` passes the `isnumeric`
check, so validation succeeds, one full cycle runs, and only then does
`int("½")` raise `ValueError`: the process fails after the first cycle,
not before it. -/
theorem C9_counterexample :
    pyIsNumeric "½" = true ∧ pyIntParse "½" = none ∧
    pymain fsC9 exDigest ["main.py", ".\\s", ".\\r", ".\\log", "½"] 5 =
      ⟨1, some "ValueError"⟩ := by
  exact ⟨by decide, by decide, by decide⟩

/-- C9 (amended): any argument count other than five terminates with
`TypeError` before any cycle; a missing path argument — source, replica
or log path, checked in that order — terminates with
`FileNotFoundError` before any cycle; a non-`isnumeric` interval
terminates with `ValueError` before any cycle; but an `isnumeric`
interval that `int()` rejects passes validation, and when the first
cycle succeeds the process terminates with `ValueError` only after that
first cycle. -/
theorem C9_launcher_validation (fs : Tree) (digest : List Nat → Nat) (fuel : Nat) :
    (∀ argv : List String, argv.length ≠ 5 →
      pymain fs digest argv fuel = ⟨0, some "TypeError"⟩) ∧
    (∀ a src rep logp iv, existsFS fs (toPath src) = false →
      pymain fs digest [a, src, rep, logp, iv] fuel = ⟨0, some "FileNotFoundError"⟩) ∧
    (∀ a src rep logp iv, existsFS fs (toPath src) = true →
      existsFS fs (toPath rep) = false →
      pymain fs digest [a, src, rep, logp, iv] fuel = ⟨0, some "FileNotFoundError"⟩) ∧
    (∀ a src rep logp iv, existsFS fs (toPath src) = true →
      existsFS fs (toPath rep) = true → existsFS fs (toPath logp) = false →
      pymain fs digest [a, src, rep, logp, iv] fuel = ⟨0, some "FileNotFoundError"⟩) ∧
    (∀ a src rep logp iv, existsFS fs (toPath src) = true →
      existsFS fs (toPath rep) = true → existsFS fs (toPath logp) = true →
      pyIsNumeric iv = false →
      pymain fs digest [a, src, rep, logp, iv] fuel = ⟨0, some "ValueError"⟩) ∧
    (∀ a src rep logp iv st1, existsFS fs (toPath src) = true →
      existsFS fs (toPath rep) = true → existsFS fs (toPath logp) = true →
      pyIsNumeric iv = true → pyIntParse iv = none →
      full_sync ⟨toPath src, toPath rep, toPath logp⟩ digest ⟨fs, [], []⟩ = .ok st1 →
      pymain fs digest [a, src, rep, logp, iv] (fuel + 1) = ⟨1, some "ValueError"⟩) := by
  refine ⟨?_, ?_, ?_, ?_, ?_, ?_⟩
  · intro argv hlen
    rcases argv with _ | ⟨a1, _ | ⟨a2, _ | ⟨a3, _ | ⟨a4, _ | ⟨a5, rest⟩⟩⟩⟩⟩
    · rfl
    · rfl
    · rfl
    · rfl
    · rfl
    · cases rest with
      | nil => simp at hlen
      | cons a6 rest' => rfl
  · intro a src rep logp iv hmiss
    simp only [pymain, hmiss]
    rfl
  · intro a src rep logp iv h1 hmiss
    simp only [pymain, h1, hmiss]
    rfl
  · intro a src rep logp iv h1 h2 hmiss
    simp only [pymain, h1, h2, hmiss]
    rfl
  · intro a src rep logp iv h1 h2 h3 hnum
    simp only [pymain, h1, h2, h3, hnum]
    rfl
  · intro a src rep logp iv st1 h1 h2 h3 hnum hparse hcycle
    simp [pymain, h1, h2, h3, hnum, mainLoopPy, hcycle, hparse]

/-- Evaluation of C9 on concrete launcher invocations. -/
theorem C9_launcher_validation_witness :
    (pymain fsC9 exDigest ["main.py", ".\\s", ".\\r", ".\\log"] 4 = ⟨0, some "TypeError"⟩) ∧
    (pymain fsC9 exDigest ["main.py", ".\\missing", ".\\r", ".\\log", "5"] 4 =
      ⟨0, some "FileNotFoundError"⟩) ∧
    (pymain fsC9 exDigest ["main.py", ".\\s", ".\\missing", ".\\log", "5"] 4 =
      ⟨0, some "FileNotFoundError"⟩) ∧
    (pymain fsC9 exDigest ["main.py", ".\\s", ".\\r", ".\\missing", "5"] 4 =
      ⟨0, some "FileNotFoundError"⟩) ∧
    (pymain fsC9 exDigest ["main.py", ".\\s", ".\\r", ".\\log", "abc"] 4 =
      ⟨0, some "ValueError"⟩) ∧
    (pymain fsC9 exDigest ["main.py", ".\\s", ".\\r", ".\\log", "½"] (3 + 1) =
      ⟨1, some "ValueError"⟩) :=
  ⟨(C9_launcher_validation fsC9 exDigest 4).1 _ (by decide),
   (C9_launcher_validation fsC9 exDigest 4).2.1 "main.py" ".\\missing" ".\\r" ".\\log" "5"
     (by decide),
   (C9_launcher_validation fsC9 exDigest 4).2.2.1 "main.py" ".\\s" ".\\missing" ".\\log" "5"
     (by decide) (by decide),
   (C9_launcher_validation fsC9 exDigest 4).2.2.2.1 "main.py" ".\\s" ".\\r" ".\\missing" "5"
     (by decide) (by decide) (by decide),
   (C9_launcher_validation fsC9 exDigest 4).2.2.2.2.1 "main.py" ".\\s" ".\\r" ".\\log" "abc"
     (by decide) (by decide) (by decide) (by decide),
   (C9_launcher_validation fsC9 exDigest 3).2.2.2.2.2 "main.py" ".\\s" ".\\r" ".\\log" "½"
     ⟨fsC9, [], []⟩
     (by decide) (by decide) (by decide) (by decide) (by rfl) (by rfl)⟩

/- Claim C10. -/

/-- The heap holding the four default list objects of the class
definition. -/
def c10h0 : PyHeap := defaultsHeap.1

/-- The references to the default list objects. -/
def c10defs : SyncFilesObj := defaultsHeap.2

/-- The first instance constructed from the defaults. -/
def c10inst1 : PyHeap × SyncFilesObj := initFromDefaults c10h0 c10defs

/-- The heap after the first instance appends `p` to its
`source_folders` list. -/
def c10heap2 (p : Path) : PyHeap := c10inst1.1.append c10inst1.2.source_folders p

/-- A second instance constructed from the same defaults after the
append. -/
def c10inst2 (p : Path) : PyHeap × SyncFilesObj := initFromDefaults (c10heap2 p) c10defs

/-- C10: the constructor copies each list argument with `list(...)`, so
the mutable default list objects are never shared.  An instance built
without explicit lists starts with four empty lists held in fresh cells
distinct from the default cells; appending to one of its lists changes
that list alone, leaves all four defaults empty, and a second instance
constructed afterwards from the same defaults again starts with four
empty, independent lists. -/
theorem C10_default_lists_independent (p : Path) :
    (c10h0.read c10defs.source_folders = [] ∧ c10h0.read c10defs.replica_folders = [] ∧
     c10h0.read c10defs.source_files = [] ∧ c10h0.read c10defs.replica_files = []) ∧
    (c10inst1.1.read c10inst1.2.source_folders = [] ∧
     c10inst1.1.read c10inst1.2.replica_folders = [] ∧
     c10inst1.1.read c10inst1.2.source_files = [] ∧
     c10inst1.1.read c10inst1.2.replica_files = []) ∧
    (c10inst1.2.source_folders ≠ c10defs.source_folders ∧
     c10inst1.2.replica_folders ≠ c10defs.replica_folders ∧
     c10inst1.2.source_files ≠ c10defs.source_files ∧
     c10inst1.2.replica_files ≠ c10defs.replica_files) ∧
    (c10heap2 p).read c10inst1.2.source_folders = [p] ∧
    ((c10heap2 p).read c10defs.source_folders = [] ∧
     (c10heap2 p).read c10defs.replica_folders = [] ∧
     (c10heap2 p).read c10defs.source_files = [] ∧
     (c10heap2 p).read c10defs.replica_files = []) ∧
    ((c10inst2 p).1.read (c10inst2 p).2.source_folders = [] ∧
     (c10inst2 p).1.read (c10inst2 p).2.replica_folders = [] ∧
     (c10inst2 p).1.read (c10inst2 p).2.source_files = [] ∧
     (c10inst2 p).1.read (c10inst2 p).2.replica_files = []) ∧
    ((c10inst2 p).1.read c10inst1.2.source_folders = [p] ∧
     (c10inst2 p).2.source_folders ≠ c10inst1.2.source_folders) := by
  refine ⟨⟨rfl, rfl, rfl, rfl⟩, ⟨rfl, rfl, rfl, rfl⟩,
    ⟨by decide, by decide, by decide, by decide⟩, rfl,
    ⟨rfl, rfl, rfl, rfl⟩, ⟨rfl, rfl, rfl, rfl⟩, ⟨rfl, ?_⟩⟩
  show (8 : Nat) ≠ 4
  decide

end SyncModel
